import Mathlib

/-!
# Event bus of `src/include/Event.h`

A shallow embedding of `EventBase<TArg, TDel>` (the publish/subscribe bus) together with the
delegate classes it stores.  Pointers to heap objects are modelled by allocation numbers, the
two `std::vector` members by lists, and the calls that the C++ code makes on delegate objects
(`clone`, `destroy`, `operator()`, `cancel`) are recorded in observation logs that are part of
the state, so that statements about "which object was destroyed / invoked" can be made.

Threads: `m_Lock` is a `std::recursive_mutex`.  The state records which thread owns it; a
`lock_guard` region is described from the moment the calling thread has acquired the mutex and
gives the mutex back in the state in which it found it (a recursive mutex counts its owner's
acquisitions).  `m_PendingLock` is only ever held for the duration of a queue operation and is
free whenever an operation of the bus starts, so it carries no state here.
-/

namespace Desura

/-- What a delegate is bound to; the fields are the ones its `equals` compares.
`funct` is `FunctDelegateBase` (`m_pFunct`), `obj` is `ObjDelegateBase` (`m_pObj`, `m_pFunct`),
`proxie` is `ProxieDelegateBase` (`m_pEvent`) and `wildcard` is `WildCardDelegate` (`m_pObj`),
the delegate class that also derives from `InvokeI`. -/
inductive Target where
  | funct (m_pFunct : Nat)
  | obj (m_pObj : Nat) (m_pFunct : Nat)
  | proxie (m_pEvent : Nat)
  | wildcard (m_pObj : Nat)
deriving DecidableEq, Repr

/-- A delegate object on the heap: `addr` is the number of the allocation that created it. -/
structure Del where
  addr : Nat
  target : Target
deriving DecidableEq, Repr

/-- The virtual `equals`: a `dynamic_cast` to the receiver's own class, then a comparison of
the bound pointers. -/
def Del.equals (a b : Del) : Bool :=
  match a.target, b.target with
  | .funct f, .funct g => f == g
  | .obj o m, .obj o2 m2 => o == o2 && m == m2
  | .proxie e, .proxie e2 => e == e2
  | .wildcard o, .wildcard o2 => o == o2
  | _, _ => false

/-- Result of `dynamic_cast<InvokeI*>`: only `WildCardDelegate` derives from `InvokeI`. -/
def Del.isInvokeI (d : Del) : Bool :=
  match d.target with
  | .wildcard _ => true
  | _ => false

/-- The sentinel `#define UNKNOWN_ITEM 0xFFFFFFFF`. -/
def UNKNOWN_ITEM : Nat := 0xFFFFFFFF

/-- State of one `EventBase` object, followed by the observation logs. -/
structure EventBase where
  /-- The live sequence `std::vector<TDel*> m_vDelegates`. -/
  m_vDelegates : List Del
  /-- The queue `std::vector<std::pair<bool, TDel*>> m_vPendingDelegates`. -/
  m_vPendingDelegates : List (Bool × Del)
  m_bCancel : Bool
  m_pCurDelegate : Option Del
  /-- Owner of the recursive mutex `m_Lock`, if any. -/
  m_Lock : Option Nat
  /-- Number of the next heap allocation. -/
  nextAddr : Nat
  /-- Objects on which `destroy()` ran, oldest first. -/
  destroyed : List Nat
  /-- Objects on which `operator()` ran, oldest first. -/
  invoked : List Del
  /-- Objects on which `cancel()` ran, oldest first. -/
  cancelled : List Nat
deriving DecidableEq, Repr

namespace EventBase

/-- The constructor `EventBase()`; `heap` is the allocation counter at that time. -/
def new (heap : Nat) : EventBase :=
  { m_vDelegates := [], m_vPendingDelegates := [], m_bCancel := false, m_pCurDelegate := none,
    m_Lock := none, nextAddr := heap, destroyed := [], invoked := [], cancelled := [] }

/-- The call `d->clone()`: a new object bound to the same target. -/
def clone (d : Del) (s : EventBase) : Del × EventBase :=
  ({ addr := s.nextAddr, target := d.target }, { s with nextAddr := s.nextAddr + 1 })

/-- The call `d->destroy()` (`delete this`).  The object is only recorded as destroyed; a
state that still refers to a destroyed object is told apart by `Alive` below, and the
statements about executions are restricted to steps taken in states that are `Alive`. -/
def destroy (d : Del) (s : EventBase) : EventBase :=
  { s with destroyed := s.destroyed ++ [d.addr] }

/-- The factory functions `delegate(...)` / `wcDelegate(...)`: `new` of a delegate bound to
`tg`. -/
def delegate (tg : Target) (s : EventBase) : Del × EventBase :=
  ({ addr := s.nextAddr, target := tg }, { s with nextAddr := s.nextAddr + 1 })

/-- Loop of `findInfo`, started at index `x`. -/
def findInfoFrom (d : Del) : List Del → Nat → Nat
  | [], _ => UNKNOWN_ITEM
  | e :: rest, x => if e.equals d then x else findInfoFrom d rest (x + 1)

/-- The method `findInfo`: index of the first live delegate that `equals(d)`, or
`UNKNOWN_ITEM`. -/
def findInfo (s : EventBase) (d : Del) : Nat :=
  findInfoFrom d s.m_vDelegates 0

/-- One iteration of the loop of `migratePending`. -/
def migrateStep (s : EventBase) (p : Bool × Del) : EventBase :=
  if p.1 then
    if s.findInfo p.2 = UNKNOWN_ITEM then
      { s with m_vDelegates := s.m_vDelegates ++ [p.2] }
    else
      s.destroy p.2
  else
    let index := s.findInfo p.2
    let s1 := s.destroy p.2
    if index ≠ UNKNOWN_ITEM then
      { s1 with m_vDelegates := s1.m_vDelegates.eraseIdx index }
    else
      s1

/-- The method `migratePending`. -/
def migratePending (s : EventBase) : EventBase :=
  { s.m_vPendingDelegates.foldl migrateStep s with m_vPendingDelegates := [] }

/-- Outcome of `m_Lock.try_lock()` for thread `t`: a recursive mutex is acquired when it is
free or already owned by the caller. -/
def try_lock (t : Nat) (s : EventBase) : Bool :=
  match s.m_Lock with
  | none => true
  | some o => o == t

/-- A region in which thread `t` holds `m_Lock`; on exit the mutex is as it was found. -/
def withLock (t : Nat) (body : EventBase → EventBase) (s : EventBase) : EventBase :=
  { body { s with m_Lock := some t } with m_Lock := s.m_Lock }

/-- The method `operator+=(TDel* d)` called by thread `t`; `none` is a null pointer. -/
def operator_plus_eq (t : Nat) (d : Option Del) (s : EventBase) : EventBase :=
  match d with
  | none => s
  | some d =>
    let (c, s1) := s.clone d
    let s2 := { s1 with m_vPendingDelegates := s1.m_vPendingDelegates ++ [(true, c)] }
    let s3 := if s2.try_lock t then withLock t migratePending s2 else s2
    s3.destroy d

/-- The method `operator-=(TDel* d)` called by thread `t`; `none` is a null pointer. -/
def operator_minus_eq (t : Nat) (d : Option Del) (s : EventBase) : EventBase :=
  match d with
  | none => s
  | some d =>
    let (c, s1) := s.clone d
    let s2 := { s1 with m_vPendingDelegates := s1.m_vPendingDelegates ++ [(false, c)] }
    if s2.try_lock t then withLock t migratePending s2 else s2

/-- The method `reset()` called by thread `t`.  The guard `!this || !&m_vDelegates` is never
taken for an object that exists.  This is the method as it runs for a caller that owns
`m_Lock` or finds it free; a caller that has to wait for `m_Lock` runs `reset_request` at
once and `reset_clear` when it gets the mutex. -/
def reset (t : Nat) (s : EventBase) : EventBase :=
  let s1 := { s with m_bCancel := true }
  let s2 :=
    match s1.m_pCurDelegate with
    | some d => if d.isInvokeI then { s1 with cancelled := s1.cancelled ++ [d.addr] } else s1
    | none => s1
  let s3 := withLock t
    (fun a => { a.m_vDelegates.foldl (fun b d => b.destroy d) a with m_vDelegates := [] }) s2
  let s4 := s3.m_vPendingDelegates.foldl (fun b p => b.destroy p.2) s3
  { s4 with m_bCancel := false }

/-- The method `flush()` called by thread `t`. -/
def flush (t : Nat) (s : EventBase) : EventBase :=
  withLock t migratePending s

/-- The method `operator=(const EventBase& e)`; `e` is `e.m_vDelegates`. -/
def operator_assign (t : Nat) (e : List Del) (s : EventBase) : EventBase :=
  withLock t (fun a =>
    let temp := a.m_vDelegates
    let a1 := { a with m_vDelegates := [] }
    let a2 := e.foldl (fun b d =>
      let (c, b1) := b.clone d
      { b1 with m_vDelegates := b1.m_vDelegates ++ [c] }) a1
    temp.foldl (fun b d => b.destroy d) a2) s

/-- The method `operator+=(const EventBase& e)`; `e` is `e.m_vDelegates`. -/
def operator_plus_eq_event (t : Nat) (e : List Del) (s : EventBase) : EventBase :=
  withLock t (fun a =>
    e.foldl (fun b d =>
      if b.findInfo d = UNKNOWN_ITEM then
        let (c, b1) := b.clone d
        { b1 with m_vDelegates := b1.m_vDelegates ++ [c] }
      else b) a) s

end EventBase

/-- A call on the bus as client code writes it.  `subscribe (some tg)` is
`bus += delegate(tg)` and `subscribe none` passes a null pointer; likewise `unsubscribe`. -/
inductive Call where
  | subscribe (tg : Option Target)
  | unsubscribe (tg : Option Target)
  | flush
  | reset
  | assign (e : List Del)
  | union (e : List Del)

/-- Thread `t` makes the call `c`. -/
def Call.exec (t : Nat) (c : Call) (s : EventBase) : EventBase :=
  match c with
  | .subscribe none => s.operator_plus_eq t none
  | .subscribe (some tg) => let (d, s1) := s.delegate tg; s1.operator_plus_eq t (some d)
  | .unsubscribe none => s.operator_minus_eq t none
  | .unsubscribe (some tg) => let (d, s1) := s.delegate tg; s1.operator_minus_eq t (some d)
  | .flush => s.flush t
  | .reset => s.reset t
  | .assign e => s.operator_assign t e
  | .union e => s.operator_plus_eq_event t e

/-- What happens on the bus while one handler runs: calls made by the handler itself, which
runs on the dispatching thread, and `+=` / `-=` calls made meanwhile by another thread `u`
(these two never wait for `m_Lock`).  A handler that publishes on the same bus again is not
described. -/
inductive Action where
  | self (c : Call)
  | concurrentSubscribe (u : Nat) (tg : Option Target)
  | concurrentUnsubscribe (u : Nat) (tg : Option Target)

/-- Effect of one action during a dispatch by thread `t`. -/
def Action.exec (t : Nat) (a : Action) (s : EventBase) : EventBase :=
  match a with
  | .self c => c.exec t s
  | .concurrentSubscribe u tg => (Call.subscribe tg).exec u s
  | .concurrentUnsubscribe u tg => (Call.unsubscribe tg).exec u s

/-- Behaviour of the handlers: the actions performed while the `operator()` of a delegate
runs. -/
abbrev Handlers := Del → List Action

namespace EventBase

/-- The body of a handler: its actions in order. -/
def runHandler (t : Nat) (acts : List Action) (s : EventBase) : EventBase :=
  acts.foldl (fun b a => a.exec t b) s

/-- The `for (size_t x = 0; x < m_vDelegates.size(); x++)` loop of `operator()`, from index
`x`, with a bound on the number of iterations; `none` when the bound is reached.  The size is
read again on every iteration, as in the source.  Every pointer stored in `m_vDelegates` is
the result of a `clone()`, hence not null, so the `continue` of the loop is never taken. -/
def dispatch (h : Handlers) (t : Nat) : Nat → Nat → EventBase → Option EventBase
  | 0, _, _ => none
  | fuel + 1, x, s =>
    match s.m_vDelegates[x]? with
    | none => some s
    | some d =>
      let s1 := { s with m_pCurDelegate := some d, invoked := s.invoked ++ [d] }
      let s2 := s1.runHandler t (h d)
      let s3 := { s2 with m_pCurDelegate := none }
      if s3.m_bCancel then some s3 else dispatch h t fuel (x + 1) s3

/-- The method `operator()` (publish) called by thread `t`, handlers behaving as `h`. -/
def operator_call (h : Handlers) (t : Nat) (fuel : Nat) (s : EventBase) : Option EventBase :=
  match dispatch h t fuel 0 (migratePending { s with m_Lock := some t }) with
  | none => none
  | some s2 => some { migratePending s2 with m_Lock := s.m_Lock }

end EventBase

/-! ## Vocabulary of the statements -/

/-- No two delegates of the list are equal under `equals`. -/
def NoDuplicate (l : List Del) : Prop :=
  l.Pairwise (fun a b => a.equals b = false)

instance (l : List Del) : Decidable (NoDuplicate l) := by
  unfold NoDuplicate; infer_instance

/-- Effect of one iteration of `migratePending` on the live sequence alone. -/
def liveStep (l : List Del) (p : Bool × Del) : List Del :=
  if p.1 then
    if EventBase.findInfoFrom p.2 l 0 = UNKNOWN_ITEM then l ++ [p.2] else l
  else
    if EventBase.findInfoFrom p.2 l 0 ≠ UNKNOWN_ITEM then
      l.eraseIdx (EventBase.findInfoFrom p.2 l 0)
    else l

/-- A top-level operation on the bus: a call by thread `t`, or a publish by thread `t` whose
handlers behave as `h`, with a bound on the iterations of the dispatch loop. -/
inductive Op where
  | call (t : Nat) (c : Call)
  | publish (t : Nat) (h : Handlers) (fuel : Nat)

/-- Run one operation; `none` when a dispatch loop exceeds its bound. -/
def Op.exec (op : Op) (s : EventBase) : Option EventBase :=
  match op with
  | .call t c => some (c.exec t s)
  | .publish t h fuel => s.operator_call h t fuel

/-- Run a sequence of operations one after the other. -/
def run : List Op → EventBase → Option EventBase
  | [], s => some s
  | op :: rest, s =>
    match op.exec s with
    | none => none
    | some s1 => run rest s1

/-- The bus copied from by `operator=` is itself duplicate-free. -/
def Call.wf (c : Call) : Prop :=
  match c with
  | .assign e => NoDuplicate e
  | _ => True

/-- No live delegate and no queued addition equals `d`. -/
def Absent (d : Del) (s : EventBase) : Prop :=
  (∀ e ∈ s.m_vDelegates, e.equals d = false) ∧
    (∀ p ∈ s.m_vPendingDelegates, p.1 = true → p.2.equals d = false)

/-- The call subscribes nothing equal to `d`. -/
def Call.avoids (d : Del) (c : Call) : Prop :=
  match c with
  | .subscribe (some tg) => tg ≠ d.target
  | .assign e => ∀ x ∈ e, x.equals d = false
  | .union e => ∀ x ∈ e, x.equals d = false
  | _ => True

/-! ## Scenarios -/

/-- Three subscriptions registered one after the other on an empty bus. -/
def threeSubscribers : List Op :=
  [.call 1 (.subscribe (some (.funct 0))), .call 1 (.subscribe (some (.funct 1))),
   .call 1 (.subscribe (some (.funct 2)))]

/-- Handlers of which the one bound to `funct k` unsubscribes itself; the others do nothing. -/
def selfUnsubscribe (k : Nat) : Handlers := fun d =>
  if d.target = .funct k then [.self (.unsubscribe (some (.funct k)))] else []

/-- Handlers of which the one bound to `funct k` unsubscribes itself and subscribes again. -/
def resubscribe (k : Nat) : Handlers := fun d =>
  if d.target = .funct k then
    [.self (.unsubscribe (some (.funct k))), .self (.subscribe (some (.funct k)))]
  else []

/-- Handlers of which the one bound to `funct k` subscribes `funct j`. -/
def subscribeOther (k j : Nat) : Handlers := fun d =>
  if d.target = .funct k then [.self (.subscribe (some (.funct j)))] else []

/-- A run that exercises every kind of operation. -/
def C4_ops : List Op :=
  [.call 1 (.subscribe (some (.funct 0))), .call 2 (.subscribe (some (.obj 7 1))),
   .call 1 (.subscribe (some (.funct 0))), .publish 1 (resubscribe 0) 10,
   .call 1 (.union [⟨100, .funct 0⟩, ⟨101, .proxie 4⟩]),
   .call 2 (.assign [⟨200, .funct 3⟩, ⟨201, .funct 0⟩])]

/-- The state reached by `C4_ops` from the empty bus. -/
def C4_state : EventBase :=
  { m_vDelegates := [⟨15, .funct 3⟩, ⟨16, .funct 0⟩], m_vPendingDelegates := [],
    m_bCancel := false, m_pCurDelegate := none, m_Lock := none, nextAddr := 17,
    destroyed := [0, 2, 5, 4, 7, 8, 11, 12, 3, 13, 14],
    invoked := [⟨1, .funct 0⟩, ⟨9, .funct 0⟩], cancelled := [] }

/-- The bus of `threeSubscribers` at the moment the first handler runs in a dispatch by
thread 1. -/
def midDispatch : EventBase :=
  { m_vDelegates := [⟨1, .funct 0⟩, ⟨3, .funct 1⟩, ⟨5, .funct 2⟩], m_vPendingDelegates := [],
    m_bCancel := false, m_pCurDelegate := some ⟨1, .funct 0⟩, m_Lock := some 1, nextAddr := 6,
    destroyed := [0, 2, 4], invoked := [⟨1, .funct 0⟩], cancelled := [] }

/-- Thread 2 subscribes `funct 9` to an empty bus while thread 1 owns `m_Lock`. -/
def queuedBus : EventBase :=
  (Call.subscribe (some (.funct 9))).exec 2 { EventBase.new 0 with m_Lock := some 1 }

/-- Handlers during which thread 2 subscribes `funct 9` and which then call `reset()` twice. -/
def resetTwice : Handlers := fun _ =>
  [.concurrentSubscribe 2 (some (.funct 9)), .self .reset, .self .reset]

/-- The bus of `threeSubscribers` after a publish in which the second handler unsubscribed
itself. -/
def scenarioA : EventBase :=
  { m_vDelegates := [⟨1, .funct 0⟩, ⟨5, .funct 2⟩], m_vPendingDelegates := [],
    m_bCancel := false, m_pCurDelegate := none, m_Lock := none, nextAddr := 8,
    destroyed := [0, 2, 4, 7], invoked := [⟨1, .funct 0⟩, ⟨3, .funct 1⟩], cancelled := [] }

/-- A bus on which thread 1 has subscribed `funct 0`, thread 2 `obj 5 6` and thread 1
`proxie 2`, in this order. -/
def C5_bus : EventBase :=
  { EventBase.new 6 with
    m_vDelegates := [⟨1, .funct 0⟩, ⟨3, .obj 5 6⟩, ⟨5, .proxie 2⟩], destroyed := [0, 2, 4] }

instance (d : Del) (s : EventBase) : Decidable (Absent d s) := by
  unfold Absent; infer_instance

/-! # Download task of `src/shared/usercore/code/DownloadTask.cpp`

The task talks to its collaborators (item handle, item info, branch, tool manager, its own
event buses) through calls.  The calls are recorded, in order, in a log that is part of the
task state; what a collaborator answers is given by an environment whose answers may depend
on everything that was called before. -/

/-- The constant `UINT_MAX` for a 32 bit `unsigned int`. -/
def UINT_MAX : Nat := 4294967295

/-- The error codes thrown by the task. -/
inductive ErrCode where
  | ERR_BADID
  | ERR_INVALID
deriving DecidableEq, Repr

/-- A call made by the task on a collaborator. -/
inductive Ev where
  | Warning
  | setPausable (state : Bool)
  | setPaused (paused forced : Bool)
  | resetStage (close : Bool)
  | completeStage (close : Bool)
  | goToStageDownloadTools (ttid : Nat) (downloadPath : String) (branch build : Nat)
  | goToStageInstall (path : String) (branch : Nat)
  | goToStageInstallComplex (branch build : Nat)
  | addSFlag (flag : Nat)
  | delSFlag (flag : Nat)
  | onCompleteStrEvent (savePath : String)
  | getToolList
  | areAllToolsValid (list : List Nat)
  | reloadTools (id : Nat)
  | downloadTools (toolsList : List Nat)
  | updateTransaction (ttid : Nat)
  | removeTransaction (ttid : Nat) (forced : Bool)
  | BaseItemTask_onStop
  | cancelDownloadBannerHooks
  | onMcfProgressEvent (flag percent : Nat)
  | setPercent (percent : Nat)
  | MCF_setFile (path : String)
  | MCF_parseMCF
  | MCF_forceLoad
  | MCF_dlFilesFromWeb
  | MCF_pause
  | MCF_unpause
  | downloadBanner
  | onNewProviderEvent (action : Nat)
deriving DecidableEq, Repr

/-- Answers of the collaborators; the first argument is the log of the calls made so far. -/
structure Env where
  /-- `isStopped()` of the base class. -/
  isStopped : List Ev → Bool
  /-- `getItemInfo()->getCurrentBranch()->isPreOrder()`. -/
  isPreOrder : List Ev → Bool
  /-- `getToolList(toolList)`: the vector passed in, and the vector as the call leaves it. -/
  getToolList : List Ev → List Nat → List Nat
  /-- `areAllToolsValid(toolList)`. -/
  areAllToolsValid : List Ev → List Nat → Bool
  /-- `downloadTools(tt)`, for the tool list of the transaction. -/
  downloadTools : List Ev → List Nat → Nat
  /-- `getItemInfo()->getStatus()`. -/
  getStatus : List Ev → Nat
  /-- `getItemHandle()->shouldPauseOnError()`. -/
  shouldPauseOnError : List Ev → Bool
  /-- What the subscribers of `onCompleteStrEvent` leave in the string they are passed. -/
  onCompleteStr : List Ev → String → String
  /-- `dynamic_cast<UserCore::User*>(getUserCore())` is not null. -/
  isUser : Bool
  getItemId : Nat
  getMcfBranch : Nat
  getMcfBuild : Nat
  /-- The flag constants of `ItemInfoI`. -/
  STATUS_PRELOADED : Nat
  STATUS_DOWNLOADING : Nat
  STATUS_INSTALLCOMPLEX : Nat

/-- Modelled from the spec: the helper `HasAllFlags` of `Common.h`, which is not among the
sources; the item "has all bits" of the flag set. -/
def HasAllFlags (value flags : Nat) : Bool :=
  (value &&& flags) == flags

/-- State of a `DownloadTask` object, followed by the log of its calls.  The members are
declared in `DownloadTask.h`, which is not among the sources; `m_ToolTTID` is taken to be a
`ToolTransactionId`, that is a `uint32`. -/
structure DownloadTask where
  m_bInError : Bool
  m_ToolTTID : Nat
  m_bToolDownloadComplete : Bool
  m_szMcfPath : String
  m_bInitFinished : Bool
  /-- Calls made so far, oldest first. -/
  calls : List Ev
deriving DecidableEq, Repr

namespace DownloadTask

/-- The constructor; `m_ToolTTID = -1` is the conversion of `-1` to `uint32`.  The
subscription of `onError` to `onErrorEvent` is what makes `onError` run on an error event. -/
def new (mcfPath : String) : DownloadTask :=
  { m_bInError := false, m_ToolTTID := Int.toNat ((-1 : Int) % 2 ^ 32),
    m_bToolDownloadComplete := false, m_szMcfPath := mcfPath, m_bInitFinished := false,
    calls := [] }

/-- Record a call. -/
def call (e : Ev) (s : DownloadTask) : DownloadTask :=
  { s with calls := s.calls ++ [e] }

/-- The method `startToolDownload`; the second component is the exception thrown, if any. -/
def startToolDownload (env : Env) (s : DownloadTask) : DownloadTask × Option ErrCode :=
  if env.isPreOrder s.calls then (s, none)
  else
    let s1 := s.call .getToolList
    let toolList := env.getToolList s.calls []
    if toolList.length = 0 then (s1, none)
    else
      let s2 := s1.call (.areAllToolsValid toolList)
      if !env.areAllToolsValid s1.calls toolList then
        let s3 := s2.call (.reloadTools env.getItemId)
        let s4 := s3.call .getToolList
        let toolList2 := env.getToolList s3.calls toolList
        let s5 := s4.call (.areAllToolsValid toolList2)
        if !env.areAllToolsValid s4.calls toolList2 then (s5, some .ERR_INVALID)
        else
          let s6 := s5.call (.downloadTools toolList2)
          ({ s6 with m_ToolTTID := env.downloadTools s5.calls toolList2 % 2 ^ 32 }, none)
      else
        let s6 := s2.call (.downloadTools toolList)
        ({ s6 with m_ToolTTID := env.downloadTools s2.calls toolList % 2 ^ 32 }, none)

/-- The method `onToolComplete`. -/
def onToolComplete (s : DownloadTask) : DownloadTask :=
  { s with m_bToolDownloadComplete := true }

/-- The method `onComplete(savePath)`; the second component is `savePath` as the call leaves
it (it is passed by reference, also to the subscribers of `onCompleteStrEvent`). -/
def onComplete (env : Env) (savePath : String) (s : DownloadTask) : DownloadTask × String :=
  let hasError := s.m_bInError || env.isStopped s.calls
  let s1 :=
    if s.m_bToolDownloadComplete then
      { s.call (.removeTransaction s.m_ToolTTID hasError) with m_ToolTTID := UINT_MAX }
    else s
  if hasError then (s1.call (.completeStage true), savePath)
  else
    let s2 := s1.call (.onCompleteStrEvent savePath)
    let savePath2 := env.onCompleteStr s1.calls savePath
    if env.isPreOrder s2.calls then
      let s3 := s2.call (.addSFlag env.STATUS_PRELOADED)
      let s4 := s3.call (.delSFlag env.STATUS_DOWNLOADING)
      (s4.call (.completeStage true), savePath2)
    else if s2.m_ToolTTID ≠ UINT_MAX then
      let s3 := s2.call (.updateTransaction s2.m_ToolTTID)
      (s3.call (.goToStageDownloadTools s3.m_ToolTTID savePath2 env.getMcfBranch
        env.getMcfBuild), savePath2)
    else if HasAllFlags (env.getStatus s2.calls) env.STATUS_INSTALLCOMPLEX then
      (s2.call (.goToStageInstallComplex env.getMcfBranch env.getMcfBuild), savePath2)
    else
      (s2.call (.goToStageInstall savePath2 env.getMcfBranch), savePath2)

/-- The method `clearEvents`. -/
def clearEvents (env : Env) (s : DownloadTask) : DownloadTask :=
  if env.isUser then s.call .cancelDownloadBannerHooks else s

/-- The method `onStop`: the base class method, then `clearEvents`. -/
def onStop (env : Env) (s : DownloadTask) : DownloadTask :=
  clearEvents env (s.call .BaseItemTask_onStop)

/-- The method `onError(e)`. -/
def onError (env : Env) (s : DownloadTask) : DownloadTask :=
  let s1 := s.call .Warning
  let s2 := s1.call (.setPausable false)
  if !env.shouldPauseOnError s2.calls then
    ({ s2 with m_bInError := true }).call (.resetStage true)
  else
    s2.call (.setPaused true true)

/-- The method `cancel`. -/
def cancel (env : Env) (s : DownloadTask) : DownloadTask :=
  let s1 := s.call (.setPausable false)
  let s2 := onStop env s1
  s2.call (.resetStage true)

end DownloadTask

/-- The delegate class of a target, as `dynamic_cast` tells them apart. -/
def Target.kind : Target → Nat
  | .funct _ => 0
  | .obj _ _ => 1
  | .proxie _ => 2
  | .wildcard _ => 3

/-- The call is made on the tool manager. -/
def Ev.isToolService : Ev → Bool
  | .areAllToolsValid _ => true
  | .reloadTools _ => true
  | .downloadTools _ => true
  | .updateTransaction _ => true
  | .removeTransaction _ _ => true
  | _ => false

/-- The call is `areAllToolsValid`. -/
def Ev.isValidate : Ev → Bool
  | .areAllToolsValid _ => true
  | _ => false

/-- The call is `reloadTools`. -/
def Ev.isReload : Ev → Bool
  | .reloadTools _ => true
  | _ => false

/-- The call is `downloadTools`. -/
def Ev.isDownloadTools : Ev → Bool
  | .downloadTools _ => true
  | _ => false

/-- The call is one of the stage transitions or `completeStage`. -/
def Ev.isStageChange : Ev → Bool
  | .completeStage _ => true
  | .goToStageDownloadTools _ _ _ _ => true
  | .goToStageInstall _ _ => true
  | .goToStageInstallComplex _ _ => true
  | _ => false

/-- The call is `setPaused`. -/
def Ev.isSetPaused : Ev → Bool
  | .setPaused _ _ => true
  | _ => false

/-- The calls made since the log read `before`. -/
def newCalls (before : DownloadTask) (after : DownloadTask) : List Ev :=
  after.calls.drop before.calls.length

/-- An environment for the examples: a branch that is not a pre-order and declares the tools
`[3, 4]`, which are valid only after a reload; the item pauses on error or not as `pause`
says, and is a pre-order as `pre` says. -/
def demoEnv (pre pause : Bool) (status : Nat) : Env :=
  { isStopped := fun _ => false, isPreOrder := fun _ => pre,
    getToolList := fun _ _ => [3, 4],
    areAllToolsValid := fun l _ => l.any Ev.isReload,
    downloadTools := fun _ _ => 7, getStatus := fun _ => status,
    shouldPauseOnError := fun _ => pause, onCompleteStr := fun _ p => p, isUser := true,
    getItemId := 11, getMcfBranch := 1, getMcfBuild := 2, STATUS_PRELOADED := 64,
    STATUS_DOWNLOADING := 8, STATUS_INSTALLCOMPLEX := 512 }

/-- An environment like `demoEnv` whose tools stay invalid after the reload. -/
def demoEnvInvalid : Env :=
  { demoEnv false false 0 with areAllToolsValid := fun _ _ => false }

namespace DownloadTask

/-- The tool list that `startToolDownload` reads first. -/
def firstToolList (env : Env) (s : DownloadTask) : List Nat :=
  env.getToolList s.calls []

/-- The answer to the first validation. -/
def firstValid (env : Env) (s : DownloadTask) : Bool :=
  env.areAllToolsValid (s.calls ++ [.getToolList]) (firstToolList env s)

/-- The log when the tool list is read again after the reload. -/
def reloadedCalls (env : Env) (s : DownloadTask) : List Ev :=
  s.calls ++ [.getToolList, .areAllToolsValid (firstToolList env s), .reloadTools env.getItemId]

/-- The tool list read again after the reload. -/
def secondToolList (env : Env) (s : DownloadTask) : List Nat :=
  env.getToolList (reloadedCalls env s) (firstToolList env s)

/-- The answer to the second validation. -/
def secondValid (env : Env) (s : DownloadTask) : Bool :=
  env.areAllToolsValid (reloadedCalls env s ++ [.getToolList]) (secondToolList env s)

/-- The log when `onComplete` publishes the completion event: the transaction is removed
first when the tool download has completed. -/
def completionCalls (s : DownloadTask) : List Ev :=
  s.calls ++ (if s.m_bToolDownloadComplete then [.removeTransaction s.m_ToolTTID false] else [])

end DownloadTask

/-- A task whose tool transaction 7 is outstanding. -/
def demoTask : DownloadTask :=
  (DownloadTask.startToolDownload (demoEnv false false 0) (DownloadTask.new "a.mcf")).1

namespace DownloadTask

/-- The condition under which the tools are downloaded: the branch is not a pre-order, it
declares a tool, and the first validation or the one after the reload succeeds. -/
def shouldDownloadTools (env : Env) (s : DownloadTask) : Prop :=
  env.isPreOrder s.calls = false ∧ s.firstToolList env ≠ [] ∧
    (s.firstValid env = true ∨ s.secondValid env = true)

/-- The tool list that passed the validation. -/
def validatedToolList (env : Env) (s : DownloadTask) : List Nat :=
  if s.firstValid env then s.firstToolList env else s.secondToolList env

end DownloadTask

/-! # Payloads and proxies (`Event<TArg>`, `ProxieDelegateBase`)

`Event<TArg>` is `EventBase<TArg&, DelegateI<TArg&>>`: `operator()(TArg a)` receives the
payload by reference and hands the same reference to every delegate.  A publish is therefore
described as a function from the payload before the call to the payload after it.  The
handlers considered here act on the payload only; they make no call on a bus. -/

/-- The buses of a program, addressed by pointer (`0` is the null pointer), and the log of
the delegate invocations: bus, delegate, and payload as passed. -/
structure Buses (P : Type) where
  bus : Nat → EventBase
  passed : List (Nat × Del × P)

namespace Buses

/-- Store the state `s` of the bus at `b`. -/
def set {P : Type} (sys : Buses P) (b : Nat) (s : EventBase) : Buses P :=
  { sys with bus := fun k => if k = b then s else sys.bus k }

/-- The live sequence of the bus at `b` once its pending mutations are merged. -/
def mergedLive {P : Type} (sys : Buses P) (b : Nat) : List Del :=
  (sys.bus b).migratePending.m_vDelegates

end Buses

/-- The bus that the `operator()` of the delegate publishes on: `CallEvent` of a
`ProxieDelegateBase` whose `m_pEvent` is not null. -/
def Del.proxied (d : Del) : Option Nat :=
  match d.target with
  | .proxie e => if e = 0 then none else some e
  | _ => none

/-- The effect on the payload of the code that the `operator()` of the delegate runs itself:
`CallFunction` calls `func` when it is not null, `CallObjectFunction` calls the method when
neither pointer is null, and a proxy has no code of its own.  `h` is the user code. -/
def Del.ownEffect {P : Type} (h : Del → P → P) (d : Del) (p : P) : P :=
  match d.target with
  | .funct f => if f = 0 then p else h d p
  | .obj o m => if o = 0 ∨ m = 0 then p else h d p
  | .proxie _ => p
  | .wildcard _ => h d p

namespace Buses

/-- The statements `m_pCurDelegate = m_vDelegates[x]` and the call of its `operator()` with
the payload `p`, on the bus at `b`. -/
def enter {P : Type} (sys : Buses P) (b : Nat) (d : Del) (p : P) : Buses P :=
  { sys.set b { sys.bus b with m_pCurDelegate := some d,
                               invoked := (sys.bus b).invoked ++ [d] } with
    passed := sys.passed ++ [(b, d, p)] }

/-- The statement `m_pCurDelegate = nullptr` on the bus at `b`. -/
def leave {P : Type} (sys : Buses P) (b : Nat) : Buses P :=
  sys.set b { sys.bus b with m_pCurDelegate := none }

/-- Entry of `operator()` on the bus at `b`: thread `t` takes `m_Lock` and merges the
pending mutations. -/
def lockAndMerge {P : Type} (sys : Buses P) (t b : Nat) : Buses P :=
  sys.set b (EventBase.migratePending { sys.bus b with m_Lock := some t })

/-- Exit of `operator()` on the bus at `b`: the pending mutations are merged and `m_Lock` is
given back as `lock`, the state in which it was found. -/
def mergeAndUnlock {P : Type} (sys : Buses P) (b : Nat) (lock : Option Nat) : Buses P :=
  sys.set b { EventBase.migratePending (sys.bus b) with m_Lock := lock }

/-- The loop of `operator()(TArg a)` on the bus at `b`, from index `x`, by thread `t`, with a
bound on the number of iterations and nested publishes; the payload is threaded through the
delegates.  A proxy publishes on its bus, that is, it runs `operator()` there. -/
def dispatchOn {P : Type} (h : Del → P → P) (t : Nat) :
    Nat → Nat → Nat → P → Buses P → Option (P × Buses P)
  | 0, _, _, _, _ => none
  | fuel + 1, b, x, p, sys =>
    match (sys.bus b).m_vDelegates[x]? with
    | none => some (p, sys)
    | some d =>
      let r : Option (P × Buses P) :=
        match d.proxied with
        | none => some (d.ownEffect h p, sys.enter b d p)
        | some e =>
          match dispatchOn h t fuel e 0 p ((sys.enter b d p).lockAndMerge t e) with
          | none => none
          | some (q, sys3) => some (q, sys3.mergeAndUnlock e (((sys.enter b d p).bus e).m_Lock))
      match r with
      | none => none
      | some (q, sys4) =>
        if ((sys4.leave b).bus b).m_bCancel then some (q, sys4.leave b)
        else dispatchOn h t fuel b (x + 1) q (sys4.leave b)

/-- The method `operator()(TArg a)` of `Event<TArg>` on the bus at `b`, called by thread
`t`: the payload after the call, and the buses. -/
def publish {P : Type} (h : Del → P → P) (t fuel b : Nat) (p : P) (sys : Buses P) :
    Option (P × Buses P) :=
  match dispatchOn h t fuel b 0 p (sys.lockAndMerge t b) with
  | none => none
  | some (q, sys3) => some (q, sys3.mergeAndUnlock b (sys.bus b).m_Lock)

end Buses

/-- The payload after the delegates of `l` ran in order. -/
def foldPayload {P : Type} (h : Del → P → P) (p : P) (l : List Del) : P :=
  l.foldl (fun q d => d.ownEffect h q) p

/-- The invocations of the delegates of `l` on bus `b`, each with the payload as the ones
before it left it. -/
def foldLog {P : Type} (h : Del → P → P) (b : Nat) : P → List Del → List (Nat × Del × P)
  | _, [] => []
  | p, d :: ds => (b, d, p) :: foldLog h b (d.ownEffect h p) ds

/-- The invocations made by a publish on bus `a` whose live sequence is `l`, when `L e` is
the live sequence of the bus at `e`: a proxy is followed by the invocations on its bus. -/
def proxyLog {P : Type} (h : Del → P → P) (L : Nat → List Del) (a : Nat) :
    P → List Del → List (Nat × Del × P)
  | _, [] => []
  | p, d :: ds =>
    match d.proxied with
    | none => (a, d, p) :: proxyLog h L a (d.ownEffect h p) ds
    | some e => (a, d, p) :: (foldLog h e p (L e) ++ proxyLog h L a (foldPayload h p (L e)) ds)

/-- The payload after a publish on a bus whose live sequence is `l`. -/
def proxyPayload {P : Type} (h : Del → P → P) (L : Nat → List Del) : P → List Del → P
  | p, [] => p
  | p, d :: ds =>
    match d.proxied with
    | none => proxyPayload h L (d.ownEffect h p) ds
    | some e => proxyPayload h L (foldPayload h p (L e)) ds

/-- Two buses for the examples: the bus at 1 holds a function delegate, a proxy to the bus
at 2, a proxy to the null bus and an object delegate; the bus at 2 holds two function
delegates. -/
def demoBuses : Buses Nat :=
  { bus := fun k =>
      if k = 1 then
        { EventBase.new 10 with
          m_vDelegates := [⟨1, .funct 100⟩, ⟨2, .proxie 2⟩, ⟨3, .proxie 0⟩, ⟨4, .obj 7 8⟩] }
      else if k = 2 then
        { EventBase.new 10 with m_vDelegates := [⟨5, .funct 200⟩, ⟨6, .funct 300⟩] }
      else EventBase.new 10,
    passed := [] }

/-- User code for the examples: each handler appends the number of its object to the
decimal digits of the payload. -/
def demoCode : Del → Nat → Nat := fun d p => 10 * p + d.addr

/-! # Verify task base of `src/shared/usercore/code/VSBaseTask.cpp` -/

/-- Modelled from the spec: the result codes of a task, None, Success, Stopped and Error.  The
enumeration `RESULT` is declared in `VSBaseTask.h`, which is not among the sources;
`RES_NONE` and `RES_STOPPED` are the two names that `VSBaseTask.cpp` uses. -/
inductive RESULT where
  | RES_NONE
  | RES_SUCCESS
  | RES_STOPPED
  | RES_ERROR
deriving DecidableEq, Repr

/-- The members of `VSBaseTask` that record the outcome of the task. -/
structure VSBaseTask where
  m_bIsStopped : Bool
  m_Result : RESULT
deriving DecidableEq, Repr

namespace VSBaseTask

/-- The constructor. -/
def new : VSBaseTask :=
  { m_bIsStopped := false, m_Result := .RES_NONE }

/-- The method `setResult`. -/
def setResult (res : RESULT) (s : VSBaseTask) : VSBaseTask :=
  if s.m_Result ≠ .RES_STOPPED then { s with m_Result := res } else s

/-- The method `getResult`. -/
def getResult (s : VSBaseTask) : RESULT :=
  s.m_Result

/-- The method `isStopped`. -/
def isStopped (s : VSBaseTask) : Bool :=
  s.m_bIsStopped

/-- The method `stop`.  The virtual `onStop` of the derived task runs last; `onStop` lists
the results it passes to `setResult`, the only way it has to the two members. -/
def stop (onStop : List RESULT) (s : VSBaseTask) : VSBaseTask :=
  onStop.foldl (fun a r => a.setResult r) { s with m_bIsStopped := true, m_Result := .RES_STOPPED }

end VSBaseTask

/-! # Download task: progress, providers and the run as a whole -/

/-- The two members of `MCFCore::Misc::ProgressInfo` that `onProgress` reads.  The structure
is declared in a header of the archive library, which is not among the sources. -/
structure ProgressInfo where
  flag : Nat
  percent : Nat
deriving DecidableEq, Repr

/-- The constants `ProgressInfo::FLAG_INITFINISHED` and `ProgressInfo::FLAG_FINALIZING`,
declared in the same header. -/
structure ProgressFlags where
  FLAG_INITFINISHED : Nat
  FLAG_FINALIZING : Nat
deriving DecidableEq, Repr

/-- The constants `DownloadProvider::ADD` and `DownloadProvider::REMOVE`, declared in a
header that is not among the sources. -/
structure ProviderActions where
  ADD : Nat
  REMOVE : Nat
deriving DecidableEq, Repr

namespace DownloadTask

/-- The method `onProgress(p)`.  `item` is `none` when `getItemInfo()` is null and otherwise
holds the answer of `getItemInfo()->isUpdating()`.  The subscribers of `onMcfProgressEvent`
are passed the copy `pOut`, so `p` is still what the caller gave. -/
def onProgress (fl : ProgressFlags) (item : Option Bool) (p : ProgressInfo) (s : DownloadTask) :
    DownloadTask :=
  let s1 := s.call (.onMcfProgressEvent p.flag p.percent)
  let s2 :=
    if p.flag &&& fl.FLAG_INITFINISHED ≠ 0 then
      ({ s1 with m_bInitFinished := true }).call (.setPausable true)
    else if p.flag &&& fl.FLAG_FINALIZING ≠ 0 then
      s1.call (.setPausable false)
    else s1
  match item with
  | some isUpdating =>
    if s2.m_bInitFinished then
      if isUpdating then s2.call (.setPercent (p.percent / 2))
      else s2.call (.setPercent p.percent)
    else s2
  | none => s2

/-- The method `onPause`. -/
def onPause (s : DownloadTask) : DownloadTask :=
  s.call .MCF_pause

/-- The method `onUnpause`. -/
def onUnpause (s : DownloadTask) : DownloadTask :=
  s.call .MCF_unpause

/-- The method `onBannerComplete(info)`. -/
def onBannerComplete (env : Env) (act : ProviderActions) (s : DownloadTask) : DownloadTask :=
  if env.isStopped s.calls then s
  else s.call (.onNewProviderEvent act.ADD)

/-- The method `onNewProvider(dp)`; `provider` says whether `dp.provider` is non-null and
`action` is `dp.action`. -/
def onNewProvider (env : Env) (act : ProviderActions) (provider : Bool) (action : Nat)
    (s : DownloadTask) : DownloadTask :=
  if env.isStopped s.calls then s
  else if !provider then s
  else if action = act.ADD then
    if env.isUser then s.call .downloadBanner else s
  else if action = act.REMOVE then
    s.call (.onNewProviderEvent act.REMOVE)
  else s

end DownloadTask

/-- An event that the archive raises while `dlFilesFromWeb` runs, on one of the three buses
to which `doRun` has subscribed the task. -/
inductive McfEvent where
  | progress (item : Option Bool) (p : ProgressInfo)
  | error
  | newProvider (provider : Bool) (action : Nat)
deriving DecidableEq, Repr

/-- The handler that `doRun` has subscribed for the event: `onProgress`, `onError` (through
`onErrorEvent`, where the constructor subscribed it) or `onNewProvider`. -/
def McfEvent.exec (env : Env) (fl : ProgressFlags) (act : ProviderActions) (e : McfEvent)
    (s : DownloadTask) : DownloadTask :=
  match e with
  | .progress item p => s.onProgress fl item p
  | .error => DownloadTask.onError env s
  | .newProvider provider action => DownloadTask.onNewProvider env act provider action s

namespace DownloadTask

/-- The method `doRun`; the second component is the exception thrown by the task, if any.
`hasItem` says whether `getItemInfo()` is non-null, and `events` are the events raised while
`dlFilesFromWeb` runs. -/
def doRun (env : Env) (fl : ProgressFlags) (act : ProviderActions) (hasItem : Bool)
    (events : List McfEvent) (s : DownloadTask) : DownloadTask × Option ErrCode :=
  if !hasItem then (s, some .ERR_BADID)
  else
    let s1 := ((s.call (.MCF_setFile s.m_szMcfPath)).call .MCF_parseMCF).call .MCF_forceLoad
    if env.isStopped s1.calls then (s1, none)
    else
      match startToolDownload env s1 with
      | (s2, some e) => (s2, some e)
      | (s2, none) =>
        let s3 := events.foldl (fun a e => e.exec env fl act a) (s2.call .MCF_dlFilesFromWeb)
        let r := onComplete env s3.m_szMcfPath s3
        ({ r.1 with m_szMcfPath := r.2 }, none)

end DownloadTask

/-- An operation of the task: one of the methods of `DownloadTask.cpp`, with what its caller
and its collaborators supply. -/
inductive TaskOp where
  | doRun (hasItem : Bool) (events : List McfEvent)
  | startToolDownload
  | onToolComplete
  | onComplete (savePath : String)
  | onPause
  | onUnpause
  | clearEvents
  | onStop
  | onProgress (item : Option Bool) (p : ProgressInfo)
  | onBannerComplete
  | onNewProvider (provider : Bool) (action : Nat)
  | onError
  | cancel
deriving DecidableEq, Repr

/-- State of the task after the operation. -/
def TaskOp.exec (env : Env) (fl : ProgressFlags) (act : ProviderActions) (op : TaskOp)
    (s : DownloadTask) : DownloadTask :=
  match op with
  | .doRun hasItem events => (DownloadTask.doRun env fl act hasItem events s).1
  | .startToolDownload => (DownloadTask.startToolDownload env s).1
  | .onToolComplete => s.onToolComplete
  | .onComplete savePath => (DownloadTask.onComplete env savePath s).1
  | .onPause => s.onPause
  | .onUnpause => s.onUnpause
  | .clearEvents => DownloadTask.clearEvents env s
  | .onStop => DownloadTask.onStop env s
  | .onProgress item p => s.onProgress fl item p
  | .onBannerComplete => DownloadTask.onBannerComplete env act s
  | .onNewProvider provider action => DownloadTask.onNewProvider env act provider action s
  | .onError => DownloadTask.onError env s
  | .cancel => DownloadTask.cancel env s

/-- The task after a sequence of operations. -/
def runTask (env : Env) (fl : ProgressFlags) (act : ProviderActions) (ops : List TaskOp)
    (s : DownloadTask) : DownloadTask :=
  ops.foldl (fun a op => op.exec env fl act a) s

/-- The call is `removeTransaction`. -/
def Ev.isRemoveTransaction : Ev → Bool
  | .removeTransaction _ _ => true
  | _ => false

/-- The call is `goToStageDownloadTools`. -/
def Ev.isGoToStageDownloadTools : Ev → Bool
  | .goToStageDownloadTools _ _ _ _ => true
  | _ => false

/-- The call is `setPercent`. -/
def Ev.isSetPercent : Ev → Bool
  | .setPercent _ => true
  | _ => false

/-- The call is `setPausable`. -/
def Ev.isSetPausable : Ev → Bool
  | .setPausable _ => true
  | _ => false

/-- The operation is `onProgress` (directly, or as the handler of a progress event inside
`doRun`) for an event that carries `FLAG_INITFINISHED`. -/
def McfEvent.carriesInit (fl : ProgressFlags) : McfEvent → Bool
  | .progress _ p => p.flag &&& fl.FLAG_INITFINISHED != 0
  | _ => false

/-- Some progress event of the operation carries `FLAG_INITFINISHED`. -/
def TaskOp.carriesInit (fl : ProgressFlags) : TaskOp → Bool
  | .onProgress _ p => p.flag &&& fl.FLAG_INITFINISHED != 0
  | .doRun _ events => events.any (McfEvent.carriesInit fl)
  | _ => false

/-- The flag constants used in the examples. -/
def demoFlags : ProgressFlags :=
  { FLAG_INITFINISHED := 2, FLAG_FINALIZING := 4 }

/-- The provider actions used in the examples. -/
def demoActions : ProviderActions :=
  { ADD := 0, REMOVE := 1 }

/-- Both latches of the task that are set in `before` are still set in `after`. -/
def Latched (before after : DownloadTask) : Prop :=
  (before.m_bInError = true → after.m_bInError = true) ∧
  (before.m_bInitFinished = true → after.m_bInitFinished = true)

/-- When the initialisation has not finished in `before`, it has not finished in `after`
either, and the log has no new `setPercent`. -/
def NoPercent (before after : DownloadTask) : Prop :=
  before.m_bInitFinished = false →
    after.m_bInitFinished = false ∧
    after.calls.filter Ev.isSetPercent = before.calls.filter Ev.isSetPercent

/-! # Loops over vectors that may leave the vector -/

/-- Result of a loop that indexes a `std::vector`: the value it computes, or the fact that it
read or erased a position that is not in the vector.  `outOfFuel` is for the loops below that
are unrolled a given number of times. -/
inductive Outcome (α : Type) where
  | ok (a : α)
  | outOfBounds
  | outOfFuel
deriving DecidableEq, Repr

namespace EventBase

/-- First loop of `operator-=(const EventBase& e)`: the indexes, in `m_vDelegates`, of the
delegates of `e` that `findInfo` finds. -/
def collectIndexes (s : EventBase) (e : List Del) : List Nat :=
  e.foldl (fun del d =>
    let index := s.findInfo d
    if index = UNKNOWN_ITEM then del else del ++ [index]) []

/-- Last loop of `operator-=(const EventBase& e)`,
`for (size_t x=del.size(); x>0; x--) m_vDelegates.erase(m_vDelegates.begin()+del[x])`,
entered with the loop variable equal to the second argument. -/
def eraseLoop (del : List Nat) : Nat → List Del → Outcome (List Del)
  | 0, l => .ok l
  | x + 1, l =>
    match del[x + 1]? with
    | none => .outOfBounds
    | some i => if i < l.length then eraseLoop del x (l.eraseIdx i) else .outOfBounds

/-- The method `operator-=(const EventBase& e)`; `e` is `e.m_vDelegates`.  The lock guard
leaves `m_Lock` as it found it. -/
def operator_minus_eq_event (e : List Del) (s : EventBase) : Outcome EventBase :=
  let del := (s.collectIndexes e).insertionSort (fun a b => a ≤ b)
  match eraseLoop del del.length s.m_vDelegates with
  | .ok l => .ok { s with m_vDelegates := l }
  | .outOfBounds => .outOfBounds
  | .outOfFuel => .outOfFuel

end EventBase

/-! # CD key manager of `src/shared/usercore/code/CDKeyManager.cpp` -/

/-- A call that the manager makes on a callback or on the branch of the item. -/
inductive CDKeyCall where
  | onCDKeyComplete (callback id : Nat) (key : String)
  | onCDKeyError (callback id : Nat) (error : Nat)
  | setCDKey (id : Nat) (key : String)
deriving DecidableEq, Repr

/-- State of the manager, followed by the log of its calls.  `m_mCDKeyCallbackList` holds
pairs of an item id and a callback pointer (0 is null).  The type `CDKeyList` is declared in
`CDKeyManager.h`, which is not among the sources; `onCDKeyComplete` indexes the list with
`[x]` and `begin()+x`, so it is a `std::vector`, whose iterators are positions in the storage
and whose `erase` moves the later entries one position down. -/
structure CDKeyManager where
  m_mCDKeyCallbackList : List (Nat × Nat)
  m_vCDKeyTaskList : List Nat
  /-- Calls made so far, oldest first. -/
  calls : List CDKeyCall
deriving DecidableEq, Repr

/-- The members `id`, `t` and `task` of a `CDKeyEventInfo<T>`. -/
structure CDKeyEventInfo (T : Type) where
  id : Nat
  t : T
  task : Nat

namespace CDKeyManager

/-- The loop of `cancelRequest`, unrolled `fuel` times; `it` is the position of the iterator.
On a match the loop runs `temp = it; ++it; erase(temp)`. -/
def cancelLoop (id callback : Nat) : Nat → Nat → List (Nat × Nat) → Outcome (List (Nat × Nat))
  | 0, _, _ => .outOfFuel
  | fuel + 1, it, l =>
    if it = l.length then .ok l
    else
      match l[it]? with
      | none => .outOfBounds
      | some e =>
        if e.2 = callback ∧ e.1 = id then cancelLoop id callback fuel (it + 1) (l.eraseIdx it)
        else cancelLoop id callback fuel (it + 1) l

/-- The method `cancelRequest(id, callback)`. -/
def cancelRequest (id callback : Nat) (s : CDKeyManager) : Outcome CDKeyManager :=
  match cancelLoop id callback (s.m_mCDKeyCallbackList.length + 1) 0 s.m_mCDKeyCallbackList with
  | .ok l => .ok { s with m_mCDKeyCallbackList := l }
  | .outOfBounds => .outOfBounds
  | .outOfFuel => .outOfFuel

/-- The notification loop of `onCDKeyComplete` and `onCDKeyError`, entered at index `x` with
the entries from `x` on as first argument: `notify` is the call made on a callback, and the
result is the log and `delList`. -/
def notifyFrom (id : Nat) (notify : Nat → CDKeyCall) :
    List (Nat × Nat) → Nat → List CDKeyCall × List Nat → List CDKeyCall × List Nat
  | [], _, acc => acc
  | e :: rest, x, acc =>
    if e.1 = id then
      notifyFrom id notify rest (x + 1)
        (if e.2 ≠ 0 then acc.1 ++ [notify e.2] else acc.1, acc.2 ++ [x])
    else notifyFrom id notify rest (x + 1) acc

/-- The call `std::for_each(delList.rbegin(), delList.rend(), ...)` that erases
`begin()+x`. -/
def eraseReverse (delList : List Nat) (l : List (Nat × Nat)) : List (Nat × Nat) :=
  delList.reverse.foldl (fun a x => a.eraseIdx x) l

/-- The loop of `removeTask`: the first entry equal to `task` is erased. -/
def removeTaskFrom (task : Nat) : List Nat → List Nat
  | [] => []
  | e :: rest => if e = task then rest else e :: removeTaskFrom task rest

/-- The method `removeTask(task)`. -/
def removeTask (task : Nat) (s : CDKeyManager) : CDKeyManager :=
  { s with m_vCDKeyTaskList := removeTaskFrom task s.m_vCDKeyTaskList }

/-- The method `onCDKeyComplete(info)`; `branch` says whether the item and its current
branch were found. -/
def onCDKeyComplete (branch : Bool) (info : CDKeyEventInfo String) (s : CDKeyManager) :
    CDKeyManager :=
  let s1 := if branch then { s with calls := s.calls ++ [.setCDKey info.id info.t] } else s
  let r := notifyFrom info.id (fun cb => .onCDKeyComplete cb info.id info.t)
    s1.m_mCDKeyCallbackList 0 (s1.calls, [])
  let s2 := { s1 with
    m_mCDKeyCallbackList := eraseReverse r.2 s1.m_mCDKeyCallbackList, calls := r.1 }
  s2.removeTask info.task

/-- The method `onCDKeyError(info)`. -/
def onCDKeyError (info : CDKeyEventInfo Nat) (s : CDKeyManager) : CDKeyManager :=
  let r := notifyFrom info.id (fun cb => .onCDKeyError cb info.id info.t)
    s.m_mCDKeyCallbackList 0 (s.calls, [])
  let s2 := { s with
    m_mCDKeyCallbackList := eraseReverse r.2 s.m_mCDKeyCallbackList, calls := r.1 }
  s2.removeTask info.task

/-- The positions, counted from `x`, of the entries for `id`. -/
def positionsFrom (id : Nat) : List (Nat × Nat) → Nat → List Nat
  | [], _ => []
  | e :: rest, x => if e.1 = id then x :: positionsFrom id rest (x + 1)
      else positionsFrom id rest (x + 1)

end CDKeyManager

/-! # Worker pool controller (`SMTController`)

Only the declarations of `src/shared/mcfcore/code/thread/SMTController.h` are among the
sources; the bodies of `newTask`, `endTask` and `postProcessing` are not.  The definitions of
this section follow the specification of the controller. -/

/-- Modelled from the spec: the status of a worker, one of Idle, Running, Paused, Stopped and
Error. -/
inductive WorkerStatus where
  | Idle
  | Running
  | Paused
  | Stopped
  | Error
deriving DecidableEq, Repr

/-- Modelled from the spec: the controller owns the file queue, an ordered sequence of file
descriptors that is populated once and never re-ordered, the number of files claimed so far,
the status of each worker (`m_vWorkerList`, indexed by worker id), the running-worker count
(`m_iRunningWorkers`) and the wait condition (`m_WaitCond`, true once signalled).  `handed`
logs each file that `newTask` returned, with the worker it went to. -/
structure SMTController where
  fileQueue : List Nat
  claimed : Nat
  m_vWorkerList : List WorkerStatus
  m_iRunningWorkers : Nat
  m_WaitCond : Bool
  handed : List (Nat × Nat)
deriving DecidableEq, Repr

namespace SMTController

/-- Modelled from the spec: `start(workerCount)` builds the file queue and spawns
`workerCount` workers, each running a loop that requests work. -/
def start (files : List Nat) (workerCount : Nat) : SMTController :=
  { fileQueue := files, claimed := 0,
    m_vWorkerList := List.replicate workerCount .Running,
    m_iRunningWorkers := workerCount, m_WaitCond := false, handed := [] }

/-- Modelled from the spec: `newTask(workerId)` returns the next unclaimed file for this
worker, or empty when the queue is exhausted. -/
def newTask (id : Nat) (s : SMTController) : Option Nat × SMTController :=
  match s.fileQueue[s.claimed]? with
  | some f => (some f, { s with claimed := s.claimed + 1, handed := s.handed ++ [(id, f)] })
  | none => (none, s)

/-- Modelled from the spec: `endTask(workerId)` marks the worker Idle, decrements the
running-worker count and, when the count reaches zero, signals the wait condition. -/
def endTask (id : Nat) (s : SMTController) : SMTController :=
  { s with
    m_vWorkerList := s.m_vWorkerList.set id .Idle,
    m_iRunningWorkers := s.m_iRunningWorkers - 1,
    m_WaitCond := s.m_WaitCond || (s.m_iRunningWorkers - 1 == 0) }

/-- Modelled from the spec: one turn of the loop of worker `id`.  The worker requests work
and processes the file it is given; when it is given none it reports completion with
`endTask` and leaves its loop.  A worker that has left its loop takes no turn. -/
def workerTurn (id : Nat) (s : SMTController) : SMTController :=
  if s.m_vWorkerList[id]? = some .Running then
    match s.newTask id with
    | (some _, s1) => s1
    | (none, s1) => s1.endTask id
  else s

/-- Modelled from the spec: a run of the pool; the schedule lists the worker ids in the
order in which the lock of the queue serialises their requests. -/
def runPool (schedule : List Nat) (s : SMTController) : SMTController :=
  schedule.foldl (fun a id => workerTurn id a) s

/-- Modelled from the spec: `postProcessing()` runs after all workers have finished, and
merges the completed files: every file handed out has by then been processed by the worker
it went to.  `none` when a worker is still running. -/
def postProcessing (s : SMTController) : Option (List Nat) :=
  if s.m_iRunningWorkers = 0 then some (s.handed.map Prod.snd) else none

end SMTController

/-- The facts that every turn of a worker preserves: the files handed out are the first
`claimed` files of the queue, in order; the count of running workers is the number of workers
in status Running; and a worker has left its loop only if the queue is exhausted. -/
def PoolInv (s : SMTController) : Prop :=
  s.handed.map Prod.snd = s.fileQueue.take s.claimed ∧
  s.claimed ≤ s.fileQueue.length ∧
  s.m_iRunningWorkers = s.m_vWorkerList.countP (fun w => w == .Running) ∧
  ((∃ w ∈ s.m_vWorkerList, w ≠ .Running) → s.claimed = s.fileQueue.length)

/-- A schedule under which every pool runs to the end: as many turns of worker 0 as there
are files, then one turn of every worker. -/
def fullSchedule (fileCount workerCount : Nat) : List Nat :=
  List.replicate fileCount 0 ++ List.range workerCount

/-! # Executions of the bus as sequences of steps

The methods of the bus are entered by several threads, and a handler may call any of them,
`operator()` included.  Whatever the callers do, the members of the bus change only through
the steps below: a method other than `operator()` run to its end, the two halves of a
`reset()` that has to wait for `m_Lock`, and the pieces of `operator()` (taking and giving
back `m_Lock`, `migratePending`, `m_pCurDelegate = m_vDelegates[x]` with the call of the
delegate, `m_pCurDelegate = nullptr`).  An execution is a sequence of such steps; a publish
with nested publishes or with calls from other threads is one of them. -/

namespace EventBase

/-- The part of `reset()` that does not wait for `m_Lock`: `m_bCancel = true`, then
`cancel()` on the executing delegate when the `dynamic_cast<InvokeI*>` succeeds. -/
def reset_request (s : EventBase) : EventBase :=
  let s1 := { s with m_bCancel := true }
  match s1.m_pCurDelegate with
  | some d => if d.isInvokeI then { s1 with cancelled := s1.cancelled ++ [d.addr] } else s1
  | none => s1

/-- The rest of `reset()`, run by thread `t` when it gets `m_Lock`: the live delegates are
destroyed and the live sequence is cleared, the queued delegates are destroyed, and
`m_bCancel = false`. -/
def reset_clear (t : Nat) (s : EventBase) : EventBase :=
  let s3 := withLock t
    (fun a => { a.m_vDelegates.foldl (fun b d => b.destroy d) a with m_vDelegates := [] }) s
  let s4 := s3.m_vPendingDelegates.foldl (fun b p => b.destroy p.2) s3
  { s4 with m_bCancel := false }

/-- Number of entries that the live sequence has once the queued additions are merged, at
most. -/
def demand (s : EventBase) : Nat :=
  s.m_vDelegates.length + s.m_vPendingDelegates.countP (fun p => p.1)

end EventBase

/-- No delegate that the bus refers to, in the live sequence or in the queue, has been
destroyed. -/
def Alive (s : EventBase) : Prop :=
  (∀ d ∈ s.m_vDelegates, d.addr ∉ s.destroyed) ∧
    (∀ p ∈ s.m_vPendingDelegates, p.2.addr ∉ s.destroyed)

instance (s : EventBase) : Decidable (Alive s) := by
  unfold Alive; infer_instance

/-- The delegate that `m_pCurDelegate` points to, if any, has not been destroyed. -/
def CurAlive (s : EventBase) : Prop :=
  match s.m_pCurDelegate with
  | some d => d.addr ∉ s.destroyed
  | none => True

instance (s : EventBase) : Decidable (CurAlive s) := by
  unfold CurAlive; split <;> infer_instance

/-- A step of an execution.  `call t c` is thread `t` running one of the methods of `Call`
to its end; `resetRequest` and `resetClear t` are the two halves of a `reset()` by a caller
that waits for `m_Lock` in between; `lock o` is `m_Lock` changing hands (`some t`: thread `t`
takes it, or takes it back when an inner method returns); `migrate` is `migratePending()` as
`operator()` calls it; `enter d` is `m_pCurDelegate = m_vDelegates[x]` followed by the call
of the delegate, and `leave` is `m_pCurDelegate = nullptr`. -/
inductive Step where
  | call (t : Nat) (c : Call)
  | resetRequest
  | resetClear (t : Nat)
  | lock (o : Option Nat)
  | migrate
  | enter (d : Del)
  | leave

/-- The state after the step. -/
def Step.exec (st : Step) (s : EventBase) : EventBase :=
  match st with
  | .call t c => c.exec t s
  | .resetRequest => s.reset_request
  | .resetClear t => s.reset_clear t
  | .lock o => { s with m_Lock := o }
  | .migrate => s.migratePending
  | .enter d => { s with m_pCurDelegate := some d, invoked := s.invoked ++ [d] }
  | .leave => { s with m_pCurDelegate := none }

/-- The state after the steps, taken in order. -/
def execSteps (steps : List Step) (s : EventBase) : EventBase :=
  steps.foldl (fun a st => st.exec a) s

/-- The step is one that the source can take in state `s` without touching a destroyed
object, and the embedding of the step is faithful there: every step that reads the live
sequence or the queue finds them `Alive`; the methods that wait for `m_Lock` (`flush`,
`reset`, `operator=`, `operator+=` with a bus) are run by a thread that gets it;
`migratePending` and the loop of `operator()` run under `m_Lock`, and the loop calls a
delegate of the live sequence. -/
def Step.safe : Step → EventBase → Prop
  | .call _ (.subscribe _), s => Alive s
  | .call _ (.unsubscribe _), s => Alive s
  | .call t .flush, s => Alive s ∧ s.try_lock t = true
  | .call t .reset, s => Alive s ∧ s.try_lock t = true ∧ CurAlive s
  | .call t (.assign _), s => Alive s ∧ s.try_lock t = true
  | .call t (.union _), s => Alive s ∧ s.try_lock t = true
  | .resetRequest, s => CurAlive s
  | .resetClear t, s => Alive s ∧ s.try_lock t = true
  | .lock (some t), s => s.try_lock t = true
  | .lock none, _ => True
  | .migrate, s => Alive s ∧ s.m_Lock ≠ none
  | .enter d, s => d ∈ s.m_vDelegates ∧ Alive s ∧ s.m_Lock ≠ none
  | .leave, _ => True

instance (st : Step) (s : EventBase) : Decidable (st.safe s) := by
  unfold Step.safe; split <;> infer_instance

/-- The live sequence stays within `UNKNOWN_ITEM` entries during the step, so that no index
that `findInfo` returns for a found delegate is the sentinel. -/
def Step.fits : Step → EventBase → Prop
  | .call _ (.subscribe (some _)), s => s.demand + 1 ≤ UNKNOWN_ITEM
  | .call _ (.unsubscribe (some _)), s => s.demand ≤ UNKNOWN_ITEM
  | .call _ .flush, s => s.demand ≤ UNKNOWN_ITEM
  | .call _ (.union e), s => s.m_vDelegates.length + e.length ≤ UNKNOWN_ITEM
  | .migrate, s => s.demand ≤ UNKNOWN_ITEM
  | _, _ => True

instance (st : Step) (s : EventBase) : Decidable (st.fits s) := by
  unfold Step.fits; split <;> infer_instance

instance (c : Call) : Decidable c.wf := by
  unfold Call.wf; split <;> infer_instance

/-- The call of the step, if it is a call, is well-formed. -/
def Step.wf : Step → Prop
  | .call _ c => c.wf
  | _ => True

instance (st : Step) : Decidable st.wf := by
  unfold Step.wf; split <;> infer_instance

instance (d : Del) (c : Call) : Decidable (c.avoids d) := by
  unfold Call.avoids; split <;> infer_instance

/-- The step subscribes nothing equal to `d`. -/
def Step.avoids (d : Del) : Step → Prop
  | .call _ c => c.avoids d
  | _ => True

instance (d : Del) (st : Step) : Decidable (st.avoids d) := by
  unfold Step.avoids; split <;> infer_instance

/-- Every step of the sequence satisfies `P` in the state in which it is taken. -/
def Always (P : Step → EventBase → Prop) : List Step → EventBase → Prop
  | [], _ => True
  | st :: rest, s => P st s ∧ Always P rest (st.exec s)

instance (P : Step → EventBase → Prop) [∀ st s, Decidable (P st s)] (steps : List Step)
    (s : EventBase) : Decidable (Always P steps s) := by
  induction steps generalizing s with
  | nil => exact isTrue trivial
  | cons st rest ih =>
    unfold Always
    have := ih (st.exec s)
    infer_instance

/-- The step that an action of a handler is, during a dispatch by thread `t`. -/
def Action.step (t : Nat) : Action → Step
  | .self c => .call t c
  | .concurrentSubscribe u tg => .call u (.subscribe tg)
  | .concurrentUnsubscribe u tg => .call u (.unsubscribe tg)

/-- The steps of the loop `dispatch`, from index `x` in state `s`. -/
def dispatchSteps (h : Handlers) (t : Nat) : Nat → Nat → EventBase → List Step
  | 0, _, _ => []
  | fuel + 1, x, s =>
    match s.m_vDelegates[x]? with
    | none => []
    | some d =>
      let body := [Step.enter d] ++ (h d).map (Action.step t) ++ [Step.leave]
      let s3 := execSteps body s
      if s3.m_bCancel then body else body ++ dispatchSteps h t fuel (x + 1) s3

/-- The steps of a top-level operation started in state `s`. -/
def Op.steps (op : Op) (s : EventBase) : List Step :=
  match op with
  | .call t c => [.call t c]
  | .publish t h fuel =>
    [.lock (some t), .migrate] ++
      dispatchSteps h t fuel 0 (EventBase.migratePending { s with m_Lock := some t }) ++
      [.migrate, .lock s.m_Lock]

/-- The steps of a sequence of top-level operations started in state `s`. -/
def stepsOfRun : List Op → EventBase → List Step
  | [], _ => []
  | op :: rest, s =>
    match op.exec s with
    | none => op.steps s
    | some s1 => op.steps s ++ stepsOfRun rest s1

/-- A bus with a wildcard delegate and a function delegate, at the moment the wildcard
delegate runs in a dispatch by thread 1. -/
def wildcardDispatch : EventBase :=
  execSteps [.call 1 (.subscribe (some (.wildcard 1))), .call 1 (.subscribe (some (.funct 2))),
    .lock (some 1), .migrate, .enter ⟨1, .wildcard 1⟩] (EventBase.new 0)

/-- A publish by thread 1 on a bus with one subscriber, whose handler publishes on the same
bus again and then subscribes `funct 5`; meanwhile thread 2 subscribes `funct 6`. -/
def nestedPublish : List Step :=
  [.call 1 (.subscribe (some (.funct 0))),
   .lock (some 1), .migrate, .enter ⟨1, .funct 0⟩,
     .lock (some 1), .migrate, .enter ⟨1, .funct 0⟩, .call 2 (.subscribe (some (.funct 6))),
       .leave, .migrate, .lock (some 1),
     .call 1 (.subscribe (some (.funct 5))),
   .leave, .enter ⟨3, .funct 6⟩, .leave, .enter ⟨5, .funct 5⟩, .leave, .migrate, .lock none]

/-! # Registration order -/

/-- The action is a `+=` or `-=` made by a thread other than `t`. -/
def Action.foreign (t : Nat) : Action → Prop
  | .self _ => False
  | .concurrentSubscribe u _ => u ≠ t
  | .concurrentUnsubscribe u _ => u ≠ t

instance (t : Nat) (a : Action) : Decidable (a.foreign t) := by
  unfold Action.foreign; split <;> infer_instance

/-- A registration in the history of a bus: the calling thread, whether the call subscribes
(`true`) or unsubscribes, and the target that the delegate is bound to. -/
abbrev Registration := Nat × Bool × Target

/-- The call that the registration is. -/
def Registration.op (r : Registration) : Op :=
  .call r.1 (if r.2.1 then .subscribe (some r.2.2) else .unsubscribe (some r.2.2))

/-- Following the spec: effect of the registration at position `i` of the history on the
subscriptions in force, which are listed oldest first, each with the position at which it
was registered.  Subscribing a target that is in force changes nothing; a new subscription
goes last; unsubscribing removes the subscription and the others keep their order. -/
def registerStep (i : Nat) (acc : List (Nat × Target)) (r : Registration) :
    List (Nat × Target) :=
  if r.2.1 then
    if acc.any (fun a => a.2 == r.2.2) then acc else acc ++ [(i, r.2.2)]
  else acc.filter (fun a => a.2 != r.2.2)

/-- Following the spec: the subscriptions in force after the registrations of `hist`, the
first of which is at position `i`, started from `acc`. -/
def survivorsFrom (i : Nat) : List Registration → List (Nat × Target) → List (Nat × Target)
  | [], acc => acc
  | r :: rest, acc => survivorsFrom (i + 1) rest (registerStep i acc r)

/-- Following the spec: the subscriptions in force after a history that starts on an empty
bus, in the order of their registration. -/
def survivors (hist : List Registration) : List (Nat × Target) :=
  survivorsFrom 0 hist []

/-- A history for the examples: three targets are subscribed by two threads, the first one
is unsubscribed and then subscribed again. -/
def demoHistory : List Registration :=
  [(1, true, .funct 0), (2, true, .obj 5 6), (1, true, .proxie 2), (2, false, .funct 0),
   (1, true, .funct 0)]

/-- Handlers that call nothing, during which thread 2 subscribes `funct 9` and unsubscribes
`obj 5 6`. -/
def busyThread : Handlers := fun _ =>
  [.concurrentSubscribe 2 (some (.funct 9)), .concurrentUnsubscribe 2 (some (.obj 5 6))]

/-- The registration that the step is, when it is a `+=` or a `-=` of a delegate. -/
def Step.registration : Step → Option Registration
  | .call t (.subscribe (some tg)) => some (t, true, tg)
  | .call t (.unsubscribe (some tg)) => some (t, false, tg)
  | _ => none

/-- The step is a `+=`, a `-=`, a `flush()` or a piece of a publish: it is no `reset()`, no
copy-assignment and no bus-union. -/
def Step.registers : Step → Prop
  | .call _ (.subscribe _) => True
  | .call _ (.unsubscribe _) => True
  | .call _ .flush => True
  | .lock _ => True
  | .migrate => True
  | .enter _ => True
  | .leave => True
  | _ => False

instance (st : Step) : Decidable st.registers := by
  unfold Step.registers; split <;> infer_instance

/-- Following the spec: the registrations made along an execution, in the order of the
calls. -/
def registrations (steps : List Step) : List Registration :=
  steps.filterMap Step.registration

/-- Handlers for the examples: while the handler of the delegate at 1 runs, thread 2
subscribes `funct 9`, unsubscribes `funct 0` and subscribes `funct 8`; the other handlers
call nothing, and nothing is called meanwhile. -/
def queuedHandlers : Handlers := fun d =>
  if d.addr = 1 then
    [.concurrentSubscribe 2 (some (.funct 9)), .concurrentUnsubscribe 2 (some (.funct 0)),
     .concurrentSubscribe 2 (some (.funct 8))]
  else []

/-- An execution for the examples: thread 1 subscribes `funct 0` and `obj 5 6` and
publishes with `queuedHandlers`. -/
def queuedHistory : List Step :=
  stepsOfRun [.call 1 (.subscribe (some (.funct 0))), .call 1 (.subscribe (some (.obj 5 6))),
    .publish 1 queuedHandlers 10] (EventBase.new 0)

/-! # The user code seen by a publish (C11, C12)

The statements about payloads are made against the functions below, which are written from
the description of a publish and mention the user code `h` and the target of a delegate only;
they do not use `Del.ownEffect`, `Del.proxied` or the loop of `operator()`. -/

/-- The delegate is bound to user code: a function delegate whose function pointer is not
null, or an object delegate neither of whose pointers is null. -/
def Del.bound (d : Del) : Prop :=
  match d.target with
  | .funct f => f ≠ 0
  | .obj o m => o ≠ 0 ∧ m ≠ 0
  | .proxie _ => False
  | .wildcard _ => False

instance (d : Del) : Decidable d.bound := by
  unfold Del.bound
  split <;> infer_instance

/-- Following the spec: the payload after the handler of the delegate `d` was passed `p`;
the user code `h d` when `d` is bound to user code, and `p` itself when there is no code to
run. -/
def handlerEffect {P : Type} (h : Del → P → P) (d : Del) (p : P) : P :=
  if d.bound then h d p else p

/-- Following the spec: the invocations of a publish of `p` on bus `b` with the subscribers
`l`, in the order of `l`; each handler is passed the payload as the user code of the
handlers before it left it. -/
def handlerLog {P : Type} (h : Del → P → P) (b : Nat) : P → List Del → List (Nat × Del × P)
  | _, [] => []
  | p, d :: ds => (b, d, p) :: handlerLog h b (handlerEffect h d p) ds

/-- Following the spec: the payload after, and the invocations of, a publish of `p` on bus
`a` with the subscribers `l`, when a publish of `q` on the bus at `e` gives `nested e q`.  A
proxy to the bus at `e` is invoked and is followed at once by the invocations of the publish
of the same payload on `e`; a proxy to the null bus is invoked and nothing else happens. -/
def forwardList {P : Type} (h : Del → P → P) (a : Nat)
    (nested : Nat → P → P × List (Nat × Del × P)) :
    P → List Del → P × List (Nat × Del × P)
  | p, [] => (p, [])
  | p, d :: ds =>
    match d.target with
    | .proxie e =>
      if e = 0 then
        ((forwardList h a nested p ds).1, (a, d, p) :: (forwardList h a nested p ds).2)
      else
        ((forwardList h a nested (nested e p).1 ds).1,
          (a, d, p) :: ((nested e p).2 ++ (forwardList h a nested (nested e p).1 ds).2))
    | _ =>
      ((forwardList h a nested (handlerEffect h d p) ds).1,
        (a, d, p) :: (forwardList h a nested (handlerEffect h d p) ds).2)

/-- Following the spec: a publish of `p` on the bus at `b` when `L e` is the subscriber
sequence of the bus at `e` and proxies are followed through at most `k` buses below `b`. -/
def forwardRun {P : Type} (h : Del → P → P) (L : Nat → List Del) :
    Nat → Nat → P → P × List (Nat × Del × P)
  | 0, b, p => forwardList h b (fun _ q => (q, [])) p (L b)
  | k + 1, b, p => forwardList h b (forwardRun h L k) p (L b)

/-- Five buses for the examples.  The bus at 1 holds a function delegate, a proxy to the bus
at 2 and an object delegate; the bus at 2 holds a function delegate, a proxy to the bus at 3
and a function delegate; the bus at 3 holds a function delegate and an object delegate; the
bus at 4 holds a proxy to the null bus between two function delegates; the bus at 5 holds a
function delegate, a function delegate whose pointer is null, an object delegate whose object
is null, and an object delegate. -/
def chainBuses : Buses Nat :=
  { bus := fun k =>
      if k = 1 then
        { EventBase.new 20 with
          m_vDelegates := [⟨1, .funct 100⟩, ⟨2, .proxie 2⟩, ⟨3, .obj 7 8⟩] }
      else if k = 2 then
        { EventBase.new 20 with
          m_vDelegates := [⟨4, .funct 200⟩, ⟨5, .proxie 3⟩, ⟨6, .funct 300⟩] }
      else if k = 3 then
        { EventBase.new 20 with m_vDelegates := [⟨7, .funct 400⟩, ⟨8, .obj 5 6⟩] }
      else if k = 4 then
        { EventBase.new 20 with
          m_vDelegates := [⟨9, .funct 500⟩, ⟨10, .proxie 0⟩, ⟨11, .funct 600⟩] }
      else if k = 5 then
        { EventBase.new 20 with
          m_vDelegates := [⟨12, .funct 700⟩, ⟨13, .funct 0⟩, ⟨14, .obj 0 3⟩, ⟨15, .obj 5 6⟩] }
      else EventBase.new 20,
    passed := [] }

/-- The number of buses that a chain of proxies from the bus at `b` of `chainBuses` passes
at most. -/
def chainRank (b : Nat) : Nat := if b = 1 then 2 else if b = 2 then 1 else 0

/-! # Proofs -/

open EventBase

/-! ## Delegate identity -/

theorem del_equals_iff (a b : Del) : a.equals b = true ↔ a.target = b.target := by
  unfold Del.equals
  cases ha : a.target <;> cases hb : b.target <;> simp

theorem del_equals_false_iff (a b : Del) : a.equals b = false ↔ a.target ≠ b.target := by
  rw [Ne, ← del_equals_iff, Bool.not_eq_true]

theorem noDuplicate_iff (l : List Del) : NoDuplicate l ↔ (l.map Del.target).Nodup := by
  unfold NoDuplicate List.Nodup
  rw [List.pairwise_map]
  simp only [del_equals_false_iff]

/-! ## `findInfo` -/

theorem findInfoFrom_absent (d : Del) (l : List Del) (x : Nat)
    (h : ∀ e ∈ l, e.equals d = false) : findInfoFrom d l x = UNKNOWN_ITEM := by
  induction l generalizing x with
  | nil => rfl
  | cons e rest ih =>
    have he : e.equals d = false := h e (List.mem_cons_self _ _)
    simp only [findInfoFrom, he]
    exact ih (x + 1) (fun e2 h2 => h e2 (List.mem_cons_of_mem _ h2))

theorem findInfoFrom_present (d : Del) (l : List Del) (x : Nat)
    (h : ∃ e ∈ l, e.equals d = true) :
    x ≤ findInfoFrom d l x ∧ findInfoFrom d l x < x + l.length := by
  induction l generalizing x with
  | nil => simp at h
  | cons e rest ih =>
    by_cases he : e.equals d = true
    · simp [findInfoFrom, he]
    · have h2 : ∃ e2 ∈ rest, e2.equals d = true := by
        obtain ⟨e2, hm, heq⟩ := h
        rcases List.mem_cons.1 hm with rfl | hm
        · exact absurd heq he
        · exact ⟨e2, hm, heq⟩
      have := ih (x + 1) h2
      simp only [findInfoFrom, he, List.length_cons]
      simp only [Bool.false_eq_true, if_false]
      omega

theorem findInfoFrom_eq_unknown (d : Del) (l : List Del) (hl : l.length ≤ UNKNOWN_ITEM)
    (h : findInfoFrom d l 0 = UNKNOWN_ITEM) : ∀ e ∈ l, e.equals d = false := by
  intro e he
  by_contra hne
  have hp := findInfoFrom_present d l 0 ⟨e, he, by simpa using hne⟩
  omega

/-- Erasing the first delegate equal to `d` from a duplicate-free list leaves none. -/
theorem eraseIdx_findInfoFrom (d : Del) (l : List Del) (x : Nat) (hn : NoDuplicate l)
    (h : ∃ e ∈ l, e.equals d = true) :
    ∀ e ∈ l.eraseIdx (findInfoFrom d l x - x), e.equals d = false := by
  induction l generalizing x with
  | nil => simp at h
  | cons a rest ih =>
    unfold NoDuplicate at hn
    rw [List.pairwise_cons] at hn
    by_cases ha : a.equals d = true
    · simp only [findInfoFrom, ha, if_true, Nat.sub_self, List.eraseIdx_cons_zero]
      intro e he
      have h1 := hn.1 e he
      rw [del_equals_false_iff] at h1 ⊢
      rw [del_equals_iff] at ha
      rw [← ha]; exact fun h2 => h1 h2.symm
    · have h2 : ∃ e2 ∈ rest, e2.equals d = true := by
        obtain ⟨e2, hm, heq⟩ := h
        rcases List.mem_cons.1 hm with rfl | hm
        · exact absurd heq ha
        · exact ⟨e2, hm, heq⟩
      have hp := findInfoFrom_present d rest (x + 1) h2
      have hidx : findInfoFrom d rest (x + 1) - x = (findInfoFrom d rest (x + 1) - (x + 1)) + 1 := by
        omega
      simp only [findInfoFrom, ha, Bool.false_eq_true, if_false, hidx, List.eraseIdx_cons_succ]
      intro e he
      rcases List.mem_cons.1 he with rfl | he
      · simpa using ha
      · exact ih (x + 1) hn.2 h2 e he

/-! ## The live sequence under `migratePending` -/

theorem liveStep_length (l : List Del) (p : Bool × Del) :
    (liveStep l p).length ≤ l.length + 1 := by
  unfold liveStep
  split_ifs
  · simp
  · omega
  · have := (List.eraseIdx_sublist l (findInfoFrom p.2 l 0)).length_le
    omega
  · omega

theorem liveStep_noDuplicate (l : List Del) (p : Bool × Del) (hn : NoDuplicate l)
    (hl : l.length ≤ UNKNOWN_ITEM) : NoDuplicate (liveStep l p) := by
  unfold liveStep
  split_ifs with h1 h2 h3
  · unfold NoDuplicate at hn ⊢
    rw [List.pairwise_append]
    refine ⟨hn, List.pairwise_singleton _ _, ?_⟩
    intro a ha b hb
    rw [List.mem_singleton] at hb
    subst hb
    exact findInfoFrom_eq_unknown _ l hl h2 a ha
  · exact hn
  · exact List.Pairwise.sublist (List.eraseIdx_sublist _ _) hn
  · exact hn

theorem foldl_liveStep_length (ps : List (Bool × Del)) (l : List Del) :
    (ps.foldl liveStep l).length ≤ l.length + ps.length := by
  induction ps generalizing l with
  | nil => simp
  | cons p ps ih =>
    have := ih (liveStep l p)
    have := liveStep_length l p
    simp only [List.foldl_cons, List.length_cons]
    omega

theorem foldl_liveStep_noDuplicate (ps : List (Bool × Del)) (l : List Del) (hn : NoDuplicate l)
    (hl : l.length + ps.length ≤ UNKNOWN_ITEM) : NoDuplicate (ps.foldl liveStep l) := by
  induction ps generalizing l with
  | nil => simpa using hn
  | cons p ps ih =>
    simp only [List.length_cons] at hl
    have h1 := liveStep_length l p
    exact ih (liveStep l p) (liveStep_noDuplicate l p hn (by omega)) (by omega)

/-! ## Fields left alone by `migratePending` -/

theorem migrateStep_live (s : EventBase) (p : Bool × Del) :
    (s.migrateStep p).m_vDelegates = liveStep s.m_vDelegates p := by
  by_cases h1 : p.1 = true <;> by_cases h2 : findInfoFrom p.2 s.m_vDelegates 0 = UNKNOWN_ITEM <;>
    simp [migrateStep, liveStep, findInfo, destroy, h1, h2]

theorem migrateStep_frame (s : EventBase) (p : Bool × Del) :
    (s.migrateStep p).m_vPendingDelegates = s.m_vPendingDelegates ∧
    (s.migrateStep p).m_bCancel = s.m_bCancel ∧
    (s.migrateStep p).m_pCurDelegate = s.m_pCurDelegate ∧
    (s.migrateStep p).m_Lock = s.m_Lock ∧
    (s.migrateStep p).nextAddr = s.nextAddr ∧
    (s.migrateStep p).invoked = s.invoked ∧
    (s.migrateStep p).cancelled = s.cancelled := by
  by_cases h1 : p.1 = true <;> by_cases h2 : s.findInfo p.2 = UNKNOWN_ITEM <;>
    simp [migrateStep, destroy, h1, h2]

theorem foldl_migrateStep_live (ps : List (Bool × Del)) (s : EventBase) :
    (ps.foldl migrateStep s).m_vDelegates = ps.foldl liveStep s.m_vDelegates := by
  induction ps generalizing s with
  | nil => rfl
  | cons p ps ih => simp only [List.foldl_cons, ih, migrateStep_live]

theorem foldl_migrateStep_frame (ps : List (Bool × Del)) (s : EventBase) :
    (ps.foldl migrateStep s).m_vPendingDelegates = s.m_vPendingDelegates ∧
    (ps.foldl migrateStep s).m_bCancel = s.m_bCancel ∧
    (ps.foldl migrateStep s).m_pCurDelegate = s.m_pCurDelegate ∧
    (ps.foldl migrateStep s).m_Lock = s.m_Lock ∧
    (ps.foldl migrateStep s).nextAddr = s.nextAddr ∧
    (ps.foldl migrateStep s).invoked = s.invoked ∧
    (ps.foldl migrateStep s).cancelled = s.cancelled := by
  induction ps generalizing s with
  | nil => simp
  | cons p ps ih =>
    simp only [List.foldl_cons]
    have h1 := ih (s.migrateStep p)
    have h2 := migrateStep_frame s p
    refine ⟨?_, ?_, ?_, ?_, ?_, ?_, ?_⟩ <;> simp [h1, h2]

@[simp] theorem migratePending_live (s : EventBase) :
    s.migratePending.m_vDelegates = s.m_vPendingDelegates.foldl liveStep s.m_vDelegates := by
  simp [migratePending, foldl_migrateStep_live]

@[simp] theorem migratePending_pending (s : EventBase) :
    s.migratePending.m_vPendingDelegates = [] := rfl

@[simp] theorem migratePending_cancel (s : EventBase) :
    s.migratePending.m_bCancel = s.m_bCancel := by
  simp [migratePending, foldl_migrateStep_frame]

@[simp] theorem migratePending_cur (s : EventBase) :
    s.migratePending.m_pCurDelegate = s.m_pCurDelegate := by
  simp [migratePending, foldl_migrateStep_frame]

@[simp] theorem migratePending_lock (s : EventBase) :
    s.migratePending.m_Lock = s.m_Lock := by
  simp [migratePending, foldl_migrateStep_frame]

@[simp] theorem migratePending_nextAddr (s : EventBase) :
    s.migratePending.nextAddr = s.nextAddr := by
  simp [migratePending, foldl_migrateStep_frame]

@[simp] theorem migratePending_invoked (s : EventBase) :
    s.migratePending.invoked = s.invoked := by
  simp [migratePending, foldl_migrateStep_frame]

@[simp] theorem migratePending_cancelled (s : EventBase) :
    s.migratePending.cancelled = s.cancelled := by
  simp [migratePending, foldl_migrateStep_frame]

theorem foldl_destroy_frame {α : Type} (f : α → Del) (l : List α) (s : EventBase) :
    (l.foldl (fun b p => b.destroy (f p)) s) =
      { s with destroyed := s.destroyed ++ l.map (fun p => (f p).addr) } := by
  induction l generalizing s with
  | nil => simp
  | cons a l ih => rw [List.foldl_cons, ih]; simp [destroy]

theorem operator_plus_eq_some (t : Nat) (d : Del) (s : EventBase) :
    (s.operator_plus_eq t (some d)).nextAddr = s.nextAddr + 1 ∧
    (s.operator_plus_eq t (some d)).m_Lock = s.m_Lock ∧
    (s.operator_plus_eq t (some d)).m_bCancel = s.m_bCancel ∧
    (s.operator_plus_eq t (some d)).m_pCurDelegate = s.m_pCurDelegate ∧
    (s.operator_plus_eq t (some d)).invoked = s.invoked ∧
    (s.operator_plus_eq t (some d)).cancelled = s.cancelled ∧
    (s.operator_plus_eq t (some d)).m_vDelegates =
      (if s.try_lock t then
        (s.m_vPendingDelegates ++ [(true, Del.mk s.nextAddr d.target)]).foldl liveStep s.m_vDelegates
       else s.m_vDelegates) ∧
    (s.operator_plus_eq t (some d)).m_vPendingDelegates =
      (if s.try_lock t then [] else s.m_vPendingDelegates ++ [(true, Del.mk s.nextAddr d.target)]) := by
  by_cases h : s.try_lock t = true <;>
    simp [operator_plus_eq, clone, destroy, withLock, try_lock] <;> 
    simp [try_lock] at h <;> simp [h]

theorem operator_minus_eq_some (t : Nat) (d : Del) (s : EventBase) :
    (s.operator_minus_eq t (some d)).nextAddr = s.nextAddr + 1 ∧
    (s.operator_minus_eq t (some d)).m_Lock = s.m_Lock ∧
    (s.operator_minus_eq t (some d)).m_bCancel = s.m_bCancel ∧
    (s.operator_minus_eq t (some d)).m_pCurDelegate = s.m_pCurDelegate ∧
    (s.operator_minus_eq t (some d)).invoked = s.invoked ∧
    (s.operator_minus_eq t (some d)).cancelled = s.cancelled ∧
    (s.operator_minus_eq t (some d)).m_vDelegates =
      (if s.try_lock t then
        (s.m_vPendingDelegates ++ [(false, Del.mk s.nextAddr d.target)]).foldl liveStep
          s.m_vDelegates
       else s.m_vDelegates) ∧
    (s.operator_minus_eq t (some d)).m_vPendingDelegates =
      (if s.try_lock t then []
       else s.m_vPendingDelegates ++ [(false, Del.mk s.nextAddr d.target)]) := by
  by_cases h : s.try_lock t = true <;>
    simp [operator_minus_eq, clone, withLock, try_lock] <;>
    simp [try_lock] at h <;> simp [h]

theorem flush_frame (t : Nat) (s : EventBase) :
    (s.flush t).nextAddr = s.nextAddr ∧
    (s.flush t).m_Lock = s.m_Lock ∧
    (s.flush t).m_bCancel = s.m_bCancel ∧
    (s.flush t).m_pCurDelegate = s.m_pCurDelegate ∧
    (s.flush t).invoked = s.invoked ∧
    (s.flush t).cancelled = s.cancelled ∧
    (s.flush t).m_vDelegates = s.m_vPendingDelegates.foldl liveStep s.m_vDelegates ∧
    (s.flush t).m_vPendingDelegates = [] := by
  simp [flush, withLock]

theorem reset_frame (t : Nat) (s : EventBase) :
    (s.reset t).nextAddr = s.nextAddr ∧
    (s.reset t).m_Lock = s.m_Lock ∧
    (s.reset t).m_bCancel = false ∧
    (s.reset t).m_pCurDelegate = s.m_pCurDelegate ∧
    (s.reset t).invoked = s.invoked ∧
    (s.reset t).m_vDelegates = [] ∧
    (s.reset t).m_vPendingDelegates = s.m_vPendingDelegates ∧
    (s.reset t).destroyed = s.destroyed ++ s.m_vDelegates.map Del.addr ++
      s.m_vPendingDelegates.map (fun p => p.2.addr) := by
  unfold reset withLock
  simp only [foldl_destroy_frame (fun d : Del => d), foldl_destroy_frame (fun p : Bool × Del => p.2)]
  cases s.m_pCurDelegate with
  | none => simp
  | some d => by_cases hd : d.isInvokeI = true <;> simp [hd]

/-- The copy loop of `operator=`. -/
theorem foldl_clone_push (e : List Del) (b : EventBase) :
    ∃ l : List Del, l.map Del.target = e.map Del.target ∧
      (e.foldl (fun b d => { (b.clone d).2 with
        m_vDelegates := (b.clone d).2.m_vDelegates ++ [(b.clone d).1] }) b) =
      { b with m_vDelegates := b.m_vDelegates ++ l, nextAddr := b.nextAddr + e.length } := by
  induction e generalizing b with
  | nil => exact ⟨[], rfl, by simp⟩
  | cons d e ih =>
    obtain ⟨l, hl, hr⟩ := ih ({ (b.clone d).2 with
        m_vDelegates := (b.clone d).2.m_vDelegates ++ [(b.clone d).1] })
    refine ⟨(b.clone d).1 :: l, ?_, ?_⟩
    · simp [hl, clone]
    · rw [List.foldl_cons, hr]
      simp [clone]
      omega

theorem operator_assign_frame (t : Nat) (e : List Del) (s : EventBase) :
    ∃ l : List Del, l.map Del.target = e.map Del.target ∧
      s.operator_assign t e =
        { s with m_vDelegates := l, nextAddr := s.nextAddr + e.length,
                 destroyed := s.destroyed ++ s.m_vDelegates.map Del.addr } := by
  obtain ⟨l, hl, hr⟩ := foldl_clone_push e { s with m_Lock := some t, m_vDelegates := [] }
  refine ⟨l, hl, ?_⟩
  unfold operator_assign withLock
  simp only [foldl_destroy_frame (fun d : Del => d)]
  have hr2 : (e.foldl (fun b d =>
      match b.clone d with
      | (c, b1) => { b1 with m_vDelegates := b1.m_vDelegates ++ [c] })
      { s with m_Lock := some t, m_vDelegates := [] }) = _ := hr
  simp [hr2]

/-- The loop of `operator+=(const EventBase&)`. -/
theorem foldl_union (e : List Del) (b : EventBase) :
    ∃ l : List Del,
      (e.foldl (fun b d =>
        if b.findInfo d = UNKNOWN_ITEM then
          { (b.clone d).2 with m_vDelegates := (b.clone d).2.m_vDelegates ++ [(b.clone d).1] }
        else b) b) =
        { b with m_vDelegates := b.m_vDelegates ++ l, nextAddr := b.nextAddr + l.length } ∧
      (∀ x ∈ l, ∃ y ∈ e, x.target = y.target) ∧
      ((b.m_vDelegates ++ l).length ≤ UNKNOWN_ITEM → NoDuplicate b.m_vDelegates →
        NoDuplicate (b.m_vDelegates ++ l)) := by
  induction e generalizing b with
  | nil => exact ⟨[], by simp, by simp, by simp⟩
  | cons d e ih =>
    by_cases hf : b.findInfo d = UNKNOWN_ITEM
    · obtain ⟨l, hr, ht, hn⟩ := ih ({ (b.clone d).2 with
        m_vDelegates := (b.clone d).2.m_vDelegates ++ [(b.clone d).1] })
      refine ⟨(b.clone d).1 :: l, ?_, ?_, ?_⟩
      · rw [List.foldl_cons, if_pos hf, hr]
        simp [clone]
        omega
      · intro x hx
        rcases List.mem_cons.1 hx with rfl | hx
        · exact ⟨d, List.mem_cons_self _ _, rfl⟩
        · obtain ⟨y, hy, hxy⟩ := ht x hx
          exact ⟨y, List.mem_cons_of_mem _ hy, hxy⟩
      · intro hlen hnd
        have hlen2 : b.m_vDelegates.length ≤ UNKNOWN_ITEM := by
          simp only [List.length_append, List.length_cons] at hlen; omega
        have h1 : NoDuplicate (b.m_vDelegates ++ [(b.clone d).1]) := by
          unfold NoDuplicate at hnd ⊢
          rw [List.pairwise_append]
          refine ⟨hnd, List.pairwise_singleton _ _, ?_⟩
          intro a ha c hc
          rw [List.mem_singleton] at hc
          subst hc
          have := findInfoFrom_eq_unknown d b.m_vDelegates hlen2 hf a ha
          rw [del_equals_false_iff] at this ⊢
          exact this
        have := hn (by simpa [clone] using hlen) (by simpa [clone] using h1)
        simpa [clone] using this
    · obtain ⟨l, hr, ht, hn⟩ := ih b
      refine ⟨l, ?_, ?_, hn⟩
      · rw [List.foldl_cons, if_neg hf, hr]
      · intro x hx
        obtain ⟨y, hy, hxy⟩ := ht x hx
        exact ⟨y, List.mem_cons_of_mem _ hy, hxy⟩

theorem operator_plus_eq_event_frame (t : Nat) (e : List Del) (s : EventBase) :
    ∃ l : List Del,
      s.operator_plus_eq_event t e =
        { s with m_vDelegates := s.m_vDelegates ++ l, nextAddr := s.nextAddr + l.length } ∧
      (∀ x ∈ l, ∃ y ∈ e, x.target = y.target) ∧
      ((s.m_vDelegates ++ l).length ≤ UNKNOWN_ITEM → NoDuplicate s.m_vDelegates →
        NoDuplicate (s.m_vDelegates ++ l)) := by
  obtain ⟨l, hr, ht, hn⟩ := foldl_union e { s with m_Lock := some t }
  refine ⟨l, ?_, ht, hn⟩
  unfold operator_plus_eq_event withLock
  have hr2 : (e.foldl (fun b d =>
      if b.findInfo d = UNKNOWN_ITEM then
        match b.clone d with
        | (c, b1) => { b1 with m_vDelegates := b1.m_vDelegates ++ [c] }
      else b) { s with m_Lock := some t }) = _ := hr
  simp [hr2]

/-! ## Calls: what they leave alone -/

theorem call_exec_frame (t : Nat) (c : Call) (s : EventBase) :
    (c.exec t s).m_Lock = s.m_Lock ∧ (c.exec t s).invoked = s.invoked ∧
    (c.exec t s).m_pCurDelegate = s.m_pCurDelegate ∧ s.nextAddr ≤ (c.exec t s).nextAddr := by
  cases c with
  | subscribe tg =>
    cases tg with
    | none => simp [Call.exec, operator_plus_eq]
    | some tg =>
      obtain ⟨h1, h2, -, h4, h5, -⟩ := operator_plus_eq_some t (s.delegate tg).1 (s.delegate tg).2
      simp only [Call.exec, h1, h2, h4, h5]
      simp only [delegate, true_and]
      omega
  | unsubscribe tg =>
    cases tg with
    | none => simp [Call.exec, operator_minus_eq]
    | some tg =>
      obtain ⟨h1, h2, -, h4, h5, -⟩ := operator_minus_eq_some t (s.delegate tg).1 (s.delegate tg).2
      simp only [Call.exec, h1, h2, h4, h5]
      simp only [delegate, true_and]
      omega
  | flush =>
    obtain ⟨h1, h2, -, h4, h5, -⟩ := flush_frame t s
    simp [Call.exec, h1, h2, h4, h5]
  | reset =>
    obtain ⟨h1, h2, -, h4, h5, -⟩ := reset_frame t s
    simp [Call.exec, h1, h2, h4, h5]
  | assign e =>
    obtain ⟨l, -, hr⟩ := operator_assign_frame t e s
    simp [Call.exec, hr]
  | union e =>
    obtain ⟨l, hr, -⟩ := operator_plus_eq_event_frame t e s
    simp [Call.exec, hr]

/-! ## Absence of an unsubscribed delegate -/

theorem liveStep_absent (d : Del) (l : List Del) (p : Bool × Del)
    (hl : ∀ e ∈ l, e.equals d = false) (hp : p.1 = true → p.2.equals d = false) :
    ∀ e ∈ liveStep l p, e.equals d = false := by
  unfold liveStep
  split_ifs with h1 h2 h3
  · intro e he
    rcases List.mem_append.1 he with he | he
    · exact hl e he
    · rw [List.mem_singleton] at he; subst he; exact hp h1
  · exact hl
  · intro e he
    exact hl e ((List.eraseIdx_sublist _ _).subset he)
  · exact hl

theorem foldl_liveStep_absent (d : Del) (ps : List (Bool × Del)) (l : List Del)
    (hl : ∀ e ∈ l, e.equals d = false)
    (hp : ∀ p ∈ ps, p.1 = true → p.2.equals d = false) :
    ∀ e ∈ ps.foldl liveStep l, e.equals d = false := by
  induction ps generalizing l with
  | nil => simpa using hl
  | cons p ps ih =>
    rw [List.foldl_cons]
    exact ih _ (liveStep_absent d l p hl (hp p (List.mem_cons_self _ _)))
      (fun q hq => hp q (List.mem_cons_of_mem _ hq))

theorem equals_false_of_target (d x y : Del) (h : x.target = y.target)
    (hy : y.equals d = false) : x.equals d = false := by
  rw [del_equals_false_iff] at hy ⊢
  rw [h]; exact hy

theorem call_exec_absent (d : Del) (t : Nat) (c : Call) (s : EventBase) (hav : c.avoids d)
    (hA : Absent d s) : Absent d (c.exec t s) := by
  obtain ⟨hl, hp⟩ := hA
  cases c with
  | subscribe tg =>
    cases tg with
    | none => exact ⟨hl, hp⟩
    | some tg =>
      obtain ⟨-, -, -, -, -, -, h7, h8⟩ :=
        operator_plus_eq_some t (s.delegate tg).1 (s.delegate tg).2
      have hc : (Del.mk (s.nextAddr + 1) tg).equals d = false := by
        rw [del_equals_false_iff]; exact hav
      have hq : ∀ p ∈ s.m_vPendingDelegates ++ [(true, Del.mk (s.nextAddr + 1) tg)],
          p.1 = true → p.2.equals d = false := by
        intro p hp2 h1
        rcases List.mem_append.1 hp2 with hp2 | hp2
        · exact hp p hp2 h1
        · rw [List.mem_singleton] at hp2; subst hp2; exact hc
      simp only [Call.exec]
      unfold Absent
      rw [h7, h8]
      simp only [delegate]
      split_ifs
      · exact ⟨foldl_liveStep_absent d _ _ hl hq, by simp⟩
      · exact ⟨hl, hq⟩
  | unsubscribe tg =>
    cases tg with
    | none => exact ⟨hl, hp⟩
    | some tg =>
      obtain ⟨-, -, -, -, -, -, h7, h8⟩ :=
        operator_minus_eq_some t (s.delegate tg).1 (s.delegate tg).2
      have hq : ∀ p ∈ s.m_vPendingDelegates ++ [(false, Del.mk (s.nextAddr + 1) tg)],
          p.1 = true → p.2.equals d = false := by
        intro p hp2 h1
        rcases List.mem_append.1 hp2 with hp2 | hp2
        · exact hp p hp2 h1
        · rw [List.mem_singleton] at hp2; subst hp2; simp at h1
      simp only [Call.exec]
      unfold Absent
      rw [h7, h8]
      simp only [delegate]
      split_ifs
      · exact ⟨foldl_liveStep_absent d _ _ hl hq, by simp⟩
      · exact ⟨hl, hq⟩
  | flush =>
    obtain ⟨-, -, -, -, -, -, h7, h8⟩ := flush_frame t s
    simp only [Call.exec]
    unfold Absent
    rw [h7, h8]
    exact ⟨foldl_liveStep_absent d _ _ hl hp, by simp⟩
  | reset =>
    obtain ⟨-, -, -, -, -, h6, h7, -⟩ := reset_frame t s
    simp only [Call.exec]
    unfold Absent
    rw [h6, h7]
    exact ⟨by simp, hp⟩
  | assign e =>
    obtain ⟨l, hl2, hr⟩ := operator_assign_frame t e s
    simp only [Call.exec, hr]
    refine ⟨?_, hp⟩
    intro x hx
    have hx2 : x.target ∈ l.map Del.target := List.mem_map_of_mem _ hx
    rw [hl2, List.mem_map] at hx2
    obtain ⟨y, hy, hyx⟩ := hx2
    exact equals_false_of_target d x y hyx.symm (hav y hy)
  | union e =>
    obtain ⟨l, hr, ht, -⟩ := operator_plus_eq_event_frame t e s
    simp only [Call.exec, hr]
    refine ⟨?_, hp⟩
    intro x hx
    rcases List.mem_append.1 hx with hx | hx
    · exact hl x hx
    · obtain ⟨y, hy, hxy⟩ := ht x hx
      exact equals_false_of_target d x y hxy (hav y hy)

theorem migratePending_absent (d : Del) (s : EventBase) (hA : Absent d s) :
    Absent d s.migratePending := by
  obtain ⟨hl, hp⟩ := hA
  unfold Absent
  simp only [migratePending_live, migratePending_pending]
  exact ⟨foldl_liveStep_absent d _ _ hl hp, by simp⟩

/-- Processing a removal request for `c` leaves no delegate equal to `c` in a duplicate-free
live sequence. -/
theorem liveStep_remove (c : Del) (l : List Del) (hn : NoDuplicate l)
    (hl : l.length ≤ UNKNOWN_ITEM) : ∀ e ∈ liveStep l (false, c), e.equals c = false := by
  by_cases hex : ∃ e ∈ l, e.equals c = true
  · have hpres := findInfoFrom_present c l 0 hex
    have hne : findInfoFrom c l 0 ≠ UNKNOWN_ITEM := by omega
    have := eraseIdx_findInfoFrom c l 0 hn hex
    simp only [liveStep, hne, ne_eq, not_false_eq_true, if_true, Bool.false_eq_true, if_false]
    intro e he
    exact this e (by simpa using he)
  · have hall : ∀ e ∈ l, e.equals c = false := by
      intro e he
      by_contra hc
      exact hex ⟨e, he, by simpa using hc⟩
    intro e he
    have hsub : e ∈ l := by
      unfold liveStep at he
      simp only [Bool.false_eq_true, if_false] at he
      split_ifs at he
      · exact (List.eraseIdx_sublist _ _).subset he
      · exact he
    exact hall e hsub

/-- A merged unsubscribe leaves no live delegate equal to the one unsubscribed. -/
theorem operator_minus_eq_absent (s : EventBase) (t : Nat) (d : Del)
    (hn : NoDuplicate s.m_vDelegates)
    (hsize : s.m_vDelegates.length + s.m_vPendingDelegates.length ≤ UNKNOWN_ITEM)
    (hlock : s.try_lock t = true) :
    Absent d (s.operator_minus_eq t (some d)) := by
  obtain ⟨-, -, -, -, -, -, h7, h8⟩ := operator_minus_eq_some t d s
  unfold Absent
  rw [h7, h8]
  simp only [hlock, if_true, List.foldl_append, List.foldl_cons, List.foldl_nil]
  refine ⟨?_, by simp⟩
  have hn1 := foldl_liveStep_noDuplicate s.m_vPendingDelegates s.m_vDelegates hn hsize
  have hlen := foldl_liveStep_length s.m_vPendingDelegates s.m_vDelegates
  intro e he
  have := liveStep_remove (Del.mk s.nextAddr d.target) _ hn1 (by omega) e he
  rw [del_equals_false_iff] at this ⊢
  exact this

/-! ## Claims -/

/-- C1, evaluated on the code: on a bus with three subscribers of which the first
unsubscribes itself during the dispatch, the dispatch invokes the first and the third only;
the second is still in the live sequence afterwards and was skipped. -/
theorem C1_self_unsubscribe_skips_next :
    (run (threeSubscribers ++ [.publish 1 (selfUnsubscribe 0) 10]) (EventBase.new 0)).map
        (fun s => (s.invoked, s.m_vDelegates)) =
      some ([⟨1, .funct 0⟩, ⟨5, .funct 2⟩], [⟨3, .funct 1⟩, ⟨5, .funct 2⟩]) := by
  decide

/-- C2, evaluated on the code: a handler that unsubscribes and re-subscribes itself is
invoked twice in one publish (and the second subscriber not at all). -/
theorem C2_resubscribe_invoked_twice :
    (run (threeSubscribers ++ [.publish 1 (resubscribe 0) 10]) (EventBase.new 0)).map
        (fun s => s.invoked.map Del.target) =
      some [.funct 0, .funct 2, .funct 0] := by
  decide

/-- C3, evaluated on the code: a subscribe made by a handler on the dispatching thread is
merged into the live sequence at once, nothing stays queued, and the new subscriber is
invoked in the very same dispatch. -/
theorem C3_handler_subscribe_merged_at_once :
    ((Action.self (.subscribe (some (.funct 7)))).exec 1 midDispatch).m_vDelegates =
        [⟨1, .funct 0⟩, ⟨3, .funct 1⟩, ⟨5, .funct 2⟩, ⟨7, .funct 7⟩] ∧
      ((Action.self (.subscribe (some (.funct 7)))).exec 1 midDispatch).m_vPendingDelegates = [] ∧
      (run (threeSubscribers ++ [.publish 1 (subscribeOther 0 7) 10]) (EventBase.new 0)).map
          (fun s => s.invoked.map Del.target) =
        some [.funct 0, .funct 1, .funct 2, .funct 7] := by
  decide

/-- C7, evaluated on the code: with one subscription queued (thread 2 subscribed while
thread 1 owned the dispatch lock), `reset()` empties the live sequence, clears the cancel
flag and destroys the queued delegate, but leaves its pointer in the queue; the next merge
makes the destroyed delegate a live subscriber. -/
theorem C7_reset_keeps_pending_queue :
    queuedBus.m_vPendingDelegates = [(true, ⟨1, .funct 9⟩)] ∧
      (queuedBus.reset 1).m_vPendingDelegates = [(true, ⟨1, .funct 9⟩)] ∧
      (queuedBus.reset 1).destroyed = [0, 1] ∧
      (queuedBus.reset 1).m_vDelegates = [] ∧ (queuedBus.reset 1).m_bCancel = false ∧
      ((queuedBus.reset 1).flush 1).m_vDelegates = [⟨1, .funct 9⟩] := by
  decide

/-- C8, evaluated on the code: a handler during which another thread subscribes and which
then calls `reset()` twice in a row has `destroy()` called twice on the queued delegate,
object 3; the publish then makes that destroyed object a live subscriber. -/
theorem C8_reset_twice_destroys_twice :
    (run [.call 1 (.subscribe (some (.funct 0))), .publish 1 resetTwice 10]
        (EventBase.new 0)).map (fun s => (s.destroyed, s.m_vDelegates)) =
      some ([0, 2, 1, 3, 3], [⟨3, .funct 9⟩]) := by
  decide

/-- C9, evaluated on the code: after subscribing `funct 0` and unsubscribing it, the live
sequence is empty, and `destroy()` ran on the two objects passed in and cloned for the
requests (0 and 3) only: the live clone, object 1, was erased without being destroyed. -/
theorem C9_removed_subscription_not_destroyed :
    (run [.call 1 (.subscribe (some (.funct 0)))] (EventBase.new 0)).map
        (fun s => s.m_vDelegates) = some [⟨1, .funct 0⟩] ∧
      (run [.call 1 (.subscribe (some (.funct 0))), .call 1 (.unsubscribe (some (.funct 0)))]
        (EventBase.new 0)).map (fun s => (s.m_vDelegates, s.destroyed)) = some ([], [0, 3]) := by
  decide

/-- C10: `operator+=` and `operator-=` called with a null delegate return the bus unchanged,
whoever calls and whatever the state of the bus and of its lock. -/
theorem C10_null_subscription_noop (t : Nat) (s : EventBase) :
    s.operator_plus_eq t none = s ∧ s.operator_minus_eq t none = s ∧
      (Call.subscribe none).exec t s = s ∧ (Call.unsubscribe none).exec t s = s :=
  ⟨rfl, rfl, rfl, rfl⟩

/-! ## Delegate identity (C13) -/

/-- C13: `equals` is reflexive, symmetric and transitive; two function delegates are equal
exactly when their function pointers are, two object delegates exactly when object pointer
and method pointer are, two proxy delegates exactly when the bus pointers are, in each case
whatever the two objects are otherwise; delegates of different classes are never equal; and
a clone equals the delegate it was cloned from, in both directions. -/
theorem C13_equals_is_identity :
    (∀ a : Del, a.equals a = true) ∧
    (∀ a b : Del, a.equals b = b.equals a) ∧
    (∀ a b c : Del, a.equals b = true → b.equals c = true → a.equals c = true) ∧
    (∀ x y f g : Nat, (Del.mk x (.funct f)).equals (Del.mk y (.funct g)) = true ↔ f = g) ∧
    (∀ x y o m o2 m2 : Nat,
      (Del.mk x (.obj o m)).equals (Del.mk y (.obj o2 m2)) = true ↔ o = o2 ∧ m = m2) ∧
    (∀ x y e e2 : Nat, (Del.mk x (.proxie e)).equals (Del.mk y (.proxie e2)) = true ↔ e = e2) ∧
    (∀ a b : Del, a.target.kind ≠ b.target.kind → a.equals b = false) ∧
    (∀ (d : Del) (s : EventBase), (s.clone d).1.equals d = true ∧ d.equals (s.clone d).1 = true) := by
  refine ⟨?_, ?_, ?_, ?_, ?_, ?_, ?_, ?_⟩
  · intro a
    rw [del_equals_iff]
  · intro a b
    by_cases h : a.target = b.target
    · rw [(del_equals_iff a b).2 h, (del_equals_iff b a).2 h.symm]
    · rw [(del_equals_false_iff a b).2 h, (del_equals_false_iff b a).2 (fun h2 => h h2.symm)]
  · intro a b c hab hbc
    rw [del_equals_iff] at hab hbc ⊢
    exact hab.trans hbc
  · intro x y f g
    rw [del_equals_iff]
    simp
  · intro x y o m o2 m2
    rw [del_equals_iff]
    simp
  · intro x y e e2
    rw [del_equals_iff]
    simp
  · intro a b hk
    rw [del_equals_false_iff]
    intro h
    exact hk (by rw [h])
  · intro d s
    constructor <;> rw [del_equals_iff] <;> rfl

/-- Witness of C13: transitivity through three distinct objects bound to one method of one
object, and a function delegate against a proxy delegate with the same pointer value. -/
theorem C13_equals_is_identity_witness :
    (Del.mk 1 (.obj 5 6)).equals (Del.mk 3 (.obj 5 6)) = true ∧
      (Del.mk 1 (.funct 5)).equals (Del.mk 2 (.proxie 5)) = false :=
  ⟨C13_equals_is_identity.2.2.1 (Del.mk 1 (.obj 5 6)) (Del.mk 2 (.obj 5 6)) (Del.mk 3 (.obj 5 6))
      (by decide) (by decide),
   C13_equals_is_identity.2.2.2.2.2.2.1 (Del.mk 1 (.funct 5)) (Del.mk 2 (.proxie 5))
      (by decide)⟩

/-! ## Download task (C14 to C20) -/

theorem hasAllFlags_iff (value flags : Nat) :
    HasAllFlags value flags = true ↔ ∀ i, flags.testBit i = true → value.testBit i = true := by
  unfold HasAllFlags
  rw [beq_iff_eq]
  constructor
  · intro h i hi
    have := congrArg (fun n => n.testBit i) h
    simp only [Nat.testBit_land, hi, Bool.and_true] at this
    exact this
  · intro h
    apply Nat.eq_of_testBit_eq
    intro i
    rw [Nat.testBit_land]
    by_cases hi : flags.testBit i = true
    · rw [hi, h i hi]; rfl
    · simp only [Bool.not_eq_true] at hi
      rw [hi]; simp

/-- C14: on a successful completion (not in error, not stopped) with a tool transaction
outstanding (tool download not complete, `m_ToolTTID` not `UINT_MAX`) and a branch that is
not a pre-order, `onComplete` publishes the completion event, updates the transaction and
goes to the tool download stage with that transaction id, the path as the event left it and
the branch and build of the archive; it makes no other call, so neither install transition
nor `completeStage`, and the transaction id is kept. -/
theorem C14_complete_with_tool_transaction (env : Env) (savePath : String) (s : DownloadTask)
    (herr : s.m_bInError = false) (hstop : env.isStopped s.calls = false)
    (htool : s.m_bToolDownloadComplete = false) (hid : s.m_ToolTTID ≠ UINT_MAX)
    (hpre : env.isPreOrder (s.calls ++ [.onCompleteStrEvent savePath]) = false) :
    (s.onComplete env savePath).1.calls =
        s.calls ++ [.onCompleteStrEvent savePath, .updateTransaction s.m_ToolTTID,
          .goToStageDownloadTools s.m_ToolTTID (env.onCompleteStr s.calls savePath)
            env.getMcfBranch env.getMcfBuild] ∧
      (s.onComplete env savePath).1.m_ToolTTID = s.m_ToolTTID ∧
      (∀ e ∈ newCalls s (s.onComplete env savePath).1, e.isStageChange = true →
        e = .goToStageDownloadTools s.m_ToolTTID (env.onCompleteStr s.calls savePath)
          env.getMcfBranch env.getMcfBuild) := by
  have hc : (s.onComplete env savePath).1 =
      { s with calls := s.calls ++ [.onCompleteStrEvent savePath,
          .updateTransaction s.m_ToolTTID,
          .goToStageDownloadTools s.m_ToolTTID (env.onCompleteStr s.calls savePath)
            env.getMcfBranch env.getMcfBuild] } := by
    simp [DownloadTask.onComplete, DownloadTask.call, herr, hstop, htool, hid, hpre]
  rw [hc]
  refine ⟨rfl, rfl, ?_⟩
  intro e he hs
  simp only [newCalls, List.drop_left, List.mem_cons, List.mem_singleton, List.not_mem_nil,
    or_false] at he
  rcases he with rfl | rfl | rfl
  · simp [Ev.isStageChange] at hs
  · simp [Ev.isStageChange] at hs
  · rfl

/-- Witness of C14: the task started its tool download (transaction 7) and completes. -/
theorem C14_complete_with_tool_transaction_witness :
    (demoTask.onComplete (demoEnv false false 0) "a.mcf").1.calls =
      [.getToolList, .areAllToolsValid [3, 4], .reloadTools 11, .getToolList,
        .areAllToolsValid [3, 4], .downloadTools [3, 4], .onCompleteStrEvent "a.mcf",
        .updateTransaction 7, .goToStageDownloadTools 7 "a.mcf" 1 2] :=
  (C14_complete_with_tool_transaction (demoEnv false false 0) "a.mcf" demoTask (by decide)
    (by decide) (by decide) (by decide) (by decide)).1.trans (by decide)

/-- C15: on a successful completion of a pre-order, `onComplete` (after removing the tool
transaction when the tool download has completed) publishes the completion event, adds
`STATUS_PRELOADED`, removes `STATUS_DOWNLOADING` and calls `completeStage(true)`; it goes to
no other stage, whatever the transaction id and the status of the item are. -/
theorem C15_complete_preorder (env : Env) (savePath : String) (s : DownloadTask)
    (herr : s.m_bInError = false) (hstop : env.isStopped s.calls = false)
    (hpre : ∀ l, env.isPreOrder l = true) :
    (s.onComplete env savePath).1.calls =
        s.completionCalls ++ [.onCompleteStrEvent savePath, .addSFlag env.STATUS_PRELOADED,
          .delSFlag env.STATUS_DOWNLOADING, .completeStage true] ∧
      (∀ e ∈ newCalls s (s.onComplete env savePath).1, e.isStageChange = true →
        e = .completeStage true) := by
  have hc : (s.onComplete env savePath).1.calls =
      s.completionCalls ++ [.onCompleteStrEvent savePath, .addSFlag env.STATUS_PRELOADED,
        .delSFlag env.STATUS_DOWNLOADING, .completeStage true] := by
    by_cases ht : s.m_bToolDownloadComplete = true <;>
      simp [DownloadTask.onComplete, DownloadTask.call, DownloadTask.completionCalls, herr,
        hstop, hpre, ht]
  refine ⟨hc, ?_⟩
  intro e he hs
  simp only [newCalls, hc, DownloadTask.completionCalls, List.append_assoc, List.drop_left]
    at he
  by_cases ht : s.m_bToolDownloadComplete = true
  · simp only [ht, if_true, List.singleton_append, List.mem_cons, List.mem_singleton,
      List.not_mem_nil, or_false] at he
    rcases he with rfl | rfl | rfl | rfl | rfl
    all_goals first | rfl | (simp [Ev.isStageChange] at hs)
  · simp only [ht, Bool.false_eq_true, if_false, List.nil_append, List.mem_cons,
      List.mem_singleton, List.not_mem_nil, or_false] at he
    rcases he with rfl | rfl | rfl | rfl
    all_goals first | rfl | (simp [Ev.isStageChange] at hs)

/-- Witness of C15: a pre-order whose item is flagged for a complex install and whose tool
download has completed. -/
theorem C15_complete_preorder_witness :
    (demoTask.onToolComplete.onComplete (demoEnv true false 512) "a.mcf").1.calls =
      demoTask.calls ++ [.removeTransaction 7 false, .onCompleteStrEvent "a.mcf", .addSFlag 64,
        .delSFlag 8, .completeStage true] :=
  (C15_complete_preorder (demoEnv true false 512) "a.mcf" demoTask.onToolComplete (by decide)
    (by decide) (fun _ => rfl)).1.trans (by decide)

/-- C16: on a successful completion of an item that is not a pre-order and has no tool
transaction outstanding (the tool download has completed, or `m_ToolTTID` is `UINT_MAX`, as
it is for a new task), `onComplete` publishes the completion event and makes exactly one
stage change: `goToStageInstallComplex` with the branch and build of the archive when every
bit of `STATUS_INSTALLCOMPLEX` is set in the status of the item, and otherwise
`goToStageInstall` with the path as the event left it and the branch. -/
theorem C16_complete_install (env : Env) (savePath : String) (s : DownloadTask)
    (herr : s.m_bInError = false) (hstop : env.isStopped s.calls = false)
    (hpre : ∀ l, env.isPreOrder l = false)
    (hno : s.m_bToolDownloadComplete = true ∨ s.m_ToolTTID = UINT_MAX) :
    ((∀ i, env.STATUS_INSTALLCOMPLEX.testBit i = true →
          (env.getStatus (s.completionCalls ++ [.onCompleteStrEvent savePath])).testBit i = true) →
        (s.onComplete env savePath).1.calls =
          s.completionCalls ++ [.onCompleteStrEvent savePath,
            .goToStageInstallComplex env.getMcfBranch env.getMcfBuild]) ∧
      (¬ (∀ i, env.STATUS_INSTALLCOMPLEX.testBit i = true →
          (env.getStatus (s.completionCalls ++ [.onCompleteStrEvent savePath])).testBit i = true) →
        (s.onComplete env savePath).1.calls =
          s.completionCalls ++ [.onCompleteStrEvent savePath,
            .goToStageInstall (env.onCompleteStr s.completionCalls savePath) env.getMcfBranch]) ∧
      (newCalls s (s.onComplete env savePath).1).countP Ev.isStageChange = 1 ∧
      (DownloadTask.new savePath).m_ToolTTID = UINT_MAX := by
  have hkey : (s.onComplete env savePath).1.calls =
      s.completionCalls ++ [.onCompleteStrEvent savePath,
        if HasAllFlags (env.getStatus (s.completionCalls ++ [.onCompleteStrEvent savePath]))
            env.STATUS_INSTALLCOMPLEX then
          .goToStageInstallComplex env.getMcfBranch env.getMcfBuild
        else .goToStageInstall (env.onCompleteStr s.completionCalls savePath)
          env.getMcfBranch] := by
    by_cases ht : s.m_bToolDownloadComplete = true
    · simp only [DownloadTask.onComplete, DownloadTask.call, DownloadTask.completionCalls,
        herr, hstop, hpre, ht, Bool.or_self, if_true, Bool.false_eq_true, if_false, ne_eq,
        not_true_eq_false]
      split_ifs <;> simp
    · rcases hno with hno | hno
      · exact absurd hno ht
      · simp only [DownloadTask.onComplete, DownloadTask.call, DownloadTask.completionCalls,
          herr, hstop, hpre, ht, hno, Bool.or_self, Bool.false_eq_true, if_false, ne_eq,
          not_true_eq_false, List.append_nil]
        split_ifs <;> simp
  refine ⟨?_, ?_, ?_, by simp only [DownloadTask.new]; decide⟩
  · intro hbits
    rw [hkey, if_pos ((hasAllFlags_iff _ _).2 hbits)]
  · intro hbits
    rw [hkey, if_neg (fun h => hbits ((hasAllFlags_iff _ _).1 h))]
  · simp only [newCalls, hkey, DownloadTask.completionCalls, List.append_assoc, List.drop_left]
    by_cases ht : s.m_bToolDownloadComplete = true <;> simp only [ht, if_true,
      Bool.false_eq_true, if_false] <;> split_ifs <;> simp [List.countP_cons, Ev.isStageChange]

/-- Witness of C16: a new task (no tool download started) on an item flagged for a complex
install, and on an item that has every status bit but that one. -/
theorem C16_complete_install_witness :
    ((DownloadTask.new "a.mcf").onComplete (demoEnv false false 512) "a.mcf").1.calls =
        [.onCompleteStrEvent "a.mcf", .goToStageInstallComplex 1 2] ∧
      ((DownloadTask.new "a.mcf").onComplete (demoEnv false false 511) "a.mcf").1.calls =
        [.onCompleteStrEvent "a.mcf", .goToStageInstall "a.mcf" 1] :=
  ⟨((C16_complete_install (demoEnv false false 512) "a.mcf" (DownloadTask.new "a.mcf")
      (by decide) (by decide) (fun _ => rfl) (Or.inr (by decide))).1 (fun _ h => h)).trans
      (by decide),
   ((C16_complete_install (demoEnv false false 511) "a.mcf" (DownloadTask.new "a.mcf")
      (by decide) (by decide) (fun _ => rfl) (Or.inr (by decide))).2.1
      (fun h => absurd (h 9 (by decide)) (by decide))).trans (by decide)⟩

/-- C17: for a branch that is not a pre-order and declares at least one tool,
`startToolDownload` validates the tool list; when that succeeds it downloads the tools
without any reload; when it fails it reloads the tools once, reads the tool list again and
validates once more, then downloads the tools if that succeeds and otherwise throws
`ERR_INVALID` without calling `downloadTools` and without touching the transaction id.
Whatever the branch, no call validates more than twice or reloads more than once. -/
theorem C17_tool_validation_retry (env : Env) (s : DownloadTask)
    (hpre : env.isPreOrder s.calls = false) (hne : s.firstToolList env ≠ []) :
    (s.firstValid env = true →
      s.startToolDownload env =
        ({ s with
            calls := s.calls ++ [.getToolList, .areAllToolsValid (s.firstToolList env),
              .downloadTools (s.firstToolList env)],
            m_ToolTTID := env.downloadTools
              (s.calls ++ [.getToolList, .areAllToolsValid (s.firstToolList env)])
              (s.firstToolList env) % 2 ^ 32 }, none)) ∧
    (s.firstValid env = false → s.secondValid env = true →
      s.startToolDownload env =
        ({ s with
            calls := s.reloadedCalls env ++ [.getToolList,
              .areAllToolsValid (s.secondToolList env), .downloadTools (s.secondToolList env)],
            m_ToolTTID := env.downloadTools
              (s.reloadedCalls env ++ [.getToolList, .areAllToolsValid (s.secondToolList env)])
              (s.secondToolList env) % 2 ^ 32 }, none)) ∧
    (s.firstValid env = false → s.secondValid env = false →
      s.startToolDownload env =
        ({ s with
            calls := s.reloadedCalls env ++ [.getToolList,
              .areAllToolsValid (s.secondToolList env)] }, some .ERR_INVALID)) ∧
    (∀ (env2 : Env) (s2 : DownloadTask),
      (newCalls s2 (s2.startToolDownload env2).1).countP Ev.isValidate ≤ 2 ∧
      (newCalls s2 (s2.startToolDownload env2).1).countP Ev.isReload ≤ 1) := by
  have hlen : ¬ (env.getToolList s.calls []).length = 0 := by
    intro h
    exact hne (List.length_eq_zero.1 h)
  refine ⟨?_, ?_, ?_, ?_⟩
  · intro h1
    simp only [DownloadTask.firstValid, DownloadTask.firstToolList] at h1
    simp [DownloadTask.startToolDownload, DownloadTask.call, DownloadTask.firstToolList, hpre,
      hlen, h1]
  · intro h1 h2
    simp only [DownloadTask.firstValid, DownloadTask.firstToolList, DownloadTask.secondValid,
      DownloadTask.secondToolList, DownloadTask.reloadedCalls, List.append_assoc,
      List.cons_append, List.nil_append] at h1 h2
    simp [DownloadTask.startToolDownload, DownloadTask.call, DownloadTask.firstToolList,
      DownloadTask.secondToolList, DownloadTask.reloadedCalls, hpre, hlen, h1, h2]
  · intro h1 h2
    simp only [DownloadTask.firstValid, DownloadTask.firstToolList, DownloadTask.secondValid,
      DownloadTask.secondToolList, DownloadTask.reloadedCalls, List.append_assoc,
      List.cons_append, List.nil_append] at h1 h2
    simp [DownloadTask.startToolDownload, DownloadTask.call, DownloadTask.firstToolList,
      DownloadTask.secondToolList, DownloadTask.reloadedCalls, hpre, hlen, h1, h2]
  · intro env2 s2
    simp only [DownloadTask.startToolDownload, DownloadTask.call, newCalls]
    split_ifs <;> simp [List.countP_cons, Ev.isValidate, Ev.isReload]

/-- Witness of C17: tools that are valid only after the reload, and tools that stay
invalid. -/
theorem C17_tool_validation_retry_witness :
    (DownloadTask.new "a.mcf").startToolDownload (demoEnv false false 0) =
        ({ DownloadTask.new "a.mcf" with
            calls := [.getToolList, .areAllToolsValid [3, 4], .reloadTools 11, .getToolList,
              .areAllToolsValid [3, 4], .downloadTools [3, 4]],
            m_ToolTTID := 7 }, none) ∧
      (DownloadTask.new "a.mcf").startToolDownload demoEnvInvalid =
        ({ DownloadTask.new "a.mcf" with
            calls := [.getToolList, .areAllToolsValid [3, 4], .reloadTools 11, .getToolList,
              .areAllToolsValid [3, 4]] }, some .ERR_INVALID) :=
  ⟨((C17_tool_validation_retry (demoEnv false false 0) (DownloadTask.new "a.mcf") (by decide)
      (by decide)).2.1 (by decide) (by decide)).trans (by decide),
   ((C17_tool_validation_retry demoEnvInvalid (DownloadTask.new "a.mcf") (by decide)
      (by decide)).2.2.1 (by decide) (by decide)).trans (by decide)⟩

/-- The five ways through `startToolDownload`. -/
theorem startToolDownload_eq (env : Env) (s : DownloadTask) :
    s.startToolDownload env =
      if env.isPreOrder s.calls = true then (s, none)
      else if s.firstToolList env = [] then
        ({ s with calls := s.calls ++ [.getToolList] }, none)
      else if s.firstValid env = true then
        ({ s with
            calls := s.calls ++ [.getToolList, .areAllToolsValid (s.firstToolList env),
              .downloadTools (s.firstToolList env)],
            m_ToolTTID := env.downloadTools
              (s.calls ++ [.getToolList, .areAllToolsValid (s.firstToolList env)])
              (s.firstToolList env) % 2 ^ 32 }, none)
      else if s.secondValid env = true then
        ({ s with
            calls := s.reloadedCalls env ++ [.getToolList,
              .areAllToolsValid (s.secondToolList env), .downloadTools (s.secondToolList env)],
            m_ToolTTID := env.downloadTools
              (s.reloadedCalls env ++ [.getToolList, .areAllToolsValid (s.secondToolList env)])
              (s.secondToolList env) % 2 ^ 32 }, none)
      else
        ({ s with
            calls := s.reloadedCalls env ++ [.getToolList,
              .areAllToolsValid (s.secondToolList env)] }, some .ERR_INVALID) := by
  by_cases hpre : env.isPreOrder s.calls = true
  · simp [DownloadTask.startToolDownload, hpre]
  · by_cases hl : s.firstToolList env = []
    · have hl2 : (env.getToolList s.calls []).length = 0 := by
        simpa [DownloadTask.firstToolList] using hl
      simp [DownloadTask.startToolDownload, DownloadTask.call, hpre, hl, hl2]
    · have hl2 : ¬ (env.getToolList s.calls []).length = 0 := by
        intro h
        exact hl (List.length_eq_zero.1 h)
      by_cases h1 : s.firstValid env = true
      · have h1b := h1
        simp only [DownloadTask.firstValid, DownloadTask.firstToolList] at h1b
        simp [DownloadTask.startToolDownload, DownloadTask.call, DownloadTask.firstToolList,
          hpre, hl2, h1b] at hl ⊢
        simp [hl, h1, DownloadTask.firstToolList]
      · by_cases h2 : s.secondValid env = true
        · have h1b := h1
          have h2b := h2
          simp only [DownloadTask.firstValid, DownloadTask.firstToolList,
            DownloadTask.secondValid, DownloadTask.secondToolList, DownloadTask.reloadedCalls,
            List.append_assoc, List.cons_append, List.nil_append] at h1b h2b
          simp [DownloadTask.startToolDownload, DownloadTask.call, DownloadTask.firstToolList,
            DownloadTask.secondToolList, DownloadTask.reloadedCalls, hpre, hl2, h1b, h2b]
            at hl ⊢
          simp [hl, h1, h2, DownloadTask.firstToolList, DownloadTask.secondToolList,
            DownloadTask.reloadedCalls]
        · have h1b := h1
          have h2b := h2
          simp only [DownloadTask.firstValid, DownloadTask.firstToolList,
            DownloadTask.secondValid, DownloadTask.secondToolList, DownloadTask.reloadedCalls,
            List.append_assoc, List.cons_append, List.nil_append] at h1b h2b
          simp [DownloadTask.startToolDownload, DownloadTask.call, DownloadTask.firstToolList,
            DownloadTask.secondToolList, DownloadTask.reloadedCalls, hpre, hl2, h1b, h2b]
            at hl ⊢
          simp [hl, h1, h2, DownloadTask.firstToolList, DownloadTask.secondToolList,
            DownloadTask.reloadedCalls]

/-- C18: `startToolDownload` calls `downloadTools` at most once, and once exactly when the
branch is not a pre-order, declares at least one tool and a validation succeeds; the
transaction passed then carries the tool list that passed the validation, the call is the
last one made and the id returned is stored in `m_ToolTTID`.  For a pre-order or an empty
tool list no call reaches the tool manager, nothing is thrown and `m_ToolTTID` keeps its
value. -/
theorem C18_download_tools_iff (env : Env) (s : DownloadTask) :
    ((newCalls s (s.startToolDownload env).1).countP Ev.isDownloadTools = 1 ↔
        s.shouldDownloadTools env) ∧
      (newCalls s (s.startToolDownload env).1).countP Ev.isDownloadTools ≤ 1 ∧
      (s.shouldDownloadTools env →
        (s.startToolDownload env).2 = none ∧
        ∃ pre, (s.startToolDownload env).1.calls =
            pre ++ [.downloadTools (s.validatedToolList env)] ∧
          (s.startToolDownload env).1.m_ToolTTID =
            env.downloadTools pre (s.validatedToolList env) % 2 ^ 32) ∧
      ((env.isPreOrder s.calls = true ∨ s.firstToolList env = []) →
        (s.startToolDownload env).2 = none ∧
        (s.startToolDownload env).1.m_ToolTTID = s.m_ToolTTID ∧
        ∀ e ∈ newCalls s (s.startToolDownload env).1, e.isToolService = false) := by
  rw [startToolDownload_eq]
  unfold DownloadTask.shouldDownloadTools DownloadTask.validatedToolList
  by_cases hpre : env.isPreOrder s.calls = true
  · simp [hpre, newCalls]
  · by_cases hl : s.firstToolList env = []
    · simp [hpre, hl, newCalls, Ev.isToolService, Ev.isDownloadTools]
    · by_cases h1 : s.firstValid env = true
      · refine ⟨?_, ?_, ?_, ?_⟩
        · simp [hpre, hl, h1, newCalls, List.countP_cons, Ev.isDownloadTools]
        · simp [hpre, hl, h1, newCalls, List.countP_cons, Ev.isDownloadTools]
        · intro _
          refine ⟨by simp [hpre, hl, h1],
            s.calls ++ [.getToolList, .areAllToolsValid (s.firstToolList env)], ?_, ?_⟩
          · simp [hpre, hl, h1]
          · simp [hpre, hl, h1]
        · intro h
          rcases h with h | h
          · exact absurd h hpre
          · exact absurd h hl
      · by_cases h2 : s.secondValid env = true
        · refine ⟨?_, ?_, ?_, ?_⟩
          · simp [hpre, hl, h1, h2, newCalls, DownloadTask.reloadedCalls, List.countP_cons,
              Ev.isDownloadTools]
          · simp [hpre, hl, h1, h2, newCalls, DownloadTask.reloadedCalls, List.countP_cons,
              Ev.isDownloadTools]
          · intro _
            refine ⟨by simp [hpre, hl, h1, h2],
              s.reloadedCalls env ++ [.getToolList, .areAllToolsValid (s.secondToolList env)],
              ?_, ?_⟩
            · simp [hpre, hl, h1, h2]
            · simp [hpre, hl, h1, h2]
          · intro h
            rcases h with h | h
            · exact absurd h hpre
            · exact absurd h hl
        · refine ⟨?_, ?_, ?_, ?_⟩
          · simp [hpre, hl, h1, h2, newCalls, DownloadTask.reloadedCalls, List.countP_cons,
              Ev.isDownloadTools]
          · simp [hpre, hl, h1, h2, newCalls, DownloadTask.reloadedCalls, List.countP_cons,
              Ev.isDownloadTools]
          · intro h
            rcases h.2.2 with h3 | h3
            · exact absurd h3 h1
            · exact absurd h3 h2
          · intro h
            rcases h with h | h
            · exact absurd h hpre
            · exact absurd h hl

/-- Witness of C18: a branch whose tools become valid after the reload, and a pre-order. -/
theorem C18_download_tools_iff_witness :
    ((DownloadTask.new "a.mcf").startToolDownload (demoEnv false false 0)).2 = none ∧
      ((DownloadTask.new "a.mcf").startToolDownload (demoEnv true false 0)).1.m_ToolTTID
        = UINT_MAX :=
  ⟨((C18_download_tools_iff (demoEnv false false 0) (DownloadTask.new "a.mcf")).2.2.1
      ⟨by decide, by decide, Or.inr (by decide)⟩).1,
   (((C18_download_tools_iff (demoEnv true false 0) (DownloadTask.new "a.mcf")).2.2.2
      (Or.inl (by decide))).2.1).trans (by decide)⟩

/-- C19: `onError` logs a warning, disables pausing and then reads `shouldPauseOnError`;
when the answer is true it sets the item paused with `setPaused(true, true)` and leaves the
in-error flag alone, when it is false it sets the in-error flag and calls
`resetStage(true)`.  It makes no other call, so exactly one of `setPaused` and `resetStage`
is called. -/
theorem C19_error_pauses_or_resets (env : Env) (s : DownloadTask) :
    s.onError env =
        (if env.shouldPauseOnError (s.calls ++ [.Warning, .setPausable false]) = true then
          { s with calls := s.calls ++ [.Warning, .setPausable false, .setPaused true true] }
        else
          { s with m_bInError := true,
                   calls := s.calls ++ [.Warning, .setPausable false, .resetStage true] }) ∧
      (newCalls s (s.onError env)).countP (fun e => e.isSetPaused || e == .resetStage true) = 1 ∧
      (newCalls s (s.onError env)).take 2 = [.Warning, .setPausable false] := by
  by_cases h : env.shouldPauseOnError (s.calls ++ [.Warning, .setPausable false]) = true
  · have hc : s.onError env =
        { s with calls := s.calls ++ [.Warning, .setPausable false, .setPaused true true] } := by
      simp [DownloadTask.onError, DownloadTask.call, h]
    rw [hc, if_pos h]
    refine ⟨rfl, ?_, ?_⟩ <;> simp only [newCalls, List.drop_left] <;> decide
  · have hc : s.onError env =
        { s with m_bInError := true,
                 calls := s.calls ++ [.Warning, .setPausable false, .resetStage true] } := by
      simp [DownloadTask.onError, DownloadTask.call, h]
    rw [hc, if_neg h]
    refine ⟨rfl, ?_, ?_⟩ <;> simp only [newCalls, List.drop_left] <;> decide

/-- C20: `cancel` calls `setPausable(false)`, then stops the task (`BaseItemTask::onStop`,
then the removal of the banner hooks when the user core is a `User`), then calls
`resetStage(true)`, in that order and whatever the pause-on-error policy and the state of
the task; it calls `setPaused` nowhere and changes no member of the task. -/
theorem C20_cancel_sequence (env : Env) (s : DownloadTask) :
    s.cancel env =
        { s with calls := s.calls ++ [.setPausable false, .BaseItemTask_onStop] ++
          (if env.isUser then [.cancelDownloadBannerHooks] else []) ++ [.resetStage true] } ∧
      (s.cancel env).calls =
        (DownloadTask.onStop env { s with calls := s.calls ++ [.setPausable false] }).calls ++
          [.resetStage true] ∧
      ∀ e ∈ newCalls s (s.cancel env), e.isSetPaused = false := by
  by_cases hu : env.isUser = true
  · have hc : s.cancel env = { s with calls := s.calls ++ [.setPausable false,
        .BaseItemTask_onStop, .cancelDownloadBannerHooks, .resetStage true] } := by
      simp [DownloadTask.cancel, DownloadTask.onStop, DownloadTask.clearEvents,
        DownloadTask.call, hu]
    refine ⟨by simp [hc, hu], by simp [hc, DownloadTask.onStop, DownloadTask.clearEvents,
      DownloadTask.call, hu], ?_⟩
    rw [hc]
    simp only [newCalls, List.drop_left]
    decide
  · have hc : s.cancel env = { s with calls := s.calls ++ [.setPausable false,
        .BaseItemTask_onStop, .resetStage true] } := by
      simp [DownloadTask.cancel, DownloadTask.onStop, DownloadTask.clearEvents,
        DownloadTask.call, hu]
    refine ⟨by simp [hc, hu], by simp [hc, DownloadTask.onStop, DownloadTask.clearEvents,
      DownloadTask.call, hu], ?_⟩
    rw [hc]
    simp only [newCalls, List.drop_left]
    decide

/-- Witness of C20: a cancel on an item that pauses on error. -/
theorem C20_cancel_sequence_witness :
    (demoTask.cancel (demoEnv false true 0)).calls =
        demoTask.calls ++ [.setPausable false, .BaseItemTask_onStop,
          .cancelDownloadBannerHooks, .resetStage true] ∧
      Ev.isSetPaused (.resetStage true) = false :=
  ⟨(congrArg DownloadTask.calls (C20_cancel_sequence (demoEnv false true 0) demoTask).1).trans
      (by decide),
   (C20_cancel_sequence (demoEnv false true 0) demoTask).2.2 (.resetStage true) (by decide)⟩

/-! ## Payloads and proxies (C11, C12) -/

@[simp] theorem buses_set_same {P : Type} (sys : Buses P) (b : Nat) (s : EventBase) :
    (sys.set b s).bus b = s := by
  simp [Buses.set]

theorem buses_set_other {P : Type} (sys : Buses P) (b k : Nat) (s : EventBase) (hk : k ≠ b) :
    (sys.set b s).bus k = sys.bus k := by
  simp [Buses.set, hk]

@[simp] theorem buses_set_passed {P : Type} (sys : Buses P) (b : Nat) (s : EventBase) :
    (sys.set b s).passed = sys.passed := rfl

/-- One iteration of the loop, with the nested publish of a proxy written as `publish`. -/
theorem dispatchOn_succ {P : Type} (h : Del → P → P) (t fuel b x : Nat) (p : P)
    (sys : Buses P) :
    Buses.dispatchOn h t (fuel + 1) b x p sys =
      match (sys.bus b).m_vDelegates[x]? with
      | none => some (p, sys)
      | some d =>
        match (match d.proxied with
          | none => some (d.ownEffect h p, sys.enter b d p)
          | some e => Buses.publish h t fuel e p (sys.enter b d p)) with
        | none => none
        | some (q, sys4) =>
          if ((sys4.leave b).bus b).m_bCancel then some (q, sys4.leave b)
          else Buses.dispatchOn h t fuel b (x + 1) q (sys4.leave b) := by
  rfl

@[simp] theorem buses_enter_same {P : Type} (sys : Buses P) (b : Nat) (d : Del) (p : P) :
    (sys.enter b d p).bus b =
      { sys.bus b with m_pCurDelegate := some d, invoked := (sys.bus b).invoked ++ [d] } := by
  simp [Buses.enter, Buses.set]

theorem buses_enter_other {P : Type} (sys : Buses P) (b k : Nat) (d : Del) (p : P)
    (hk : k ≠ b) : (sys.enter b d p).bus k = sys.bus k := by
  simp [Buses.enter, Buses.set, hk]

@[simp] theorem buses_enter_passed {P : Type} (sys : Buses P) (b : Nat) (d : Del) (p : P) :
    (sys.enter b d p).passed = sys.passed ++ [(b, d, p)] := rfl

@[simp] theorem buses_leave_same {P : Type} (sys : Buses P) (b : Nat) :
    (sys.leave b).bus b = { sys.bus b with m_pCurDelegate := none } := by
  simp [Buses.leave, Buses.set]

theorem buses_leave_other {P : Type} (sys : Buses P) (b k : Nat) (hk : k ≠ b) :
    (sys.leave b).bus k = sys.bus k := by
  simp [Buses.leave, Buses.set, hk]

@[simp] theorem buses_leave_passed {P : Type} (sys : Buses P) (b : Nat) :
    (sys.leave b).passed = sys.passed := rfl

theorem foldPayload_cons {P : Type} (h : Del → P → P) (p : P) (d : Del) (l : List Del) :
    foldPayload h p (d :: l) = foldPayload h (d.ownEffect h p) l := rfl

theorem dispatchOn_plain {P : Type} (h : Del → P → P) (t b : Nat) (fuel x : Nat) (p : P)
    (sys : Buses P) (hc : (sys.bus b).m_bCancel = false)
    (hplain : ∀ d ∈ (sys.bus b).m_vDelegates, d.proxied = none)
    (hf : (sys.bus b).m_vDelegates.length - x < fuel) :
    ∃ sys2, Buses.dispatchOn h t fuel b x p sys =
        some (foldPayload h p ((sys.bus b).m_vDelegates.drop x), sys2) ∧
      sys2.passed = sys.passed ++ foldLog h b p ((sys.bus b).m_vDelegates.drop x) ∧
      (sys2.bus b).m_vDelegates = (sys.bus b).m_vDelegates ∧
      (sys2.bus b).m_vPendingDelegates = (sys.bus b).m_vPendingDelegates ∧
      (sys2.bus b).m_bCancel = false ∧
      (sys2.bus b).m_Lock = (sys.bus b).m_Lock ∧
      ∀ k, k ≠ b → sys2.bus k = sys.bus k := by
  induction fuel generalizing x p sys with
  | zero => omega
  | succ fuel ih =>
    rw [dispatchOn_succ]
    cases hget : (sys.bus b).m_vDelegates[x]? with
    | none =>
      have hx : (sys.bus b).m_vDelegates.length ≤ x := List.getElem?_eq_none_iff.1 hget
      refine ⟨sys, ?_, ?_, rfl, rfl, hc, rfl, fun _ _ => rfl⟩
      · simp [List.drop_eq_nil_of_le hx, foldPayload]
      · simp [List.drop_eq_nil_of_le hx, foldLog]
    | some d =>
      have hd : d ∈ (sys.bus b).m_vDelegates := List.getElem?_mem hget
      obtain ⟨hx, hxd⟩ := List.getElem?_eq_some_iff.1 hget
      have hdrop : (sys.bus b).m_vDelegates.drop x = d :: (sys.bus b).m_vDelegates.drop (x + 1) := by
        rw [← hxd, List.drop_eq_getElem_cons hx]
      simp only [hplain d hd, buses_leave_same, buses_enter_same, hc, Bool.false_eq_true,
        if_false]
      obtain ⟨sys2, h1, h2, h3, h4, h5, h6, h7⟩ := ih (x + 1) (d.ownEffect h p)
        ((sys.enter b d p).leave b)
        (by simpa using hc) (by simpa using hplain)
        (by simp only [buses_leave_same, buses_enter_same]; omega)
      simp only [buses_leave_same, buses_enter_same, buses_leave_passed, buses_enter_passed]
        at h1 h2 h3 h4 h5 h6
      refine ⟨sys2, ?_, ?_, h3, h4, h5, h6, ?_⟩
      · rw [hdrop, foldPayload_cons]
        exact h1
      · rw [h2, hdrop]
        simp [foldLog]
      · intro k hk
        rw [h7 k hk, buses_leave_other _ _ _ hk]
        exact buses_enter_other _ _ _ _ _ hk

@[simp] theorem buses_lockAndMerge_same {P : Type} (sys : Buses P) (t b : Nat) :
    (sys.lockAndMerge t b).bus b = EventBase.migratePending { sys.bus b with m_Lock := some t } := by
  simp [Buses.lockAndMerge, Buses.set]

theorem buses_lockAndMerge_other {P : Type} (sys : Buses P) (t b k : Nat) (hk : k ≠ b) :
    (sys.lockAndMerge t b).bus k = sys.bus k := by
  simp [Buses.lockAndMerge, Buses.set, hk]

@[simp] theorem buses_lockAndMerge_passed {P : Type} (sys : Buses P) (t b : Nat) :
    (sys.lockAndMerge t b).passed = sys.passed := rfl

@[simp] theorem buses_mergeAndUnlock_same {P : Type} (sys : Buses P) (b : Nat)
    (lock : Option Nat) :
    (sys.mergeAndUnlock b lock).bus b =
      { EventBase.migratePending (sys.bus b) with m_Lock := lock } := by
  simp [Buses.mergeAndUnlock, Buses.set]

theorem buses_mergeAndUnlock_other {P : Type} (sys : Buses P) (b k : Nat) (lock : Option Nat)
    (hk : k ≠ b) : (sys.mergeAndUnlock b lock).bus k = sys.bus k := by
  simp [Buses.mergeAndUnlock, Buses.set, hk]

@[simp] theorem buses_mergeAndUnlock_passed {P : Type} (sys : Buses P) (b : Nat)
    (lock : Option Nat) : (sys.mergeAndUnlock b lock).passed = sys.passed := rfl

/-- A publish on a bus that holds no proxy to a bus. -/
theorem publish_plain {P : Type} (h : Del → P → P) (t b fuel : Nat) (p : P) (sys : Buses P)
    (hc : (sys.bus b).m_bCancel = false) (hplain : ∀ d ∈ sys.mergedLive b, d.proxied = none)
    (hf : (sys.mergedLive b).length < fuel) :
    ∃ sys2, Buses.publish h t fuel b p sys = some (foldPayload h p (sys.mergedLive b), sys2) ∧
      sys2.passed = sys.passed ++ foldLog h b p (sys.mergedLive b) ∧
      (sys2.bus b).m_bCancel = false ∧
      sys2.mergedLive b = sys.mergedLive b ∧
      ∀ k, k ≠ b → sys2.bus k = sys.bus k := by
  have hm : ((sys.lockAndMerge t b).bus b).m_vDelegates = sys.mergedLive b := by
    simp [Buses.mergedLive]
  obtain ⟨sys1, h1, h2, h3, h4, h5, -, h7⟩ := dispatchOn_plain h t b fuel 0 p
    (sys.lockAndMerge t b) (by simpa using hc) (by rw [hm]; exact hplain)
    (by rw [hm]; omega)
  rw [hm] at h1 h2 h3
  simp only [List.drop_zero, buses_lockAndMerge_passed, buses_lockAndMerge_same,
    migratePending_pending] at h1 h2 h4
  refine ⟨sys1.mergeAndUnlock b (sys.bus b).m_Lock, ?_, ?_, ?_, ?_, ?_⟩
  · simp only [Buses.publish, h1]
  · simpa using h2
  · simpa using h5
  · simp [Buses.mergedLive, h3, h4]
  · intro k hk
    rw [buses_mergeAndUnlock_other _ _ _ _ hk, h7 k hk, buses_lockAndMerge_other _ _ _ _ hk]

theorem proxyLog_cons_none {P : Type} (h : Del → P → P) (L : Nat → List Del) (a : Nat) (p : P)
    (d : Del) (ds : List Del) (hd : d.proxied = none) :
    proxyLog h L a p (d :: ds) = (a, d, p) :: proxyLog h L a (d.ownEffect h p) ds ∧
      proxyPayload h L p (d :: ds) = proxyPayload h L (d.ownEffect h p) ds := by
  simp [proxyLog, proxyPayload, hd]

theorem proxyLog_cons_some {P : Type} (h : Del → P → P) (L : Nat → List Del) (a : Nat) (p : P)
    (d : Del) (ds : List Del) (e : Nat) (hd : d.proxied = some e) :
    proxyLog h L a p (d :: ds) =
        (a, d, p) :: (foldLog h e p (L e) ++ proxyLog h L a (foldPayload h p (L e)) ds) ∧
      proxyPayload h L p (d :: ds) = proxyPayload h L (foldPayload h p (L e)) ds := by
  simp [proxyLog, proxyPayload, hd]

/-- The loop on a bus whose proxies lead to buses that hold no proxy. -/
theorem dispatchOn_proxies {P : Type} (h : Del → P → P) (t a M : Nat) (L : Nat → List Del)
    (fuel x : Nat) (p : P) (sys : Buses P) (hc : (sys.bus a).m_bCancel = false)
    (hprox : ∀ d ∈ (sys.bus a).m_vDelegates, ∀ e, d.proxied = some e →
      e ≠ a ∧ (sys.bus e).m_bCancel = false ∧ sys.mergedLive e = L e)
    (hL : ∀ d ∈ (sys.bus a).m_vDelegates, ∀ e, d.proxied = some e →
      (∀ d2 ∈ L e, d2.proxied = none) ∧ (L e).length ≤ M)
    (hf : (sys.bus a).m_vDelegates.length - x + M + 1 ≤ fuel) :
    ∃ sys2, Buses.dispatchOn h t fuel a x p sys =
        some (proxyPayload h L p ((sys.bus a).m_vDelegates.drop x), sys2) ∧
      sys2.passed = sys.passed ++ proxyLog h L a p ((sys.bus a).m_vDelegates.drop x) ∧
      (sys2.bus a).m_vDelegates = (sys.bus a).m_vDelegates ∧
      (sys2.bus a).m_vPendingDelegates = (sys.bus a).m_vPendingDelegates := by
  induction fuel generalizing x p sys with
  | zero => omega
  | succ fuel ih =>
    rw [dispatchOn_succ]
    cases hget : (sys.bus a).m_vDelegates[x]? with
    | none =>
      have hx : (sys.bus a).m_vDelegates.length ≤ x := List.getElem?_eq_none_iff.1 hget
      refine ⟨sys, ?_, ?_, rfl, rfl⟩
      · simp [List.drop_eq_nil_of_le hx, proxyPayload]
      · simp [List.drop_eq_nil_of_le hx, proxyLog]
    | some d =>
      have hd : d ∈ (sys.bus a).m_vDelegates := List.getElem?_mem hget
      obtain ⟨hx, hxd⟩ := List.getElem?_eq_some_iff.1 hget
      have hdrop : (sys.bus a).m_vDelegates.drop x =
          d :: (sys.bus a).m_vDelegates.drop (x + 1) := by
        rw [← hxd, List.drop_eq_getElem_cons hx]
      cases hp : d.proxied with
      | none =>
        simp only [hp, buses_leave_same, buses_enter_same, hc, Bool.false_eq_true, if_false]
        obtain ⟨sys2, h1, h2, h3, h4⟩ := ih (x + 1) (d.ownEffect h p)
          ((sys.enter a d p).leave a) (by simpa using hc)
          (by
            intro d2 hd2 e he
            simp only [buses_leave_same, buses_enter_same] at hd2
            obtain ⟨g1, g2, g3⟩ := hprox d2 hd2 e he
            refine ⟨g1, ?_, ?_⟩
            · rw [buses_leave_other _ _ _ g1, buses_enter_other _ _ _ _ _ g1]; exact g2
            · unfold Buses.mergedLive at g3 ⊢
              rw [buses_leave_other _ _ _ g1, buses_enter_other _ _ _ _ _ g1]; exact g3)
          (by simpa using hL)
          (by simp only [buses_leave_same, buses_enter_same]; omega)
        simp only [buses_leave_same, buses_enter_same, buses_leave_passed, buses_enter_passed]
          at h1 h2 h3 h4
        refine ⟨sys2, ?_, ?_, h3, h4⟩
        · rw [hdrop, (proxyLog_cons_none h L a p d _ hp).2]
          exact h1
        · rw [h2, hdrop, (proxyLog_cons_none h L a p d _ hp).1]
          simp
      | some e =>
        obtain ⟨g1, g2, g3⟩ := hprox d hd e hp
        obtain ⟨g4, g5⟩ := hL d hd e hp
        have hm1 : (sys.enter a d p).mergedLive e = L e := by
          unfold Buses.mergedLive at g3 ⊢
          rw [buses_enter_other _ _ _ _ _ g1]; exact g3
        obtain ⟨sys4, k1, k2, k3, k4, k5⟩ := publish_plain h t e fuel p (sys.enter a d p)
          (by rw [buses_enter_other _ _ _ _ _ g1]; exact g2)
          (by rw [hm1]; exact g4) (by rw [hm1]; omega)
        rw [hm1] at k1 k2 k4
        have ha4 : sys4.bus a = (sys.enter a d p).bus a := k5 a (fun hae => g1 hae.symm)
        simp only [hp, k1, buses_leave_same, ha4, buses_enter_same, hc, Bool.false_eq_true,
          if_false]
        obtain ⟨sys2, h1, h2, h3, h4⟩ := ih (x + 1) (foldPayload h p (L e)) (sys4.leave a)
          (by simpa [ha4] using hc)
          (by
            intro d2 hd2 e2 he2
            simp only [buses_leave_same, ha4, buses_enter_same] at hd2
            obtain ⟨f1, f2, f3⟩ := hprox d2 hd2 e2 he2
            refine ⟨f1, ?_, ?_⟩
            · rw [buses_leave_other _ _ _ f1]
              by_cases hee : e2 = e
              · rw [hee]; exact k3
              · rw [k5 e2 hee, buses_enter_other _ _ _ _ _ f1]; exact f2
            · unfold Buses.mergedLive
              rw [buses_leave_other _ _ _ f1]
              by_cases hee : e2 = e
              · rw [hee]; exact k4
              · rw [k5 e2 hee, buses_enter_other _ _ _ _ _ f1]; exact f3)
          (by simpa [ha4] using hL)
          (by simp only [buses_leave_same, ha4, buses_enter_same]; omega)
        simp only [buses_leave_same, ha4, buses_enter_same, buses_leave_passed] at h1 h2 h3 h4
        refine ⟨sys2, ?_, ?_, h3, h4⟩
        · rw [hdrop, (proxyLog_cons_some h L a p d _ e hp).2]
          exact h1
        · rw [h2, k2, hdrop, (proxyLog_cons_some h L a p d _ e hp).1]
          simp

theorem proxyLog_plain {P : Type} (h : Del → P → P) (L : Nat → List Del) (a : Nat) (p : P)
    (l : List Del) (hl : ∀ d ∈ l, d.proxied = none) :
    proxyLog h L a p l = foldLog h a p l ∧ proxyPayload h L p l = foldPayload h p l := by
  induction l generalizing p with
  | nil => exact ⟨rfl, rfl⟩
  | cons d ds ih =>
    have hd := hl d (List.mem_cons_self _ _)
    obtain ⟨i1, i2⟩ := ih (d.ownEffect h p) (fun x hx => hl x (List.mem_cons_of_mem _ hx))
    obtain ⟨c1, c2⟩ := proxyLog_cons_none h L a p d ds hd
    rw [c1, c2, i1, i2]
    exact ⟨rfl, rfl⟩

theorem proxyLog_append {P : Type} (h : Del → P → P) (L : Nat → List Del) (a : Nat) (p : P)
    (l1 l2 : List Del) :
    proxyLog h L a p (l1 ++ l2) =
        proxyLog h L a p l1 ++ proxyLog h L a (proxyPayload h L p l1) l2 ∧
      proxyPayload h L p (l1 ++ l2) = proxyPayload h L (proxyPayload h L p l1) l2 := by
  induction l1 generalizing p with
  | nil => exact ⟨rfl, rfl⟩
  | cons d ds ih =>
    cases hd : d.proxied with
    | none =>
      obtain ⟨i1, i2⟩ := ih (d.ownEffect h p)
      obtain ⟨c1, c2⟩ := proxyLog_cons_none h L a p d (ds ++ l2) hd
      obtain ⟨e1, e2⟩ := proxyLog_cons_none h L a p d ds hd
      rw [List.cons_append, c1, c2, e1, e2, i1, i2]
      exact ⟨rfl, rfl⟩
    | some e =>
      obtain ⟨i1, i2⟩ := ih (foldPayload h p (L e))
      obtain ⟨c1, c2⟩ := proxyLog_cons_some h L a p d (ds ++ l2) e hd
      obtain ⟨e1, e2⟩ := proxyLog_cons_some h L a p d ds e hd
      rw [List.cons_append, c1, c2, e1, e2, i1, i2]
      simp

/-! ## Verify task base (C21) -/

theorem setResult_stopped (s : VSBaseTask) (r : RESULT) (h : s.m_Result = .RES_STOPPED) :
    s.setResult r = s := by
  simp [VSBaseTask.setResult, h]

theorem setResult_running (s : VSBaseTask) (r : RESULT) (h : s.m_Result ≠ .RES_STOPPED) :
    s.setResult r = { s with m_Result := r } := by
  simp [VSBaseTask.setResult, h]

theorem foldl_setResult_stopped (rs : List RESULT) (s : VSBaseTask)
    (h : s.m_Result = .RES_STOPPED) : rs.foldl (fun a r => a.setResult r) s = s := by
  induction rs with
  | nil => rfl
  | cons r rs ih => rw [List.foldl_cons, setResult_stopped s r h, ih]

theorem foldl_setResult_running (rs : List RESULT) (s : VSBaseTask)
    (hs : s.m_Result ≠ .RES_STOPPED) (hrs : ∀ x ∈ rs, x ≠ RESULT.RES_STOPPED) :
    (rs.foldl (fun a r => a.setResult r) s).m_Result ≠ .RES_STOPPED ∧
      (rs.foldl (fun a r => a.setResult r) s).m_bIsStopped = s.m_bIsStopped := by
  induction rs generalizing s with
  | nil => exact ⟨hs, rfl⟩
  | cons r rs ih =>
    have hr := hrs r (List.mem_cons_self _ _)
    have h1 : (s.setResult r).m_Result ≠ .RES_STOPPED := by
      simp [VSBaseTask.setResult, hs, hr]
    have h2 : (s.setResult r).m_bIsStopped = s.m_bIsStopped := by
      simp [VSBaseTask.setResult, hs]
    obtain ⟨i1, i2⟩ := ih (s.setResult r) h1 (fun x hx => hrs x (List.mem_cons_of_mem _ hx))
    rw [List.foldl_cons]
    exact ⟨i1, i2.trans h2⟩

/-- C21: after `stop()` the stopped flag is true and the result is `RES_STOPPED`, and both
stay so after any later calls of `setResult`, whatever results are passed; on a new task,
as long as `stop()` has not run and the results passed are None, Success or Error,
`setResult(r)` makes `getResult()` return `r` and the task is not stopped; in any state
whose result is not `RES_STOPPED`, `setResult(r)` makes `getResult()` return `r`. -/
theorem C21_stopped_is_absorbing :
    (∀ (s : VSBaseTask) (onStop rs : List RESULT),
      (rs.foldl (fun a r => a.setResult r) (s.stop onStop)).isStopped = true ∧
      (rs.foldl (fun a r => a.setResult r) (s.stop onStop)).getResult = .RES_STOPPED) ∧
    (∀ (rs : List RESULT) (r : RESULT), (∀ x ∈ rs, x ≠ RESULT.RES_STOPPED) →
      ((rs.foldl (fun a r => a.setResult r) VSBaseTask.new).setResult r).getResult = r ∧
      ((rs.foldl (fun a r => a.setResult r) VSBaseTask.new).setResult r).isStopped = false) ∧
    (∀ (s : VSBaseTask) (r : RESULT), s.m_Result ≠ .RES_STOPPED →
      (s.setResult r).getResult = r) := by
  refine ⟨?_, ?_, ?_⟩
  · intro s onStop rs
    have h0 : s.stop onStop = { s with m_bIsStopped := true, m_Result := .RES_STOPPED } :=
      foldl_setResult_stopped onStop _ rfl
    rw [foldl_setResult_stopped rs _ (by rw [h0]), h0]
    exact ⟨rfl, rfl⟩
  · intro rs r hrs
    obtain ⟨h1, h2⟩ := foldl_setResult_running rs VSBaseTask.new (by decide) hrs
    rw [setResult_running _ r h1]
    exact ⟨rfl, h2⟩
  · intro s r hs
    simp [VSBaseTask.getResult, VSBaseTask.setResult, hs]

/-- Witness of C21: results set before `stop()` are returned, results set after it are
not. -/
theorem C21_stopped_is_absorbing_witness :
    ((([RESULT.RES_ERROR, RESULT.RES_NONE].foldl (fun a r => a.setResult r)
        VSBaseTask.new).setResult .RES_SUCCESS).getResult = .RES_SUCCESS ∧
      (([RESULT.RES_ERROR, RESULT.RES_NONE].foldl (fun a r => a.setResult r)
        VSBaseTask.new).setResult .RES_SUCCESS).isStopped = false) ∧
    ((VSBaseTask.new.setResult .RES_SUCCESS).setResult .RES_ERROR).getResult = .RES_ERROR :=
  ⟨C21_stopped_is_absorbing.2.1 [.RES_ERROR, .RES_NONE] .RES_SUCCESS (by decide),
   C21_stopped_is_absorbing.2.2 (VSBaseTask.new.setResult .RES_SUCCESS) .RES_ERROR (by decide)⟩

/-! ## Subscribe, then unsubscribe (C25) -/

theorem findInfoFrom_append_last (d c : Del) (l : List Del) (x : Nat)
    (h : ∀ e ∈ l, e.equals d = false) (hc : c.equals d = true) :
    findInfoFrom d (l ++ [c]) x = x + l.length := by
  induction l generalizing x with
  | nil => simp [findInfoFrom, hc]
  | cons e rest ih =>
    have he : e.equals d = false := h e (List.mem_cons_self _ _)
    have h2 := ih (x + 1) (fun e2 h2 => h e2 (List.mem_cons_of_mem _ h2))
    rw [List.cons_append, findInfoFrom, he, List.length_cons]
    simp only [Bool.false_eq_true, if_false]
    omega

theorem eraseIdx_append_last (c : Del) (l : List Del) : (l ++ [c]).eraseIdx l.length = l := by
  induction l with
  | nil => rfl
  | cons e rest ih => simp [List.eraseIdx, ih]

/-- C25: on a bus whose queue is empty and whose live sequence holds nothing equal to `d`
(and is shorter than the sentinel `UNKNOWN_ITEM`), `bus += d` followed by `bus -= d2` with
`d2` equal to `d`, both merged at once because the mutex is available, leaves the live
sequence exactly as it was, and the queue empty. -/
theorem C25_subscribe_unsubscribe_round_trip (t t2 : Nat) (d d2 : Del) (s : EventBase)
    (hq : s.m_vPendingDelegates = [])
    (hl : s.try_lock t = true) (hl2 : s.try_lock t2 = true)
    (habs : ∀ e ∈ s.m_vDelegates, e.equals d = false)
    (heq : d2.equals d = true)
    (hsz : s.m_vDelegates.length < UNKNOWN_ITEM) :
    ((s.operator_plus_eq t (some d)).operator_minus_eq t2 (some d2)).m_vDelegates =
      s.m_vDelegates ∧
    ((s.operator_plus_eq t (some d)).operator_minus_eq t2 (some d2)).m_vPendingDelegates = [] ∧
    (s.operator_plus_eq t (some d)).m_vDelegates = s.m_vDelegates ++ [⟨s.nextAddr, d.target⟩] := by
  obtain ⟨hn, hk, -, -, -, -, hlive, hpend⟩ := operator_plus_eq_some t d s
  obtain ⟨-, -, -, -, -, -, hlive2, hpend2⟩ :=
    operator_minus_eq_some t2 d2 (s.operator_plus_eq t (some d))
  have hl3 : (s.operator_plus_eq t (some d)).try_lock t2 = true := by
    simpa [try_lock, hk] using hl2
  have htg : d2.target = d.target := (del_equals_iff d2 d).1 heq
  have habs1 : ∀ e ∈ s.m_vDelegates, e.equals (Del.mk s.nextAddr d.target) = false := by
    intro e he
    rw [del_equals_false_iff]
    exact (del_equals_false_iff e d).1 (habs e he)
  have habs2 : ∀ e ∈ s.m_vDelegates, e.equals (Del.mk (s.nextAddr + 1) d2.target) = false := by
    intro e he
    rw [del_equals_false_iff, htg]
    exact (del_equals_false_iff e d).1 (habs e he)
  have h1 : (s.operator_plus_eq t (some d)).m_vDelegates =
      s.m_vDelegates ++ [Del.mk s.nextAddr d.target] := by
    rw [hlive, hq]
    simp [hl, liveStep, findInfoFrom_absent _ _ 0 habs1]
  have hfound : findInfoFrom (Del.mk (s.nextAddr + 1) d2.target)
      (s.m_vDelegates ++ [Del.mk s.nextAddr d.target]) 0 = s.m_vDelegates.length := by
    rw [findInfoFrom_append_last (Del.mk (s.nextAddr + 1) d2.target) (Del.mk s.nextAddr d.target)
      s.m_vDelegates 0 habs2 ((del_equals_iff _ _).2 htg.symm)]
    omega
  refine ⟨?_, ?_, h1⟩
  · rw [hlive2, hpend, h1, hn]
    simp only [hl3, hl, if_true, List.nil_append, List.foldl_cons, List.foldl_nil, liveStep,
      hfound]
    simp only [Bool.false_eq_true, if_false, ne_eq, Nat.ne_of_lt hsz, not_false_eq_true, if_true]
    exact eraseIdx_append_last _ _
  · rw [hpend2]
    simp [hl3]

/-- Witness of C25: two live delegates, then a third is subscribed and unsubscribed. -/
theorem C25_subscribe_unsubscribe_round_trip_witness :
    ((({ EventBase.new 9 with m_vDelegates := [⟨3, .funct 1⟩, ⟨4, .obj 2 5⟩] }).operator_plus_eq 0
        (some ⟨7, .funct 6⟩)).operator_minus_eq 0 (some ⟨8, .funct 6⟩)).m_vDelegates =
      [⟨3, .funct 1⟩, ⟨4, .obj 2 5⟩] ∧
    ((({ EventBase.new 9 with m_vDelegates := [⟨3, .funct 1⟩, ⟨4, .obj 2 5⟩] }).operator_plus_eq 0
        (some ⟨7, .funct 6⟩)).operator_minus_eq 0 (some ⟨8, .funct 6⟩)).m_vPendingDelegates = [] ∧
    (({ EventBase.new 9 with m_vDelegates := [⟨3, .funct 1⟩, ⟨4, .obj 2 5⟩] }).operator_plus_eq 0
        (some ⟨7, .funct 6⟩)).m_vDelegates =
      [⟨3, .funct 1⟩, ⟨4, .obj 2 5⟩] ++ [⟨9, .funct 6⟩] :=
  C25_subscribe_unsubscribe_round_trip 0 0 ⟨7, .funct 6⟩ ⟨8, .funct 6⟩
    { EventBase.new 9 with m_vDelegates := [⟨3, .funct 1⟩, ⟨4, .obj 2 5⟩] }
    rfl rfl rfl (by decide) rfl (by decide)

/-! ## Download task: what the operations leave alone (C28, C29, C30) -/

/-- The members and the percent writes are the same in both states. -/
theorem still_of_eq {s r : DownloadTask} (h1 : r.m_bInError = s.m_bInError)
    (h2 : r.m_bInitFinished = s.m_bInitFinished)
    (h3 : r.calls.filter Ev.isSetPercent = s.calls.filter Ev.isSetPercent) :
    Latched s r ∧ NoPercent s r :=
  ⟨⟨fun h => h1.trans h, fun h => h2.trans h⟩, fun h => ⟨h2.trans h, h3⟩⟩

theorem latched_refl (s : DownloadTask) : Latched s s := ⟨id, id⟩

theorem latched_trans {a b c : DownloadTask} (h1 : Latched a b) (h2 : Latched b c) :
    Latched a c :=
  ⟨fun h => h2.1 (h1.1 h), fun h => h2.2 (h1.2 h)⟩

theorem noPercent_refl (s : DownloadTask) : NoPercent s s := fun h => ⟨h, rfl⟩

theorem noPercent_trans {a b c : DownloadTask} (h1 : NoPercent a b) (h2 : NoPercent b c) :
    NoPercent a c := fun h =>
  ⟨(h2 (h1 h).1).1, ((h2 (h1 h).1).2).trans (h1 h).2⟩

theorem startToolDownload_still (env : Env) (s : DownloadTask) :
    Latched s (DownloadTask.startToolDownload env s).1 ∧
    NoPercent s (DownloadTask.startToolDownload env s).1 := by
  apply still_of_eq <;>
    (rw [startToolDownload_eq]; split_ifs <;>
     simp [DownloadTask.reloadedCalls, Ev.isSetPercent, List.filter_append])

theorem onComplete_still (env : Env) (savePath : String) (s : DownloadTask) :
    Latched s (DownloadTask.onComplete env savePath s).1 ∧
    NoPercent s (DownloadTask.onComplete env savePath s).1 := by
  apply still_of_eq <;>
    (unfold DownloadTask.onComplete; simp only [DownloadTask.call];
     split_ifs <;> simp [Ev.isSetPercent, List.filter_append])

theorem clearEvents_still (env : Env) (s : DownloadTask) :
    Latched s (DownloadTask.clearEvents env s) ∧ NoPercent s (DownloadTask.clearEvents env s) := by
  apply still_of_eq <;>
    (unfold DownloadTask.clearEvents; simp only [DownloadTask.call];
     split_ifs <;> simp [Ev.isSetPercent, List.filter_append])

theorem onStop_still (env : Env) (s : DownloadTask) :
    Latched s (DownloadTask.onStop env s) ∧ NoPercent s (DownloadTask.onStop env s) := by
  apply still_of_eq <;>
    (unfold DownloadTask.onStop DownloadTask.clearEvents; simp only [DownloadTask.call];
     split_ifs <;> simp [Ev.isSetPercent, List.filter_append])

theorem cancel_still (env : Env) (s : DownloadTask) :
    Latched s (DownloadTask.cancel env s) ∧ NoPercent s (DownloadTask.cancel env s) := by
  apply still_of_eq <;>
    (unfold DownloadTask.cancel DownloadTask.onStop DownloadTask.clearEvents;
     simp only [DownloadTask.call];
     split_ifs <;> simp [Ev.isSetPercent, List.filter_append])

theorem onBannerComplete_still (env : Env) (act : ProviderActions) (s : DownloadTask) :
    Latched s (DownloadTask.onBannerComplete env act s) ∧
    NoPercent s (DownloadTask.onBannerComplete env act s) := by
  apply still_of_eq <;>
    (unfold DownloadTask.onBannerComplete; simp only [DownloadTask.call];
     split_ifs <;> simp [Ev.isSetPercent, List.filter_append])

theorem onNewProvider_still (env : Env) (act : ProviderActions) (provider : Bool) (action : Nat)
    (s : DownloadTask) :
    Latched s (DownloadTask.onNewProvider env act provider action s) ∧
    NoPercent s (DownloadTask.onNewProvider env act provider action s) := by
  apply still_of_eq <;>
    (unfold DownloadTask.onNewProvider; simp only [DownloadTask.call];
     split_ifs <;> simp [Ev.isSetPercent, List.filter_append])

theorem onError_still (env : Env) (s : DownloadTask) :
    Latched s (DownloadTask.onError env s) ∧ NoPercent s (DownloadTask.onError env s) := by
  refine ⟨⟨?_, ?_⟩, ?_⟩
  · intro h
    unfold DownloadTask.onError
    simp only [DownloadTask.call]
    split_ifs <;> simp [h]
  · intro h
    unfold DownloadTask.onError
    simp only [DownloadTask.call]
    split_ifs <;> simp [h]
  · intro h
    unfold DownloadTask.onError
    simp only [DownloadTask.call]
    split_ifs <;> simp [h, Ev.isSetPercent, List.filter_append]

theorem onProgress_latched (fl : ProgressFlags) (item : Option Bool) (p : ProgressInfo)
    (s : DownloadTask) : Latched s (s.onProgress fl item p) := by
  refine ⟨?_, ?_⟩ <;> intro h <;> unfold DownloadTask.onProgress <;>
    simp only [DownloadTask.call] <;> cases item <;> simp only [] <;>
    split_ifs <;> simp_all

theorem onProgress_noPercent (fl : ProgressFlags) (item : Option Bool) (p : ProgressInfo)
    (s : DownloadTask) (hp : p.flag &&& fl.FLAG_INITFINISHED = 0) :
    NoPercent s (s.onProgress fl item p) := by
  intro h
  unfold DownloadTask.onProgress
  simp only [DownloadTask.call, hp, ne_eq, not_true_eq_false, if_false]
  cases item <;> simp only [] <;> split_ifs <;>
    simp_all [Ev.isSetPercent, List.filter_append]

theorem call_still (e : Ev) (s : DownloadTask) (he : e.isSetPercent = false) :
    Latched s (s.call e) ∧ NoPercent s (s.call e) := by
  apply still_of_eq <;> simp [DownloadTask.call, List.filter_append, he]

theorem mcfEvent_latched (env : Env) (fl : ProgressFlags) (act : ProviderActions)
    (e : McfEvent) (s : DownloadTask) : Latched s (e.exec env fl act s) := by
  cases e with
  | progress item p => exact onProgress_latched fl item p s
  | error => exact (onError_still env s).1
  | newProvider provider action => exact (onNewProvider_still env act provider action s).1

theorem mcfEvent_noPercent (env : Env) (fl : ProgressFlags) (act : ProviderActions)
    (e : McfEvent) (s : DownloadTask) (h : e.carriesInit fl = false) :
    NoPercent s (e.exec env fl act s) := by
  cases e with
  | progress item p =>
    exact onProgress_noPercent fl item p s (by simpa [McfEvent.carriesInit] using h)
  | error => exact (onError_still env s).2
  | newProvider provider action => exact (onNewProvider_still env act provider action s).2

theorem foldl_mcfEvent_latched (env : Env) (fl : ProgressFlags) (act : ProviderActions)
    (events : List McfEvent) (s : DownloadTask) :
    Latched s (events.foldl (fun a e => e.exec env fl act a) s) := by
  induction events generalizing s with
  | nil => exact latched_refl s
  | cons e rest ih => exact latched_trans (mcfEvent_latched env fl act e s) (ih _)

theorem foldl_mcfEvent_noPercent (env : Env) (fl : ProgressFlags) (act : ProviderActions)
    (events : List McfEvent) (s : DownloadTask)
    (h : events.any (McfEvent.carriesInit fl) = false) :
    NoPercent s (events.foldl (fun a e => e.exec env fl act a) s) := by
  induction events generalizing s with
  | nil => exact noPercent_refl s
  | cons e rest ih =>
    simp only [List.any_cons, Bool.or_eq_false_iff] at h
    exact noPercent_trans (mcfEvent_noPercent env fl act e s h.1) (ih _ h.2)

/-- The state that `doRun` reaches, path by path. -/
theorem doRun_fst (env : Env) (fl : ProgressFlags) (act : ProviderActions) (hasItem : Bool)
    (events : List McfEvent) (s : DownloadTask) :
    (DownloadTask.doRun env fl act hasItem events s).1 = s ∨
    (DownloadTask.doRun env fl act hasItem events s).1 =
      ((s.call (.MCF_setFile s.m_szMcfPath)).call .MCF_parseMCF).call .MCF_forceLoad ∨
    (DownloadTask.doRun env fl act hasItem events s).1 =
      (DownloadTask.startToolDownload env
        (((s.call (.MCF_setFile s.m_szMcfPath)).call .MCF_parseMCF).call .MCF_forceLoad)).1 ∨
    ∃ path : String, (DownloadTask.doRun env fl act hasItem events s).1 =
      { (DownloadTask.onComplete env
          (events.foldl (fun a e => e.exec env fl act a)
            ((DownloadTask.startToolDownload env
              (((s.call (.MCF_setFile s.m_szMcfPath)).call .MCF_parseMCF).call
                .MCF_forceLoad)).1.call .MCF_dlFilesFromWeb)).m_szMcfPath
          (events.foldl (fun a e => e.exec env fl act a)
            ((DownloadTask.startToolDownload env
              (((s.call (.MCF_setFile s.m_szMcfPath)).call .MCF_parseMCF).call
                .MCF_forceLoad)).1.call .MCF_dlFilesFromWeb))).1 with m_szMcfPath := path } := by
  unfold DownloadTask.doRun
  by_cases h1 : hasItem = true
  · simp only [h1, Bool.not_true, Bool.false_eq_true, if_false]
    split_ifs with h2
    · exact Or.inr (Or.inl rfl)
    · cases h3 : DownloadTask.startToolDownload env
        (((s.call (.MCF_setFile s.m_szMcfPath)).call .MCF_parseMCF).call .MCF_forceLoad) with
      | mk s2 o =>
        cases o with
        | some e => exact Or.inr (Or.inr (Or.inl rfl))
        | none => exact Or.inr (Or.inr (Or.inr ⟨_, rfl⟩))
  · simp [h1]

theorem doRun_still (env : Env) (fl : ProgressFlags) (act : ProviderActions) (hasItem : Bool)
    (events : List McfEvent) (s : DownloadTask) :
    Latched s (DownloadTask.doRun env fl act hasItem events s).1 ∧
    (events.any (McfEvent.carriesInit fl) = false →
      NoPercent s (DownloadTask.doRun env fl act hasItem events s).1) := by
  have a1 := call_still (.MCF_setFile s.m_szMcfPath) s rfl
  have a2 := call_still .MCF_parseMCF (s.call (.MCF_setFile s.m_szMcfPath)) rfl
  have a3 := call_still .MCF_forceLoad
    ((s.call (.MCF_setFile s.m_szMcfPath)).call .MCF_parseMCF) rfl
  have b1 := latched_trans (latched_trans a1.1 a2.1) a3.1
  have b2 := noPercent_trans (noPercent_trans a1.2 a2.2) a3.2
  have c := startToolDownload_still env
    (((s.call (.MCF_setFile s.m_szMcfPath)).call .MCF_parseMCF).call .MCF_forceLoad)
  have d := call_still .MCF_dlFilesFromWeb (DownloadTask.startToolDownload env
    (((s.call (.MCF_setFile s.m_szMcfPath)).call .MCF_parseMCF).call .MCF_forceLoad)).1 rfl
  rcases doRun_fst env fl act hasItem events s with h | h | h | ⟨path, h⟩
  · rw [h]
    exact ⟨latched_refl s, fun _ => noPercent_refl s⟩
  · rw [h]
    exact ⟨b1, fun _ => b2⟩
  · rw [h]
    exact ⟨latched_trans b1 c.1, fun _ => noPercent_trans b2 c.2⟩
  · rw [h]
    have e1 := foldl_mcfEvent_latched env fl act events
      ((DownloadTask.startToolDownload env
        (((s.call (.MCF_setFile s.m_szMcfPath)).call .MCF_parseMCF).call
          .MCF_forceLoad)).1.call .MCF_dlFilesFromWeb)
    have f := onComplete_still env
      (events.foldl (fun a e => e.exec env fl act a)
        ((DownloadTask.startToolDownload env
          (((s.call (.MCF_setFile s.m_szMcfPath)).call .MCF_parseMCF).call
            .MCF_forceLoad)).1.call .MCF_dlFilesFromWeb)).m_szMcfPath
      (events.foldl (fun a e => e.exec env fl act a)
        ((DownloadTask.startToolDownload env
          (((s.call (.MCF_setFile s.m_szMcfPath)).call .MCF_parseMCF).call
            .MCF_forceLoad)).1.call .MCF_dlFilesFromWeb))
    refine ⟨?_, fun hev => ?_⟩
    · exact latched_trans (latched_trans (latched_trans (latched_trans b1 c.1) d.1) e1) f.1
    · have e2 := foldl_mcfEvent_noPercent env fl act events
        ((DownloadTask.startToolDownload env
          (((s.call (.MCF_setFile s.m_szMcfPath)).call .MCF_parseMCF).call
            .MCF_forceLoad)).1.call .MCF_dlFilesFromWeb) hev
      exact noPercent_trans (noPercent_trans (noPercent_trans (noPercent_trans b2 c.2) d.2) e2)
        f.2

theorem taskOp_latched (env : Env) (fl : ProgressFlags) (act : ProviderActions) (op : TaskOp)
    (s : DownloadTask) : Latched s (op.exec env fl act s) := by
  cases op with
  | doRun hasItem events => exact (doRun_still env fl act hasItem events s).1
  | startToolDownload => exact (startToolDownload_still env s).1
  | onToolComplete => exact ⟨id, id⟩
  | onComplete savePath => exact (onComplete_still env savePath s).1
  | onPause => exact (call_still .MCF_pause s rfl).1
  | onUnpause => exact (call_still .MCF_unpause s rfl).1
  | clearEvents => exact (clearEvents_still env s).1
  | onStop => exact (onStop_still env s).1
  | onProgress item p => exact onProgress_latched fl item p s
  | onBannerComplete => exact (onBannerComplete_still env act s).1
  | onNewProvider provider action => exact (onNewProvider_still env act provider action s).1
  | onError => exact (onError_still env s).1
  | cancel => exact (cancel_still env s).1

theorem taskOp_noPercent (env : Env) (fl : ProgressFlags) (act : ProviderActions) (op : TaskOp)
    (s : DownloadTask) (h : op.carriesInit fl = false) : NoPercent s (op.exec env fl act s) := by
  cases op with
  | doRun hasItem events => exact (doRun_still env fl act hasItem events s).2 h
  | startToolDownload => exact (startToolDownload_still env s).2
  | onToolComplete => exact fun h => ⟨h, rfl⟩
  | onComplete savePath => exact (onComplete_still env savePath s).2
  | onPause => exact (call_still .MCF_pause s rfl).2
  | onUnpause => exact (call_still .MCF_unpause s rfl).2
  | clearEvents => exact (clearEvents_still env s).2
  | onStop => exact (onStop_still env s).2
  | onProgress item p =>
    exact onProgress_noPercent fl item p s (by simpa [TaskOp.carriesInit] using h)
  | onBannerComplete => exact (onBannerComplete_still env act s).2
  | onNewProvider provider action => exact (onNewProvider_still env act provider action s).2
  | onError => exact (onError_still env s).2
  | cancel => exact (cancel_still env s).2

theorem runTask_latched (env : Env) (fl : ProgressFlags) (act : ProviderActions)
    (ops : List TaskOp) (s : DownloadTask) : Latched s (runTask env fl act ops s) := by
  induction ops generalizing s with
  | nil => exact latched_refl s
  | cons op rest ih => exact latched_trans (taskOp_latched env fl act op s) (ih _)

theorem runTask_noPercent (env : Env) (fl : ProgressFlags) (act : ProviderActions)
    (ops : List TaskOp) (s : DownloadTask) (h : ∀ op ∈ ops, op.carriesInit fl = false) :
    NoPercent s (runTask env fl act ops s) := by
  induction ops generalizing s with
  | nil => exact noPercent_refl s
  | cons op rest ih =>
    exact noPercent_trans (taskOp_noPercent env fl act op s (h op (List.mem_cons_self _ _)))
      (ih _ (fun o ho => h o (List.mem_cons_of_mem _ ho)))

/-- The log that `onProgress` leaves. -/
theorem onProgress_calls (fl : ProgressFlags) (item : Option Bool) (p : ProgressInfo)
    (s : DownloadTask) :
    (s.onProgress fl item p).calls =
      s.calls ++ [.onMcfProgressEvent p.flag p.percent] ++
        (if p.flag &&& fl.FLAG_INITFINISHED ≠ 0 then [.setPausable true]
         else if p.flag &&& fl.FLAG_FINALIZING ≠ 0 then [.setPausable false] else []) ++
        (match item with
         | some u =>
           if s.m_bInitFinished = true ∨ p.flag &&& fl.FLAG_INITFINISHED ≠ 0 then
             [.setPercent (if u then p.percent / 2 else p.percent)]
           else []
         | none => []) := by
  unfold DownloadTask.onProgress
  simp only [DownloadTask.call]
  by_cases h1 : p.flag &&& fl.FLAG_INITFINISHED = 0 <;>
    by_cases h2 : p.flag &&& fl.FLAG_FINALIZING = 0 <;>
    by_cases h3 : s.m_bInitFinished = true <;>
    cases item with
    | none => simp [h1, h2]
    | some u => cases u <;> simp [h1, h2, h3]

theorem newCalls_append (s r : DownloadTask) (l : List Ev) (h : r.calls = s.calls ++ l) :
    newCalls s r = l := by
  simp [newCalls, h]

/-- C28: when the task is in error or stopped at completion, `onComplete` makes one call on the
item, `completeStage(true)`; before it, the tool manager is told to remove the transaction
when the tool download has completed, and nothing else is called: the completion event is not
published (the path is as it was passed), no status flag is changed and no other stage is
entered.  The flag `m_bInError`, which `onError` sets when the item does not pause on error,
stays set through every sequence of operations of the task. -/
theorem C28_complete_in_error (env : Env) (fl : ProgressFlags) (act : ProviderActions)
    (savePath : String) (s : DownloadTask) :
    ((s.m_bInError || env.isStopped s.calls) = true →
      newCalls s (DownloadTask.onComplete env savePath s).1 =
        (if s.m_bToolDownloadComplete then [.removeTransaction s.m_ToolTTID true] else []) ++
          [.completeStage true] ∧
      (DownloadTask.onComplete env savePath s).2 = savePath) ∧
    (env.shouldPauseOnError (s.calls ++ [.Warning, .setPausable false]) = false →
      (DownloadTask.onError env s).m_bInError = true) ∧
    (∀ ops : List TaskOp, s.m_bInError = true →
      (runTask env fl act ops s).m_bInError = true) := by
  refine ⟨?_, ?_, ?_⟩
  · intro h
    refine ⟨?_, ?_⟩
    · apply newCalls_append
      unfold DownloadTask.onComplete
      simp only [h, DownloadTask.call, if_true]
      by_cases ht : s.m_bToolDownloadComplete = true <;> simp [ht]
    · unfold DownloadTask.onComplete
      simp only [h, DownloadTask.call, if_true]
  · intro h
    unfold DownloadTask.onError
    simp only [DownloadTask.call, List.append_assoc, List.singleton_append, h]
    simp
  · intro ops h
    exact (runTask_latched env fl act ops s).1 h

/-- Witness of C28: the tool download of a task has completed and an error event arrives; the
item does not pause on error.  Completion then removes the transaction and completes the
stage, and the flag survives a run of other operations. -/
theorem C28_complete_in_error_witness :
    (newCalls (DownloadTask.onError (demoEnv false false 0) demoTask.onToolComplete)
        (DownloadTask.onComplete (demoEnv false false 0) "a.mcf"
          (DownloadTask.onError (demoEnv false false 0) demoTask.onToolComplete)).1 =
        (if (DownloadTask.onError (demoEnv false false 0)
            demoTask.onToolComplete).m_bToolDownloadComplete then
          [.removeTransaction (DownloadTask.onError (demoEnv false false 0)
            demoTask.onToolComplete).m_ToolTTID true] else []) ++ [.completeStage true] ∧
      (DownloadTask.onComplete (demoEnv false false 0) "a.mcf"
          (DownloadTask.onError (demoEnv false false 0) demoTask.onToolComplete)).2 = "a.mcf") ∧
    (runTask (demoEnv false false 0) demoFlags demoActions
      [.onProgress (some false) ⟨2, 40⟩, .cancel, .onComplete "a.mcf", .doRun true [.error]]
      (DownloadTask.onError (demoEnv false false 0) demoTask.onToolComplete)).m_bInError = true :=
  ⟨(C28_complete_in_error (demoEnv false false 0) demoFlags demoActions "a.mcf"
      (DownloadTask.onError (demoEnv false false 0) demoTask.onToolComplete)).1 (by decide),
   (C28_complete_in_error (demoEnv false false 0) demoFlags demoActions "a.mcf"
      (DownloadTask.onError (demoEnv false false 0) demoTask.onToolComplete)).2.2 _ (by decide)⟩

/-- C29: when the tool download has signalled completion, `onComplete` first calls
`removeTransaction` with the transaction id and with `forced` equal to "in error or stopped",
calls it only once, leaves the transaction id unset (`UINT_MAX`) and does not go to the tool
download stage; when the tool download has not signalled completion, `removeTransaction` is
not called, in error or not, and the transaction id is left as it was. -/
theorem C29_remove_transaction_iff (env : Env) (savePath : String) (s : DownloadTask) :
    (s.m_bToolDownloadComplete = true →
      (∃ rest : List Ev,
        newCalls s (DownloadTask.onComplete env savePath s).1 =
          .removeTransaction s.m_ToolTTID (s.m_bInError || env.isStopped s.calls) :: rest ∧
        rest.any Ev.isRemoveTransaction = false ∧
        rest.any Ev.isGoToStageDownloadTools = false) ∧
      (DownloadTask.onComplete env savePath s).1.m_ToolTTID = UINT_MAX) ∧
    (s.m_bToolDownloadComplete = false →
      (newCalls s (DownloadTask.onComplete env savePath s).1).any Ev.isRemoveTransaction = false ∧
      (DownloadTask.onComplete env savePath s).1.m_ToolTTID = s.m_ToolTTID) := by
  refine ⟨?_, ?_⟩
  · intro ht
    refine ⟨?_, ?_⟩
    · by_cases he : (s.m_bInError || env.isStopped s.calls) = true
      · refine ⟨[.completeStage true], ?_, rfl, rfl⟩
        apply newCalls_append
        unfold DownloadTask.onComplete
        simp [he, ht, DownloadTask.call]
      · simp only [Bool.not_eq_true] at he
        unfold DownloadTask.onComplete
        simp only [he, ht, DownloadTask.call, if_true, Bool.false_eq_true, if_false, ne_eq,
          not_true_eq_false]
        split_ifs
        · exact ⟨[.onCompleteStrEvent savePath, .addSFlag env.STATUS_PRELOADED,
            .delSFlag env.STATUS_DOWNLOADING, .completeStage true],
            newCalls_append _ _ _ (by simp), rfl, rfl⟩
        · exact ⟨[.onCompleteStrEvent savePath,
            .goToStageInstallComplex env.getMcfBranch env.getMcfBuild],
            newCalls_append _ _ _ (by simp), rfl, rfl⟩
        · exact ⟨[.onCompleteStrEvent savePath,
            .goToStageInstall (env.onCompleteStr
              (s.calls ++ [.removeTransaction s.m_ToolTTID false]) savePath) env.getMcfBranch],
            newCalls_append _ _ _ (by simp), rfl, rfl⟩
    · unfold DownloadTask.onComplete
      simp only [ht, DownloadTask.call, if_true]
      split_ifs <;> rfl
  · intro ht
    refine ⟨?_, ?_⟩
    · unfold DownloadTask.onComplete
      simp only [ht, DownloadTask.call, Bool.false_eq_true, if_false]
      split_ifs <;> simp [newCalls, Ev.isRemoveTransaction]
    · unfold DownloadTask.onComplete
      simp only [ht, DownloadTask.call, Bool.false_eq_true, if_false]
      split_ifs <;> rfl

/-- Witness of C29: the task with transaction 7, once with and once without the completion
signal of the tool download. -/
theorem C29_remove_transaction_iff_witness :
    (DownloadTask.onComplete (demoEnv false false 0) "a.mcf"
        demoTask.onToolComplete).1.m_ToolTTID = UINT_MAX ∧
    (newCalls demoTask (DownloadTask.onComplete (demoEnv false false 0) "a.mcf"
        demoTask).1).any Ev.isRemoveTransaction = false :=
  ⟨((C29_remove_transaction_iff (demoEnv false false 0) "a.mcf" demoTask.onToolComplete).1
      (by decide)).2,
   ((C29_remove_transaction_iff (demoEnv false false 0) "a.mcf" demoTask).2 (by decide)).1⟩

/-- C30: from a new task, no sequence of operations without a progress event that carries
`FLAG_INITFINISHED` writes the percent of the item.  From the event that carries it on (the
latch `m_bInitFinished` is never cleared), a progress event on a task with an item writes the
percent once, last: `p.percent / 2` when the item is updating and `p.percent` otherwise, so at
most 50 for an updating item when `p.percent ≤ 100`; without an item nothing is written.  An
event with `FLAG_INITFINISHED` calls `setPausable(true)`, one with `FLAG_FINALIZING` and
without `FLAG_INITFINISHED` calls `setPausable(false)`, and no other call of `setPausable` is
made. -/
theorem C30_progress_percent (env : Env) (fl : ProgressFlags) (act : ProviderActions) :
    (∀ (mcfPath : String) (ops : List TaskOp), (∀ op ∈ ops, op.carriesInit fl = false) →
      (runTask env fl act ops (DownloadTask.new mcfPath)).calls.any Ev.isSetPercent = false) ∧
    (∀ (s : DownloadTask) (ops : List TaskOp), s.m_bInitFinished = true →
      (runTask env fl act ops s).m_bInitFinished = true) ∧
    (∀ (s : DownloadTask) (u : Bool) (p : ProgressInfo),
      s.m_bInitFinished = true ∨ p.flag &&& fl.FLAG_INITFINISHED ≠ 0 →
        (s.onProgress fl (some u) p).m_bInitFinished = true ∧
        (newCalls s (s.onProgress fl (some u) p)).filter Ev.isSetPercent =
          [.setPercent (if u then p.percent / 2 else p.percent)] ∧
        (s.onProgress fl (some u) p).calls.getLast? =
          some (.setPercent (if u then p.percent / 2 else p.percent)) ∧
        (u = true → p.percent ≤ 100 →
          ∀ n, Ev.setPercent n ∈ newCalls s (s.onProgress fl (some u) p) → n ≤ 50)) ∧
    (∀ (s : DownloadTask) (p : ProgressInfo),
      (newCalls s (s.onProgress fl none p)).any Ev.isSetPercent = false) ∧
    (∀ (s : DownloadTask) (item : Option Bool) (p : ProgressInfo),
      p.flag &&& fl.FLAG_INITFINISHED ≠ 0 →
        (newCalls s (s.onProgress fl item p)).filter Ev.isSetPausable = [.setPausable true]) ∧
    (∀ (s : DownloadTask) (item : Option Bool) (p : ProgressInfo),
      p.flag &&& fl.FLAG_INITFINISHED = 0 → p.flag &&& fl.FLAG_FINALIZING ≠ 0 →
        (newCalls s (s.onProgress fl item p)).filter Ev.isSetPausable = [.setPausable false]) := by
  refine ⟨?_, ?_, ?_, ?_, ?_, ?_⟩
  · intro mcfPath ops hops
    have h := (runTask_noPercent env fl act ops (DownloadTask.new mcfPath) hops) rfl
    have h2 : (runTask env fl act ops (DownloadTask.new mcfPath)).calls.filter Ev.isSetPercent
        = [] := h.2
    rw [List.filter_eq_nil_iff] at h2
    rw [List.any_eq_false]
    exact h2
  · intro s ops h
    exact (runTask_latched env fl act ops s).2 h
  · intro s u p h
    have hc := onProgress_calls fl (some u) p s
    simp only [h, if_true, List.append_assoc] at hc
    refine ⟨?_, ?_, ?_, ?_⟩
    · unfold DownloadTask.onProgress
      simp only [DownloadTask.call]
      rcases h with h | h
      · cases u <;> split_ifs <;> simp_all
      · cases u <;> simp [h]
    · rw [newCalls_append _ _ _ hc]
      split_ifs <;> simp [Ev.isSetPercent]
    · rw [hc]
      split_ifs <;> simp
    · intro hu hp n hn
      subst hu
      simp only [if_true] at hc
      rw [newCalls_append _ _ _ hc] at hn
      have : n = p.percent / 2 := by
        split_ifs at hn <;> simpa using hn
      omega
  · intro s p
    have hc := onProgress_calls fl none p s
    simp only [List.append_assoc] at hc
    rw [newCalls_append _ _ _ hc]
    split_ifs <;> simp [Ev.isSetPercent]
  · intro s item p h
    have hc := onProgress_calls fl item p s
    simp only [h, ne_eq, not_false_eq_true, if_true, or_true, List.append_assoc] at hc
    rw [newCalls_append _ _ _ hc]
    cases item <;> simp [Ev.isSetPausable]
  · intro s item p h1 h2
    have hc := onProgress_calls fl item p s
    simp only [h1, h2, ne_eq, not_true_eq_false, not_false_eq_true, if_true, if_false,
      or_false, List.append_assoc] at hc
    rw [newCalls_append _ _ _ hc]
    cases item with
    | none => simp [Ev.isSetPausable]
    | some u => simp only []; split_ifs <;> simp [Ev.isSetPausable]

/-- Witness of C30: a new task runs with progress events that do not carry the flag, then an
updating item receives the event that carries it, at 100 percent. -/
theorem C30_progress_percent_witness :
    (runTask (demoEnv false false 0) demoFlags demoActions
      [.onProgress (some true) ⟨0, 10⟩, .doRun true [.progress (some false) ⟨4, 20⟩, .error],
       .onProgress (some false) ⟨5, 30⟩]
      (DownloadTask.new "a.mcf")).calls.any Ev.isSetPercent = false ∧
    ((DownloadTask.new "a.mcf").onProgress demoFlags (some true) ⟨2, 100⟩).calls.getLast? =
      some (.setPercent (if true then (ProgressInfo.mk 2 100).percent / 2
        else (ProgressInfo.mk 2 100).percent)) ∧
    (newCalls (DownloadTask.new "a.mcf")
      ((DownloadTask.new "a.mcf").onProgress demoFlags (some false) ⟨4, 99⟩)).filter
        Ev.isSetPausable = [.setPausable false] :=
  ⟨(C30_progress_percent (demoEnv false false 0) demoFlags demoActions).1 "a.mcf" _ (by decide),
   ((C30_progress_percent (demoEnv false false 0) demoFlags demoActions).2.2.1
      (DownloadTask.new "a.mcf") true ⟨2, 100⟩ (Or.inr (by decide))).2.2.1,
   (C30_progress_percent (demoEnv false false 0) demoFlags demoActions).2.2.2.2.2
      (DownloadTask.new "a.mcf") (some false) ⟨4, 99⟩ (by decide) (by decide)⟩

/-! ## Bus difference (C24) -/

theorem eraseLoop_length (del : List Nat) (l : List Del) (h : del ≠ []) :
    eraseLoop del del.length l = .outOfBounds := by
  cases hd : del.length with
  | zero => exact absurd (List.length_eq_zero.1 hd) h
  | succ k =>
    have hnone : del[k + 1]? = none := by
      rw [List.getElem?_eq_none_iff]
      omega
    simp [eraseLoop, hnone]

/-- The bus difference is defined only when nothing is found: as soon as one delegate of `e`
is found in the live sequence, the erase loop starts by reading `del[del.size()]`. -/
theorem operator_minus_eq_event_found (e : List Del) (s : EventBase)
    (h : s.collectIndexes e ≠ []) : s.operator_minus_eq_event e = .outOfBounds := by
  have h2 : (s.collectIndexes e).insertionSort (fun a b => a ≤ b) ≠ [] := by
    intro h3
    have := congrArg List.length h3
    rw [List.length_insertionSort] at this
    exact h (List.length_eq_zero.1 this)
  unfold operator_minus_eq_event
  simp only []
  rw [eraseLoop_length _ _ h2]

theorem operator_minus_eq_event_none (e : List Del) (s : EventBase)
    (h : s.collectIndexes e = []) : s.operator_minus_eq_event e = .ok s := by
  simp [operator_minus_eq_event, h, eraseLoop]

/-- C24, on the code: with `a = [f1]` and `b = [f1]` the collected list is `del = [0]` and
the erase loop reads `del[1]`, past the end of `del`; the same happens with three live
delegates of which `b` holds two; only when `b` shares nothing with `a` does the loop not
run, and `a` is left as it is. -/
theorem C24_bus_difference_reads_past_end :
    EventBase.operator_minus_eq_event [⟨9, .funct 1⟩]
      { EventBase.new 10 with m_vDelegates := [⟨3, .funct 1⟩] } = .outOfBounds ∧
    EventBase.collectIndexes { EventBase.new 10 with m_vDelegates := [⟨3, .funct 1⟩] }
      [⟨9, .funct 1⟩] = [0] ∧
    EventBase.operator_minus_eq_event [⟨9, .funct 2⟩, ⟨8, .funct 1⟩]
      { EventBase.new 10 with
        m_vDelegates := [⟨3, .funct 1⟩, ⟨4, .funct 2⟩, ⟨5, .funct 3⟩] } = .outOfBounds ∧
    EventBase.operator_minus_eq_event [⟨9, .funct 2⟩]
      { EventBase.new 10 with m_vDelegates := [⟨3, .funct 1⟩] } =
        .ok { EventBase.new 10 with m_vDelegates := [⟨3, .funct 1⟩] } := by
  decide

/-! ## CD key manager (C26, C27) -/

/-- The unrolling that `cancelRequest` uses is long enough. -/
theorem cancelLoop_fuel (id callback fuel it : Nat) (l : List (Nat × Nat))
    (h : l.length - it < fuel) : CDKeyManager.cancelLoop id callback fuel it l ≠ .outOfFuel := by
  induction fuel generalizing it l with
  | zero => omega
  | succ n ih =>
    unfold CDKeyManager.cancelLoop
    by_cases h1 : it = l.length
    · simp [h1]
    · simp only [h1, if_false]
      cases h2 : l[it]? with
      | none => simp
      | some e =>
        have hlt : it < l.length := by
          by_contra hc
          have := List.getElem?_eq_none_iff.2 (Nat.le_of_not_lt hc)
          rw [this] at h2
          exact Option.noConfusion h2
        simp only []
        split_ifs
        · apply ih
          have := (List.eraseIdx_sublist l it).length_le
          omega
        · apply ih
          omega

theorem cancelRequest_fuel (id callback : Nat) (s : CDKeyManager) :
    s.cancelRequest id callback ≠ .outOfFuel := by
  have h := cancelLoop_fuel id callback (s.m_mCDKeyCallbackList.length + 1) 0
    s.m_mCDKeyCallbackList (by omega)
  unfold CDKeyManager.cancelRequest
  cases hc : CDKeyManager.cancelLoop id callback (s.m_mCDKeyCallbackList.length + 1) 0
    s.m_mCDKeyCallbackList with
  | ok l => simp
  | outOfBounds => simp
  | outOfFuel => exact absurd hc h

/-- C26, on the code: when the only entry matches, the entry is erased and the iterator,
advanced before the erase, stands one past the new end, so the loop goes on and reads past
the end; the same happens when the last of two entries matches; of two adjacent matching
entries the second is skipped and stays in the list.  Matching entries that are neither
adjacent nor last are all removed. -/
theorem C26_cancel_request_skips_and_overruns :
    CDKeyManager.cancelRequest 1 5 ⟨[(1, 5)], [], []⟩ = .outOfBounds ∧
    CDKeyManager.cancelRequest 1 5 ⟨[(2, 6), (1, 5)], [], []⟩ = .outOfBounds ∧
    CDKeyManager.cancelRequest 1 5 ⟨[(1, 5), (1, 5), (2, 6)], [], []⟩ =
      .ok ⟨[(1, 5), (2, 6)], [], []⟩ ∧
    CDKeyManager.cancelRequest 1 5 ⟨[(1, 5), (2, 6), (1, 5), (3, 7)], [], []⟩ =
      .ok ⟨[(2, 6), (3, 7)], [], []⟩ := by
  decide

theorem notifyFrom_eq (id : Nat) (notify : Nat → CDKeyCall) (l : List (Nat × Nat)) (x : Nat)
    (acc : List CDKeyCall × List Nat) :
    CDKeyManager.notifyFrom id notify l x acc =
      (acc.1 ++ (l.filter (fun e => e.1 == id && e.2 != 0)).map (fun e => notify e.2),
       acc.2 ++ CDKeyManager.positionsFrom id l x) := by
  induction l generalizing x acc with
  | nil => simp [CDKeyManager.notifyFrom, CDKeyManager.positionsFrom]
  | cons e rest ih =>
    unfold CDKeyManager.notifyFrom CDKeyManager.positionsFrom
    by_cases h1 : e.1 = id
    · by_cases h2 : e.2 = 0
      · simp [h1, h2, ih]
      · simp [h1, h2, ih]
    · simp [h1, ih]

theorem eraseIdx_append_cons (pre : List (Nat × Nat)) (e : Nat × Nat) (t : List (Nat × Nat)) :
    (pre ++ e :: t).eraseIdx pre.length = pre ++ t := by
  induction pre with
  | nil => rfl
  | cons a pre ih => simp [List.eraseIdx, ih]

theorem eraseReverse_positions (id : Nat) (l pre : List (Nat × Nat)) :
    CDKeyManager.eraseReverse (CDKeyManager.positionsFrom id l pre.length) (pre ++ l) =
      pre ++ l.filter (fun e => e.1 != id) := by
  induction l generalizing pre with
  | nil => simp [CDKeyManager.eraseReverse, CDKeyManager.positionsFrom]
  | cons e rest ih =>
    have ih2 := ih (pre ++ [e])
    simp only [List.length_append, List.length_singleton, List.append_assoc,
      List.singleton_append] at ih2
    unfold CDKeyManager.positionsFrom
    by_cases h1 : e.1 = id
    · simp only [h1, if_true]
      unfold CDKeyManager.eraseReverse at ih2 ⊢
      rw [List.reverse_cons, List.foldl_append, ih2]
      simp [h1, eraseIdx_append_cons]
    · simp only [h1, if_false]
      rw [ih2]
      simp [h1]

/-- C27: `onCDKeyComplete` and `onCDKeyError`, for an event with item id `I`, call the
callback of every entry for `I` whose callback is not null, one call per entry and in list
order, with the id and the value of the event (after `setCDKey` on the branch, when
`onCDKeyComplete` finds one); afterwards the list holds exactly the entries for other ids, in
their original order. -/
theorem C27_cdkey_event_notifies_and_removes (s : CDKeyManager) :
    (∀ (branch : Bool) (info : CDKeyEventInfo String),
      (s.onCDKeyComplete branch info).calls =
        s.calls ++ (if branch then [.setCDKey info.id info.t] else []) ++
          (s.m_mCDKeyCallbackList.filter (fun e => e.1 == info.id && e.2 != 0)).map
            (fun e => .onCDKeyComplete e.2 info.id info.t) ∧
      (s.onCDKeyComplete branch info).m_mCDKeyCallbackList =
        s.m_mCDKeyCallbackList.filter (fun e => e.1 != info.id)) ∧
    (∀ info : CDKeyEventInfo Nat,
      (s.onCDKeyError info).calls =
        s.calls ++ (s.m_mCDKeyCallbackList.filter (fun e => e.1 == info.id && e.2 != 0)).map
            (fun e => .onCDKeyError e.2 info.id info.t) ∧
      (s.onCDKeyError info).m_mCDKeyCallbackList =
        s.m_mCDKeyCallbackList.filter (fun e => e.1 != info.id)) := by
  refine ⟨?_, ?_⟩
  · intro branch info
    have hp := eraseReverse_positions info.id s.m_mCDKeyCallbackList []
    simp only [List.length_nil, List.nil_append] at hp
    unfold CDKeyManager.onCDKeyComplete CDKeyManager.removeTask
    simp only [notifyFrom_eq, List.nil_append]
    cases branch <;> simp [hp]
  · intro info
    have hp := eraseReverse_positions info.id s.m_mCDKeyCallbackList []
    simp only [List.length_nil, List.nil_append] at hp
    unfold CDKeyManager.onCDKeyError CDKeyManager.removeTask
    simp only [notifyFrom_eq, List.nil_append]
    simp [hp]

/-! ## Worker pool (C22) -/

theorem countP_set_idle (l : List WorkerStatus) (id : Nat) (h : l[id]? = some .Running) :
    (l.set id .Idle).countP (fun w => w == .Running) + 1 =
      l.countP (fun w => w == .Running) := by
  induction l generalizing id with
  | nil => simp at h
  | cons a l ih =>
    cases id with
    | zero =>
      simp only [List.getElem?_cons_zero, Option.some.injEq] at h
      subst h
      simp [List.countP_cons]
    | succ n =>
      simp only [List.getElem?_cons_succ] at h
      have := ih n h
      simp only [List.set_cons_succ, List.countP_cons]
      omega

/-- What a turn does, case by case. -/
theorem workerTurn_cases (id : Nat) (s : SMTController) :
    (s.m_vWorkerList[id]? ≠ some .Running ∧ SMTController.workerTurn id s = s) ∨
    (s.m_vWorkerList[id]? = some .Running ∧ s.fileQueue.length ≤ s.claimed ∧
      SMTController.workerTurn id s = s.endTask id) ∨
    (s.m_vWorkerList[id]? = some .Running ∧ ∃ f, s.fileQueue[s.claimed]? = some f ∧
      SMTController.workerTurn id s =
        { s with claimed := s.claimed + 1, handed := s.handed ++ [(id, f)] }) := by
  by_cases hw : s.m_vWorkerList[id]? = some .Running
  · cases hf : s.fileQueue[s.claimed]? with
    | none =>
      refine Or.inr (Or.inl ⟨hw, List.getElem?_eq_none_iff.1 hf, ?_⟩)
      simp [SMTController.workerTurn, SMTController.newTask, hw, hf]
    | some f =>
      refine Or.inr (Or.inr ⟨hw, f, rfl, ?_⟩)
      simp [SMTController.workerTurn, SMTController.newTask, hw, hf]
  · exact Or.inl ⟨hw, by simp [SMTController.workerTurn, hw]⟩

theorem getElem?_lt_length {α : Type} (l : List α) (i : Nat) (a : α) (h : l[i]? = some a) :
    i < l.length := by
  by_contra hc
  rw [List.getElem?_eq_none_iff.2 (Nat.le_of_not_lt hc)] at h
  exact Option.noConfusion h

theorem workerTurn_frame (id : Nat) (s : SMTController) :
    (SMTController.workerTurn id s).fileQueue = s.fileQueue ∧
    (SMTController.workerTurn id s).m_vWorkerList.length = s.m_vWorkerList.length ∧
    s.claimed ≤ (SMTController.workerTurn id s).claimed := by
  rcases workerTurn_cases id s with ⟨-, h⟩ | ⟨-, -, h⟩ | ⟨-, f, -, h⟩ <;> rw [h] <;>
    simp [SMTController.endTask]

theorem workerTurn_inv (id : Nat) (s : SMTController) (h : PoolInv s) :
    PoolInv (SMTController.workerTurn id s) := by
  obtain ⟨h1, h2, h3, h4⟩ := h
  rcases workerTurn_cases id s with ⟨-, h⟩ | ⟨hw, hf, h⟩ | ⟨hw, f, hf, h⟩
  · rw [h]
    exact ⟨h1, h2, h3, h4⟩
  · rw [h]
    refine ⟨h1, h2, ?_, fun _ => Nat.le_antisymm h2 hf⟩
    have := countP_set_idle s.m_vWorkerList id hw
    simp only [SMTController.endTask]
    omega
  · rw [h]
    have hlt := getElem?_lt_length _ _ _ hf
    refine ⟨?_, hlt, h3, ?_⟩
    · simp only [List.map_append, List.map_cons, List.map_nil, h1, List.take_succ, hf,
        Option.toList_some]
    · intro hex
      have := h4 hex
      omega

theorem runPool_inv (ids : List Nat) (s : SMTController) (h : PoolInv s) :
    PoolInv (SMTController.runPool ids s) := by
  induction ids generalizing s with
  | nil => exact h
  | cons id rest ih => exact ih _ (workerTurn_inv id s h)

theorem runPool_frame (ids : List Nat) (s : SMTController) :
    (SMTController.runPool ids s).fileQueue = s.fileQueue ∧
    (SMTController.runPool ids s).m_vWorkerList.length = s.m_vWorkerList.length ∧
    s.claimed ≤ (SMTController.runPool ids s).claimed := by
  induction ids generalizing s with
  | nil => exact ⟨rfl, rfl, Nat.le_refl _⟩
  | cons id rest ih =>
    obtain ⟨a1, a2, a3⟩ := workerTurn_frame id s
    obtain ⟨b1, b2, b3⟩ := ih (SMTController.workerTurn id s)
    exact ⟨b1.trans a1, b2.trans a2, Nat.le_trans a3 b3⟩

theorem start_inv (files : List Nat) (workerCount : Nat) :
    PoolInv (SMTController.start files workerCount) := by
  refine ⟨rfl, Nat.zero_le _, ?_, ?_⟩
  · simp [SMTController.start, List.countP_replicate]
  · rintro ⟨w, hw, hne⟩
    simp only [SMTController.start, List.mem_replicate] at hw
    exact absurd hw.2 hne

/-- When the running-worker count is zero in a pool with a worker, the queue is
exhausted. -/
theorem exhausted_of_done (s : SMTController) (h : PoolInv s) (hw : 1 ≤ s.m_vWorkerList.length)
    (hz : s.m_iRunningWorkers = 0) : s.claimed = s.fileQueue.length := by
  obtain ⟨-, -, h3, h4⟩ := h
  apply h4
  cases hl : s.m_vWorkerList with
  | nil => rw [hl] at hw; simp at hw
  | cons a t =>
    refine ⟨a, List.mem_cons_self _ _, ?_⟩
    rw [hz, hl] at h3
    have := (List.countP_eq_zero.1 h3.symm) a (List.mem_cons_self _ _)
    simpa using this

theorem workerTurn_claimed (id : Nat) (s : SMTController)
    (hid : id < s.m_vWorkerList.length) (h : PoolInv s) :
    (SMTController.workerTurn id s).claimed = s.fileQueue.length ∨
    (SMTController.workerTurn id s).claimed = s.claimed + 1 := by
  obtain ⟨-, h2, -, h4⟩ := h
  rcases workerTurn_cases id s with ⟨hw, h⟩ | ⟨-, hf, h⟩ | ⟨-, f, -, h⟩
  · left
    rw [h]
    apply h4
    refine ⟨s.m_vWorkerList[id], List.getElem_mem _, fun hr => hw ?_⟩
    rw [List.getElem?_eq_getElem hid, hr]
  · left
    rw [h]
    exact Nat.le_antisymm h2 hf
  · right
    rw [h]

theorem runPool_claimed (ids : List Nat) (s : SMTController)
    (hids : ∀ id ∈ ids, id < s.m_vWorkerList.length) (h : PoolInv s) :
    (SMTController.runPool ids s).claimed = s.fileQueue.length ∨
    (SMTController.runPool ids s).claimed = s.claimed + ids.length := by
  induction ids generalizing s with
  | nil => exact Or.inr rfl
  | cons id rest ih =>
    obtain ⟨a1, a2, -⟩ := workerTurn_frame id s
    have hinv := workerTurn_inv id s h
    have hrest := ih (SMTController.workerTurn id s)
      (fun j hj => by rw [a2]; exact hids j (List.mem_cons_of_mem _ hj)) hinv
    have hle := (runPool_inv rest _ hinv).2.1
    have hge := (runPool_frame rest (SMTController.workerTurn id s)).2.2
    have hq := (runPool_frame rest (SMTController.workerTurn id s)).1
    rw [hq, a1] at hle
    rw [a1] at hrest
    show (SMTController.runPool rest (SMTController.workerTurn id s)).claimed = _ ∨
      (SMTController.runPool rest (SMTController.workerTurn id s)).claimed = _
    rcases workerTurn_claimed id s (hids id (List.mem_cons_self _ _)) h with hc | hc
    · left
      omega
    · rcases hrest with hr | hr
      · exact Or.inl hr
      · right
        rw [hr, hc, List.length_cons]
        omega

/-- In a pool whose queue is exhausted, a worker has left its loop after its turn. -/
theorem workerTurn_ends (id : Nat) (s : SMTController)
    (hex : s.fileQueue.length ≤ s.claimed) :
    (SMTController.workerTurn id s).m_vWorkerList[id]? ≠ some .Running := by
  rcases workerTurn_cases id s with ⟨hw, h⟩ | ⟨hw, -, h⟩ | ⟨-, f, hf, -⟩
  · rw [h]
    exact hw
  · rw [h]
    have hlt := getElem?_lt_length _ _ _ hw
    simp [SMTController.endTask, List.getElem?_set_self, hlt]
  · have := getElem?_lt_length _ _ _ hf
    omega

/-- A worker that has left its loop does not come back. -/
theorem workerTurn_keeps (id j : Nat) (s : SMTController)
    (hj : s.m_vWorkerList[j]? ≠ some .Running) :
    (SMTController.workerTurn id s).m_vWorkerList[j]? ≠ some .Running := by
  rcases workerTurn_cases id s with ⟨-, h⟩ | ⟨-, -, h⟩ | ⟨-, f, -, h⟩
  · rw [h]
    exact hj
  · rw [h]
    simp only [SMTController.endTask, List.getElem?_set]
    split_ifs <;> simp [hj]
  · rw [h]
    exact hj

theorem runPool_keeps (ids : List Nat) (j : Nat) (s : SMTController)
    (hj : s.m_vWorkerList[j]? ≠ some .Running) :
    (SMTController.runPool ids s).m_vWorkerList[j]? ≠ some .Running := by
  induction ids generalizing s with
  | nil => exact hj
  | cons id rest ih => exact ih _ (workerTurn_keeps id j s hj)

theorem runPool_ends (ids : List Nat) (s : SMTController)
    (hex : s.fileQueue.length ≤ s.claimed) :
    ∀ j ∈ ids, (SMTController.runPool ids s).m_vWorkerList[j]? ≠ some .Running := by
  induction ids generalizing s with
  | nil => intro j hj; simp at hj
  | cons id rest ih =>
    obtain ⟨a1, -, a3⟩ := workerTurn_frame id s
    intro j hj
    rcases List.mem_cons.1 hj with rfl | hj
    · exact runPool_keeps rest j _ (workerTurn_ends j s hex)
    · exact ih (SMTController.workerTurn id s) (by rw [a1]; omega) j hj

/-- Under the schedule `fullSchedule` every worker of a pool with a worker ends. -/
theorem fullSchedule_runs (files : List Nat) (workerCount : Nat) (hw : 1 ≤ workerCount) :
    (SMTController.runPool (fullSchedule files.length workerCount)
      (SMTController.start files workerCount)).m_iRunningWorkers = 0 := by
  have hinv0 := start_inv files workerCount
  have hinv1 := runPool_inv (List.replicate files.length 0) _ hinv0
  have hfr1 := runPool_frame (List.replicate files.length 0)
    (SMTController.start files workerCount)
  have hcl := runPool_claimed (List.replicate files.length 0)
    (SMTController.start files workerCount)
    (fun id hid => by
      rw [(List.mem_replicate.1 hid).2]
      simp [SMTController.start]
      omega) hinv0
  have hex : (SMTController.runPool (List.replicate files.length 0)
      (SMTController.start files workerCount)).fileQueue.length ≤
      (SMTController.runPool (List.replicate files.length 0)
        (SMTController.start files workerCount)).claimed := by
    rw [hfr1.1]
    rcases hcl with h | h
    · rw [h]
    · rw [h]
      simp [SMTController.start]
  have hends := runPool_ends (List.range workerCount) _ hex
  have hfr2 := runPool_frame (List.range workerCount)
    (SMTController.runPool (List.replicate files.length 0)
      (SMTController.start files workerCount))
  have hinv2 := runPool_inv (List.range workerCount) _ hinv1
  have hrun : SMTController.runPool (fullSchedule files.length workerCount)
      (SMTController.start files workerCount) =
      SMTController.runPool (List.range workerCount)
        (SMTController.runPool (List.replicate files.length 0)
          (SMTController.start files workerCount)) := by
    simp [SMTController.runPool, fullSchedule, List.foldl_append]
  rw [hrun, hinv2.2.2.1, List.countP_eq_zero]
  intro w hwm
  obtain ⟨j, hj⟩ := List.mem_iff_getElem?.1 hwm
  have hjlt := getElem?_lt_length _ _ _ hj
  rw [hfr2.2.1, hfr1.2.1] at hjlt
  have hjW : j < workerCount := by
    simpa [SMTController.start] using hjlt
  have := hends j (List.mem_range.2 hjW)
  rw [hj] at this
  intro hr
  apply this
  rw [beq_iff_eq] at hr
  rw [hr]

/-- C22: for a queue of `F` files and `W ≥ 1` workers (so also when `W ≤ F`), under every
schedule the files handed out by the successive `newTask` calls are the first files of the
queue, each position once and in order (so no file is returned twice), and `newTask` returns
empty exactly when every file has been claimed; when the run is full (the running-worker
count is zero) every file has been handed out and `postProcessing` observes exactly the `F`
files of the queue; and a full run exists. -/
theorem C22_every_file_handed_once (files : List Nat) (W : Nat) (hW : 1 ≤ W) :
    (∀ schedule : List Nat,
      ((SMTController.runPool schedule (SMTController.start files W)).handed.map Prod.snd =
        files.take (SMTController.runPool schedule (SMTController.start files W)).claimed) ∧
      (∀ id, ((SMTController.runPool schedule (SMTController.start files W)).newTask id).1 = none ↔
        (SMTController.runPool schedule (SMTController.start files W)).claimed = files.length) ∧
      ((SMTController.runPool schedule (SMTController.start files W)).m_iRunningWorkers = 0 →
        (SMTController.runPool schedule (SMTController.start files W)).handed.map Prod.snd =
          files ∧
        ∃ done, (SMTController.runPool schedule
            (SMTController.start files W)).postProcessing = some done ∧
          done = files ∧ done.length = files.length)) ∧
    (SMTController.runPool (fullSchedule files.length W)
      (SMTController.start files W)).m_iRunningWorkers = 0 := by
  refine ⟨?_, fullSchedule_runs files W hW⟩
  intro schedule
  have hinv := runPool_inv schedule _ (start_inv files W)
  obtain ⟨hq, hlen, -⟩ := runPool_frame schedule (SMTController.start files W)
  have hq2 : (SMTController.runPool schedule (SMTController.start files W)).fileQueue =
      files := hq
  obtain ⟨h1, h2, h3, h4⟩ := hinv
  rw [hq2] at h1 h2
  refine ⟨h1, ?_, ?_⟩
  · intro id
    unfold SMTController.newTask
    rw [hq2]
    cases hf : files[(SMTController.runPool schedule (SMTController.start files W)).claimed]? with
    | none =>
      have := List.getElem?_eq_none_iff.1 hf
      simp only [true_iff]
      omega
    | some f =>
      have := getElem?_lt_length _ _ _ hf
      constructor
      · intro hc
        exact Option.noConfusion hc
      · intro hc
        omega
  · intro hz
    have hex := exhausted_of_done _ ⟨by rw [hq2]; exact h1, by rw [hq2]; exact h2, h3, h4⟩
      (by rw [hlen]; simpa [SMTController.start] using hW) hz
    rw [hq2] at hex
    have hall : (SMTController.runPool schedule (SMTController.start files W)).handed.map
        Prod.snd = files := by
      rw [h1, hex, List.take_length]
    refine ⟨hall, files, ?_, rfl, rfl⟩
    simp [SMTController.postProcessing, hz, hall]

/-- Witness of C22: ten files and four workers, under the schedule `fullSchedule` and under
a round robin of the four workers. -/
theorem C22_every_file_handed_once_witness :
    (SMTController.runPool (fullSchedule 10 4)
      (SMTController.start [20, 21, 22, 23, 24, 25, 26, 27, 28, 29] 4)).m_iRunningWorkers = 0 ∧
    (SMTController.runPool
      [0, 1, 2, 3, 0, 1, 2, 3, 0, 1, 2, 3, 0, 1, 2, 3]
      (SMTController.start [20, 21, 22, 23, 24, 25, 26, 27, 28, 29] 4)).handed.map Prod.snd =
        [20, 21, 22, 23, 24, 25, 26, 27, 28, 29] :=
  ⟨(C22_every_file_handed_once [20, 21, 22, 23, 24, 25, 26, 27, 28, 29] 4 (by decide)).2,
   (((C22_every_file_handed_once [20, 21, 22, 23, 24, 25, 26, 27, 28, 29] 4 (by decide)).1
      [0, 1, 2, 3, 0, 1, 2, 3, 0, 1, 2, 3, 0, 1, 2, 3]).2.2 (by decide)).1⟩

/-! ## Executions as sequences of steps -/

theorem execSteps_append (a b : List Step) (s : EventBase) :
    execSteps (a ++ b) s = execSteps b (execSteps a s) := by
  simp [execSteps, List.foldl_append]

theorem execSteps_cons (st : Step) (rest : List Step) (s : EventBase) :
    execSteps (st :: rest) s = execSteps rest (st.exec s) := rfl

theorem action_step_exec (t : Nat) (a : Action) (s : EventBase) :
    (a.step t).exec s = a.exec t s := by
  cases a <;> rfl

theorem runHandler_steps (t : Nat) (acts : List Action) (s : EventBase) :
    execSteps (acts.map (Action.step t)) s = s.runHandler t acts := by
  induction acts generalizing s with
  | nil => rfl
  | cons a rest ih =>
    rw [List.map_cons, execSteps_cons, action_step_exec, ih]
    rfl

/-- The body of one iteration of the loop, as steps. -/
theorem body_steps (h : Handlers) (t : Nat) (d : Del) (s : EventBase) :
    execSteps ([Step.enter d] ++ (h d).map (Action.step t) ++ [Step.leave]) s =
      { ({ s with m_pCurDelegate := some d, invoked := s.invoked ++ [d] } : EventBase).runHandler t
          (h d) with m_pCurDelegate := none } := by
  rw [execSteps_append, execSteps_append, runHandler_steps]
  rfl

theorem dispatch_succ_body (h : Handlers) (t : Nat) (n x : Nat) (s : EventBase) (d : Del)
    (hg : s.m_vDelegates[x]? = some d) :
    dispatch h t (n + 1) x s =
      if (execSteps ([Step.enter d] ++ (h d).map (Action.step t) ++ [Step.leave]) s).m_bCancel
      then some (execSteps ([Step.enter d] ++ (h d).map (Action.step t) ++ [Step.leave]) s)
      else dispatch h t n (x + 1)
        (execSteps ([Step.enter d] ++ (h d).map (Action.step t) ++ [Step.leave]) s) := by
  rw [body_steps, dispatch]
  simp only [hg]

theorem dispatchSteps_succ_body (h : Handlers) (t : Nat) (n x : Nat) (s : EventBase) (d : Del)
    (hg : s.m_vDelegates[x]? = some d) :
    dispatchSteps h t (n + 1) x s =
      if (execSteps ([Step.enter d] ++ (h d).map (Action.step t) ++ [Step.leave]) s).m_bCancel
      then [Step.enter d] ++ (h d).map (Action.step t) ++ [Step.leave]
      else [Step.enter d] ++ (h d).map (Action.step t) ++ [Step.leave] ++
        dispatchSteps h t n (x + 1)
          (execSteps ([Step.enter d] ++ (h d).map (Action.step t) ++ [Step.leave]) s) := by
  rw [dispatchSteps]
  simp only [hg]

theorem dispatch_steps (h : Handlers) (t : Nat) (fuel x : Nat) (s s2 : EventBase)
    (hd : dispatch h t fuel x s = some s2) :
    execSteps (dispatchSteps h t fuel x s) s = s2 := by
  induction fuel generalizing x s with
  | zero => simp [dispatch] at hd
  | succ n ih =>
    cases hg : s.m_vDelegates[x]? with
    | none =>
      rw [dispatch] at hd
      rw [dispatchSteps]
      simp only [hg, Option.some.injEq] at hd ⊢
      simpa [execSteps] using hd
    | some d =>
      rw [dispatch_succ_body h t n x s d hg] at hd
      rw [dispatchSteps_succ_body h t n x s d hg]
      split_ifs at hd ⊢ with hc
      · simpa using hd
      · rw [execSteps_append]
        exact ih _ _ hd

theorem operator_call_steps (h : Handlers) (t fuel : Nat) (s s2 : EventBase)
    (hc : s.operator_call h t fuel = some s2) :
    execSteps ((Op.publish t h fuel).steps s) s = s2 := by
  unfold operator_call at hc
  cases hd : dispatch h t fuel 0 (migratePending { s with m_Lock := some t }) with
  | none => simp [hd] at hc
  | some s1 =>
    simp only [hd, Option.some.injEq] at hc
    have := dispatch_steps h t fuel 0 _ s1 hd
    simp only [Op.steps]
    rw [execSteps_append, execSteps_append]
    have h0 : execSteps [Step.lock (some t), Step.migrate] s =
        migratePending { s with m_Lock := some t } := rfl
    rw [h0, this, ← hc]
    rfl

theorem op_steps (op : Op) (s s2 : EventBase) (he : op.exec s = some s2) :
    execSteps (op.steps s) s = s2 := by
  cases op with
  | call t c =>
    simp only [Op.exec, Option.some.injEq] at he
    simp [Op.steps, execSteps, Step.exec, he]
  | publish t h fuel => exact operator_call_steps h t fuel s s2 he

theorem run_steps (ops : List Op) (s s2 : EventBase) (hr : run ops s = some s2) :
    execSteps (stepsOfRun ops s) s = s2 := by
  induction ops generalizing s with
  | nil =>
    simp only [run, Option.some.injEq] at hr
    simp [stepsOfRun, execSteps, hr]
  | cons op rest ih =>
    unfold run at hr
    unfold stepsOfRun
    cases he : op.exec s with
    | none => simp [he] at hr
    | some s1 =>
      simp only [he] at hr
      simp only []
      rw [execSteps_append, op_steps op s s1 he]
      exact ih s1 hr

/-! ## The two halves of `reset` -/

theorem reset_eq (t : Nat) (s : EventBase) : s.reset t = (s.reset_request).reset_clear t := by
  unfold reset reset_request reset_clear
  cases s.m_pCurDelegate with
  | none => rfl
  | some d => by_cases hd : d.isInvokeI = true <;> simp [hd]

theorem reset_request_frame (s : EventBase) :
    (s.reset_request).m_vDelegates = s.m_vDelegates ∧
    (s.reset_request).m_vPendingDelegates = s.m_vPendingDelegates ∧
    (s.reset_request).destroyed = s.destroyed ∧
    (s.reset_request).invoked = s.invoked ∧
    (s.reset_request).m_Lock = s.m_Lock ∧
    (s.reset_request).m_pCurDelegate = s.m_pCurDelegate ∧
    (s.reset_request).nextAddr = s.nextAddr ∧
    (s.reset_request).m_bCancel = true ∧
    (s.reset_request).cancelled = s.cancelled ++
      (match s.m_pCurDelegate with
       | some d => if d.isInvokeI then [d.addr] else []
       | none => []) := by
  unfold reset_request
  cases s.m_pCurDelegate with
  | none => simp
  | some d => by_cases hd : d.isInvokeI = true <;> simp [hd]

theorem reset_clear_frame (t : Nat) (s : EventBase) :
    (s.reset_clear t).m_vDelegates = [] ∧
    (s.reset_clear t).m_vPendingDelegates = s.m_vPendingDelegates ∧
    (s.reset_clear t).destroyed = s.destroyed ++ s.m_vDelegates.map Del.addr ++
      s.m_vPendingDelegates.map (fun p => p.2.addr) ∧
    (s.reset_clear t).invoked = s.invoked ∧
    (s.reset_clear t).m_Lock = s.m_Lock ∧
    (s.reset_clear t).m_pCurDelegate = s.m_pCurDelegate ∧
    (s.reset_clear t).nextAddr = s.nextAddr ∧
    (s.reset_clear t).m_bCancel = false ∧
    (s.reset_clear t).cancelled = s.cancelled := by
  unfold reset_clear withLock
  simp only [foldl_destroy_frame (fun d : Del => d), foldl_destroy_frame (fun p : Bool × Del => p.2)]
  simp

theorem migrateStep_same (p : Bool × Del) (a b : EventBase)
    (h1 : a.m_vDelegates = b.m_vDelegates) (h2 : a.destroyed = b.destroyed) :
    (a.migrateStep p).m_vDelegates = (b.migrateStep p).m_vDelegates ∧
      (a.migrateStep p).destroyed = (b.migrateStep p).destroyed := by
  by_cases c1 : p.1 = true <;>
    by_cases c2 : findInfoFrom p.2 b.m_vDelegates 0 = UNKNOWN_ITEM <;>
    simp [migrateStep, findInfo, destroy, h1, h2, c1, c2]

theorem foldl_migrateStep_same (ps : List (Bool × Del)) (a b : EventBase)
    (h1 : a.m_vDelegates = b.m_vDelegates) (h2 : a.destroyed = b.destroyed) :
    (ps.foldl migrateStep a).m_vDelegates = (ps.foldl migrateStep b).m_vDelegates ∧
      (ps.foldl migrateStep a).destroyed = (ps.foldl migrateStep b).destroyed := by
  induction ps generalizing a b with
  | nil => exact ⟨h1, h2⟩
  | cons p ps ih =>
    obtain ⟨k1, k2⟩ := migrateStep_same p a b h1 h2
    exact ih _ _ k1 k2

/-- What `migratePending` does to the live sequence and to the destroy log depends on the
live sequence, the queue and the destroy log only. -/
theorem migratePending_same (a b : EventBase) (h1 : a.m_vDelegates = b.m_vDelegates)
    (h2 : a.m_vPendingDelegates = b.m_vPendingDelegates) (h3 : a.destroyed = b.destroyed) :
    a.migratePending.m_vDelegates = b.migratePending.m_vDelegates ∧
      a.migratePending.destroyed = b.migratePending.destroyed := by
  unfold migratePending
  rw [h2]
  exact foldl_migrateStep_same _ a b h1 h3

/-! ## The no-duplicate invariant, step by step -/

theorem liveStep_length_remove (l : List Del) (c : Del) :
    (liveStep l (false, c)).length ≤ l.length := by
  unfold liveStep
  simp only [Bool.false_eq_true, if_false]
  split_ifs
  · exact (List.eraseIdx_sublist l _).length_le
  · exact Nat.le_refl _

theorem foldl_liveStep_noDuplicate_adds (ps : List (Bool × Del)) (l : List Del)
    (hn : NoDuplicate l) (hl : l.length + ps.countP (fun p => p.1) ≤ UNKNOWN_ITEM) :
    NoDuplicate (ps.foldl liveStep l) := by
  induction ps generalizing l with
  | nil => exact hn
  | cons p ps ih =>
    rw [List.foldl_cons]
    obtain ⟨b, c⟩ := p
    cases b with
    | true =>
      simp only [List.countP_cons, if_true] at hl
      have h1 := liveStep_length l (true, c)
      exact ih _ (liveStep_noDuplicate l (true, c) hn (by omega)) (by omega)
    | false =>
      simp only [List.countP_cons, Bool.false_eq_true, if_false, Nat.add_zero] at hl
      have h1 := liveStep_length_remove l c
      exact ih _ (liveStep_noDuplicate l (false, c) hn (by omega)) (by omega)

theorem foldl_nextAddr_le {α : Type} (f : EventBase → α → EventBase)
    (hf : ∀ b d, (f b d).nextAddr ≤ b.nextAddr + 1) (e : List α) (b : EventBase) :
    (e.foldl f b).nextAddr ≤ b.nextAddr + e.length := by
  induction e generalizing b with
  | nil => simp
  | cons d e ih =>
    rw [List.foldl_cons, List.length_cons]
    have h1 := ih (f b d)
    have h2 := hf b d
    omega

theorem operator_plus_eq_event_nextAddr (t : Nat) (e : List Del) (s : EventBase) :
    (s.operator_plus_eq_event t e).nextAddr ≤ s.nextAddr + e.length := by
  unfold operator_plus_eq_event withLock
  refine foldl_nextAddr_le _ ?_ e _
  intro b d
  split_ifs <;> simp [clone]

theorem call_exec_noDuplicate (t : Nat) (c : Call) (s : EventBase)
    (hn : NoDuplicate s.m_vDelegates) (hf : (Step.call t c).fits s) (hw : c.wf) :
    NoDuplicate (c.exec t s).m_vDelegates := by
  cases c with
  | subscribe tg =>
    cases tg with
    | none => exact hn
    | some tg =>
      have h7 := (operator_plus_eq_some t (s.delegate tg).1 (s.delegate tg).2).2.2.2.2.2.2.1
      simp only [Call.exec]
      rw [h7]
      simp only [delegate]
      simp only [Step.fits, demand] at hf
      split_ifs
      · refine foldl_liveStep_noDuplicate_adds _ _ hn ?_
        simp only [List.countP_append, List.countP_cons, List.countP_nil, if_true]
        omega
      · exact hn
  | unsubscribe tg =>
    cases tg with
    | none => exact hn
    | some tg =>
      have h7 := (operator_minus_eq_some t (s.delegate tg).1 (s.delegate tg).2).2.2.2.2.2.2.1
      simp only [Call.exec]
      rw [h7]
      simp only [delegate]
      simp only [Step.fits, demand] at hf
      split_ifs
      · refine foldl_liveStep_noDuplicate_adds _ _ hn ?_
        simp only [List.countP_append, List.countP_cons, List.countP_nil, Bool.false_eq_true,
          if_false]
        omega
      · exact hn
  | flush =>
    have h7 := (flush_frame t s).2.2.2.2.2.2.1
    simp only [Call.exec]
    rw [h7]
    exact foldl_liveStep_noDuplicate_adds _ _ hn hf
  | reset =>
    simp only [Call.exec]
    rw [(reset_frame t s).2.2.2.2.2.1]
    exact List.Pairwise.nil
  | assign e =>
    obtain ⟨l, hl2, hr⟩ := operator_assign_frame t e s
    simp only [Call.exec, hr]
    rw [noDuplicate_iff, hl2, ← noDuplicate_iff]
    exact hw
  | union e =>
    obtain ⟨l, hr, -, hn2⟩ := operator_plus_eq_event_frame t e s
    have hle := operator_plus_eq_event_nextAddr t e s
    rw [hr] at hle
    simp only [Call.exec, hr]
    simp only [Step.fits] at hf
    apply hn2 _ hn
    simp only [List.length_append]
    simp only at hle
    omega

theorem step_noDuplicate (st : Step) (s : EventBase) (hn : NoDuplicate s.m_vDelegates)
    (hf : st.fits s) (hw : st.wf) : NoDuplicate (st.exec s).m_vDelegates := by
  cases st with
  | call t c => exact call_exec_noDuplicate t c s hn hf hw
  | resetRequest =>
    simp only [Step.exec]
    rw [(reset_request_frame s).1]
    exact hn
  | resetClear t =>
    simp only [Step.exec]
    rw [(reset_clear_frame t s).1]
    exact List.Pairwise.nil
  | lock o => exact hn
  | migrate =>
    simp only [Step.exec, migratePending_live]
    exact foldl_liveStep_noDuplicate_adds _ _ hn hf
  | enter d => exact hn
  | leave => exact hn

theorem execSteps_noDuplicate (steps : List Step) (s : EventBase)
    (hn : NoDuplicate s.m_vDelegates) (hf : Always Step.fits steps s)
    (hw : ∀ st ∈ steps, st.wf) : NoDuplicate (execSteps steps s).m_vDelegates := by
  induction steps generalizing s with
  | nil => exact hn
  | cons st rest ih =>
    rw [execSteps_cons]
    exact ih _ (step_noDuplicate st s hn hf.1 (hw st (List.mem_cons_self _ _))) hf.2
      (fun x hx => hw x (List.mem_cons_of_mem _ hx))

/-! ## Absence of an unsubscribed delegate, step by step -/

theorem step_absent (d : Del) (st : Step) (s : EventBase) (hav : st.avoids d)
    (hs : st.safe s) (hA : Absent d s) :
    Absent d (st.exec s) ∧
      ∃ l, (st.exec s).invoked = s.invoked ++ l ∧ ∀ e ∈ l, e.equals d = false := by
  cases st with
  | call t c =>
    exact ⟨call_exec_absent d t c s hav hA, [], by simp [Step.exec, (call_exec_frame t c s).2.1],
      by simp⟩
  | resetRequest =>
    obtain ⟨h1, h2, -, h4, -⟩ := reset_request_frame s
    refine ⟨?_, [], by simp [Step.exec, h4], by simp⟩
    unfold Absent
    simp only [Step.exec, h1, h2]
    exact hA
  | resetClear t =>
    obtain ⟨h1, h2, -, h4, -⟩ := reset_clear_frame t s
    refine ⟨?_, [], by simp [Step.exec, h4], by simp⟩
    unfold Absent
    simp only [Step.exec, h1, h2]
    exact ⟨by simp, hA.2⟩
  | lock o => exact ⟨hA, [], by simp [Step.exec], by simp⟩
  | migrate =>
    refine ⟨migratePending_absent d s hA, [], ?_, by simp⟩
    simp [Step.exec]
  | enter e =>
    refine ⟨hA, [e], rfl, ?_⟩
    intro x hx
    rw [List.mem_singleton] at hx
    subst hx
    exact hA.1 x hs.1
  | leave => exact ⟨hA, [], by simp [Step.exec], by simp⟩

theorem execSteps_absent (d : Del) (steps : List Step) (s : EventBase)
    (hav : ∀ st ∈ steps, st.avoids d) (hs : Always Step.safe steps s) (hA : Absent d s) :
    Absent d (execSteps steps s) ∧
      ∃ l, (execSteps steps s).invoked = s.invoked ++ l ∧ ∀ e ∈ l, e.equals d = false := by
  induction steps generalizing s with
  | nil => exact ⟨hA, [], by simp [execSteps], by simp⟩
  | cons st rest ih =>
    obtain ⟨h1, l1, h2, h3⟩ := step_absent d st s (hav st (List.mem_cons_self _ _)) hs.1 hA
    obtain ⟨h4, l2, h5, h6⟩ := ih (st.exec s) (fun x hx => hav x (List.mem_cons_of_mem _ hx))
      hs.2 h1
    rw [execSteps_cons]
    refine ⟨h4, l1 ++ l2, ?_, ?_⟩
    · rw [h5, h2, List.append_assoc]
    · intro e he
      rcases List.mem_append.1 he with he | he
      · exact h3 e he
      · exact h6 e he

/-! ## Claims on executions of the bus (C4, C6, C23) -/

/-- C4: from an empty bus, along every execution (any sequence of steps: subscribe,
unsubscribe, flush, reset, copy-assignment from a duplicate-free bus, bus-union, and the
pieces of publishes, nested or not, with calls by other threads in between), the live
sequence holds no two delegates that are equal under `equals`, provided every step is taken
in a state in which the source touches no destroyed delegate (`Step.safe`) and the live
sequence stays within `UNKNOWN_ITEM` entries (`Step.fits`), so that no found index is the
sentinel of `findInfo`.  Every run of top-level operations, publishes with handlers
included, is such an execution, with the same conclusion.  Subscribing a delegate equal to a
live one, on a bus with an empty queue, leaves the live sequence as it is. -/
theorem C4_no_duplicate_invariant (heap : Nat) :
    (∀ steps : List Step,
      Always Step.safe steps (EventBase.new heap) →
      Always Step.fits steps (EventBase.new heap) →
      (∀ st ∈ steps, st.wf) →
      NoDuplicate (execSteps steps (EventBase.new heap)).m_vDelegates) ∧
    (∀ (ops : List Op) (s : EventBase), run ops (EventBase.new heap) = some s →
      Always Step.safe (stepsOfRun ops (EventBase.new heap)) (EventBase.new heap) →
      Always Step.fits (stepsOfRun ops (EventBase.new heap)) (EventBase.new heap) →
      (∀ st ∈ stepsOfRun ops (EventBase.new heap), st.wf) →
      execSteps (stepsOfRun ops (EventBase.new heap)) (EventBase.new heap) = s ∧
        NoDuplicate s.m_vDelegates) ∧
    (∀ (s : EventBase) (t : Nat) (d : Del), s.m_vPendingDelegates = [] →
      s.m_vDelegates.length ≤ UNKNOWN_ITEM →
      (∃ e ∈ s.m_vDelegates, e.equals d = true) →
      (s.operator_plus_eq t (some d)).m_vDelegates = s.m_vDelegates) := by
  refine ⟨?_, ?_, ?_⟩
  · intro steps _ hfits hwf
    exact execSteps_noDuplicate steps _ List.Pairwise.nil hfits hwf
  · intro ops s hrun _ hfits hwf
    have hs := run_steps ops _ s hrun
    refine ⟨hs, ?_⟩
    rw [← hs]
    exact execSteps_noDuplicate _ _ List.Pairwise.nil hfits hwf
  · intro s t d hp hlen ⟨e, he, hed⟩
    rw [(operator_plus_eq_some t d s).2.2.2.2.2.2.1, hp]
    have hpres := findInfoFrom_present (Del.mk s.nextAddr d.target) s.m_vDelegates 0
      ⟨e, he, by rw [del_equals_iff] at hed ⊢; exact hed⟩
    have hne : findInfoFrom (Del.mk s.nextAddr d.target) s.m_vDelegates 0 ≠ UNKNOWN_ITEM := by
      omega
    split_ifs
    · simp [liveStep, hne]
    · rfl

/-- Witness of C4: a publish whose handler publishes on the same bus again while another
thread subscribes; and a run with a re-subscription, a publish whose handlers unsubscribe
and re-subscribe, a bus-union and a copy-assignment. -/
theorem C4_no_duplicate_invariant_witness :
    NoDuplicate (execSteps nestedPublish (EventBase.new 0)).m_vDelegates ∧
    (execSteps (stepsOfRun C4_ops (EventBase.new 0)) (EventBase.new 0) = C4_state ∧
      NoDuplicate C4_state.m_vDelegates) :=
  ⟨(C4_no_duplicate_invariant 0).1 nestedPublish (by decide) (by decide) (by decide),
   (C4_no_duplicate_invariant 0).2.1 C4_ops C4_state (by decide) (by decide) (by decide)
     (by decide)⟩

/-- C23: `reset()` first sets `m_bCancel` and calls `cancel()` once, on the delegate that is
executing, when that delegate is an `InvokeI`; it calls `cancel()` on nothing when no
delegate is executing or the executing one is not an `InvokeI`; this part touches neither
the live sequence nor the queue.  It then clears the subscriptions: at once for a caller that
owns `m_Lock` or finds it free, such as the executing handler itself; a caller on another
thread waits, the loop of `operator()` stops after the executing handler because `m_bCancel`
is set, `operator()` merges the queue and releases `m_Lock`, and the caller then destroys
the live delegates and empties the live sequence, calling `cancel()` on nothing more. -/
theorem C23_reset_cancels_running_handler (s : EventBase) :
    (∀ d, s.m_pCurDelegate = some d → d.isInvokeI = true →
      (s.reset_request).cancelled = s.cancelled ++ [d.addr]) ∧
    (∀ d, s.m_pCurDelegate = some d → d.isInvokeI = false →
      (s.reset_request).cancelled = s.cancelled) ∧
    (s.m_pCurDelegate = none → (s.reset_request).cancelled = s.cancelled) ∧
    ((s.reset_request).m_bCancel = true ∧
      (s.reset_request).m_vDelegates = s.m_vDelegates ∧
      (s.reset_request).m_vPendingDelegates = s.m_vPendingDelegates ∧
      (s.reset_request).destroyed = s.destroyed) ∧
    (∀ t, s.try_lock t = true →
      s.reset t = (s.reset_request).reset_clear t ∧
      (s.reset t).m_vDelegates = [] ∧
      (s.reset t).cancelled = (s.reset_request).cancelled ∧
      (s.reset t).destroyed = s.destroyed ++ s.m_vDelegates.map Del.addr ++
        s.m_vPendingDelegates.map (fun p => p.2.addr)) ∧
    (∀ u : Nat, s.try_lock u = false →
      (execSteps [.resetRequest, .leave] s).m_bCancel = true ∧
      (execSteps [.resetRequest, .leave, .migrate, .lock none, .resetClear u] s).m_vDelegates
        = [] ∧
      (execSteps [.resetRequest, .leave, .migrate, .lock none, .resetClear u]
        s).m_vPendingDelegates = [] ∧
      (execSteps [.resetRequest, .leave, .migrate, .lock none, .resetClear u] s).cancelled =
        (s.reset_request).cancelled ∧
      (execSteps [.resetRequest, .leave, .migrate, .lock none, .resetClear u] s).destroyed =
        s.migratePending.destroyed ++ s.migratePending.m_vDelegates.map Del.addr) := by
  obtain ⟨r1, r2, r3, r4, r5, r6, r7, r8, r9⟩ := reset_request_frame s
  refine ⟨?_, ?_, ?_, ⟨r8, r1, r2, r3⟩, ?_, ?_⟩
  · intro d h1 h2
    rw [r9, h1]
    simp [h2]
  · intro d h1 h2
    rw [r9, h1]
    simp [h2]
  · intro h1
    rw [r9, h1]
    simp
  · intro t _
    have hf := reset_frame t s
    refine ⟨reset_eq t s, hf.2.2.2.2.2.1, ?_, hf.2.2.2.2.2.2.2⟩
    rw [reset_eq, (reset_clear_frame t _).2.2.2.2.2.2.2.2]
  · intro u _
    have e1 : execSteps [Step.resetRequest, Step.leave, Step.migrate, Step.lock none,
        Step.resetClear u] s =
        ({ EventBase.migratePending { s.reset_request with m_pCurDelegate := none } with
            m_Lock := none } : EventBase).reset_clear u := rfl
    have e2 : execSteps [Step.resetRequest, Step.leave] s =
        { s.reset_request with m_pCurDelegate := none } := rfl
    rw [e1, e2]
    obtain ⟨c1, c2, c3, -, -, -, -, -, c9⟩ := reset_clear_frame u
      ({ EventBase.migratePending { s.reset_request with m_pCurDelegate := none } with
            m_Lock := none } : EventBase)
    refine ⟨r8, c1, ?_, ?_, ?_⟩
    · rw [c2]
      simp
    · rw [c9]
      simp
    · obtain ⟨m1, m2⟩ := migratePending_same
        ({ s.reset_request with m_pCurDelegate := none } : EventBase) s r1 r2 r3
      rw [c3]
      simp only [migratePending_pending, List.map_nil, List.append_nil]
      rw [m1, m2]

/-- Witness of C23: the wildcard delegate of `wildcardDispatch` is executing when `reset()`
is called, by the handler itself and by thread 2 after it has queued an unsubscribe; and a
function delegate is executing. -/
theorem C23_reset_cancels_running_handler_witness :
    (wildcardDispatch.reset_request).cancelled = wildcardDispatch.cancelled ++ [1] ∧
    ((execSteps [.leave, .enter ⟨3, .funct 2⟩] wildcardDispatch).reset_request).cancelled =
      (execSteps [.leave, .enter ⟨3, .funct 2⟩] wildcardDispatch).cancelled ∧
    (wildcardDispatch.reset 1).m_vDelegates = [] ∧
    (execSteps [.resetRequest, .leave, .migrate, .lock none, .resetClear 2]
      ((Step.call 2 (.unsubscribe (some (.funct 2)))).exec wildcardDispatch)).destroyed =
        [0, 2, 5, 1] :=
  ⟨(C23_reset_cancels_running_handler wildcardDispatch).1 ⟨1, .wildcard 1⟩ rfl rfl,
   (C23_reset_cancels_running_handler
      (execSteps [.leave, .enter ⟨3, .funct 2⟩] wildcardDispatch)).2.1 ⟨3, .funct 2⟩ rfl rfl,
   ((C23_reset_cancels_running_handler wildcardDispatch).2.2.2.2.1 1 (by decide)).2.1,
   ((C23_reset_cancels_running_handler
      ((Step.call 2 (.unsubscribe (some (.funct 2)))).exec wildcardDispatch)).2.2.2.2.2 2
        (by decide)).2.2.2.2.trans (by decide)⟩

/-! ## Dispatch while other threads subscribe and unsubscribe -/

theorem action_foreign_exec (t : Nat) (a : Action) (s : EventBase) (hl : s.m_Lock = some t)
    (ha : a.foreign t) :
    (a.exec t s).m_vDelegates = s.m_vDelegates ∧ (a.exec t s).m_bCancel = s.m_bCancel ∧
    (a.exec t s).m_Lock = s.m_Lock ∧ (a.exec t s).invoked = s.invoked ∧
    (a.exec t s).m_pCurDelegate = s.m_pCurDelegate := by
  cases a with
  | self c => exact absurd ha (by simp [Action.foreign])
  | concurrentSubscribe u tg =>
    cases tg with
    | none => exact ⟨rfl, rfl, rfl, rfl, rfl⟩
    | some tg =>
      have hu : u ≠ t := ha
      obtain ⟨-, g2, g3, g4, g5, -, g7, -⟩ :=
        operator_plus_eq_some u (s.delegate tg).1 (s.delegate tg).2
      have htl : (s.delegate tg).2.try_lock u = false := by
        simp [try_lock, delegate, hl, Ne.symm hu]
      simp only [Action.exec, Call.exec]
      rw [g2, g3, g4, g5, g7, htl]
      simp [delegate]
  | concurrentUnsubscribe u tg =>
    cases tg with
    | none => exact ⟨rfl, rfl, rfl, rfl, rfl⟩
    | some tg =>
      have hu : u ≠ t := ha
      obtain ⟨-, g2, g3, g4, g5, -, g7, -⟩ :=
        operator_minus_eq_some u (s.delegate tg).1 (s.delegate tg).2
      have htl : (s.delegate tg).2.try_lock u = false := by
        simp [try_lock, delegate, hl, Ne.symm hu]
      simp only [Action.exec, Call.exec]
      rw [g2, g3, g4, g5, g7, htl]
      simp [delegate]

theorem runHandler_foreign (t : Nat) (acts : List Action) (s : EventBase)
    (hl : s.m_Lock = some t) (ha : ∀ a ∈ acts, a.foreign t) :
    (s.runHandler t acts).m_vDelegates = s.m_vDelegates ∧
    (s.runHandler t acts).m_bCancel = s.m_bCancel ∧
    (s.runHandler t acts).m_Lock = s.m_Lock ∧ (s.runHandler t acts).invoked = s.invoked ∧
    (s.runHandler t acts).m_pCurDelegate = s.m_pCurDelegate := by
  induction acts generalizing s with
  | nil => exact ⟨rfl, rfl, rfl, rfl, rfl⟩
  | cons a rest ih =>
    obtain ⟨a1, a2, a3, a4, a5⟩ := action_foreign_exec t a s hl (ha a (List.mem_cons_self _ _))
    obtain ⟨b1, b2, b3, b4, b5⟩ := ih (a.exec t s) (a3.trans hl)
      (fun x hx => ha x (List.mem_cons_of_mem _ hx))
    exact ⟨b1.trans a1, b2.trans a2, b3.trans a3, b4.trans a4, b5.trans a5⟩

theorem dispatch_succ_some (h : Handlers) (t : Nat) (n x : Nat) (s : EventBase) (d : Del)
    (hg : s.m_vDelegates[x]? = some d) :
    dispatch h t (n + 1) x s =
      if ({ ({ s with m_pCurDelegate := some d, invoked := s.invoked ++ [d] } :
            EventBase).runHandler t (h d) with m_pCurDelegate := none } : EventBase).m_bCancel
      then some { ({ s with m_pCurDelegate := some d, invoked := s.invoked ++ [d] } :
            EventBase).runHandler t (h d) with m_pCurDelegate := none }
      else dispatch h t n (x + 1)
        { ({ s with m_pCurDelegate := some d, invoked := s.invoked ++ [d] } :
            EventBase).runHandler t (h d) with m_pCurDelegate := none } := by
  rw [dispatch]
  simp only [hg]

theorem dispatch_foreign (h : Handlers) (t : Nat) (fuel x : Nat) (s : EventBase)
    (hl : s.m_Lock = some t) (hq : ∀ d ∈ s.m_vDelegates, ∀ a ∈ h d, a.foreign t)
    (hc : s.m_bCancel = false) (hf : s.m_vDelegates.length - x < fuel) :
    ∃ s2, dispatch h t fuel x s = some s2 ∧
      s2.invoked = s.invoked ++ s.m_vDelegates.drop x ∧
      s2.m_vDelegates = s.m_vDelegates := by
  induction fuel generalizing x s with
  | zero => omega
  | succ fuel ih =>
    cases hget : s.m_vDelegates[x]? with
    | none =>
      have hx : s.m_vDelegates.length ≤ x := List.getElem?_eq_none_iff.1 hget
      refine ⟨s, ?_, by simp [List.drop_eq_nil_of_le hx], rfl⟩
      rw [dispatch]
      simp only [hget]
    | some d =>
      have hd : d ∈ s.m_vDelegates := List.getElem?_mem hget
      obtain ⟨hx, hxd⟩ := List.getElem?_eq_some_iff.1 hget
      obtain ⟨r1, r2, r3, r4, -⟩ := runHandler_foreign t (h d)
        { s with m_pCurDelegate := some d, invoked := s.invoked ++ [d] } hl (hq d hd)
      have hc3 : ({ ({ s with m_pCurDelegate := some d, invoked := s.invoked ++ [d] } :
            EventBase).runHandler t (h d) with m_pCurDelegate := none } :
            EventBase).m_bCancel = false := r2.trans hc
      rw [dispatch_succ_some h t fuel x s d hget, hc3]
      simp only [Bool.false_eq_true, if_false]
      obtain ⟨s2, h1, h2, h3⟩ := ih (x + 1)
        { ({ s with m_pCurDelegate := some d, invoked := s.invoked ++ [d] } :
            EventBase).runHandler t (h d) with m_pCurDelegate := none }
        (r3.trans hl) (by rw [show _ = s.m_vDelegates from r1]; exact hq) hc3
        (by rw [show _ = s.m_vDelegates from r1]; omega)
      refine ⟨s2, h1, ?_, ?_⟩
      · rw [h2, show _ = s.invoked ++ [d] from r4, show _ = s.m_vDelegates from r1]
        simp only [List.append_assoc, List.singleton_append]
        rw [← hxd, List.drop_eq_getElem_cons hx]
      · rw [h3]
        exact r1

theorem operator_call_foreign (h : Handlers) (t fuel : Nat) (s : EventBase)
    (hc : s.m_bCancel = false)
    (hq : ∀ d ∈ s.migratePending.m_vDelegates, ∀ a ∈ h d, a.foreign t)
    (hf : s.migratePending.m_vDelegates.length < fuel) :
    ∃ s2, s.operator_call h t fuel = some s2 ∧
      s2.invoked = s.invoked ++ s.migratePending.m_vDelegates := by
  simp only [migratePending_live] at hq hf
  obtain ⟨s1, h1, h2, -⟩ := dispatch_foreign h t fuel 0
    (migratePending { s with m_Lock := some t }) (by simp) (by simpa using hq)
    (by simpa using hc) (by simpa using hf)
  refine ⟨{ migratePending s1 with m_Lock := s.m_Lock }, ?_, ?_⟩
  · simp only [operator_call, h1]
  · simp only [migratePending_invoked, h2]
    simp

/-! ## The live sequence after a history of registrations -/

theorem any_map_fun {α β : Type} (f : α → β) (p : β → Bool) (l : List α) :
    (l.map f).any p = l.any (fun a => p (f a)) := by
  induction l with
  | nil => rfl
  | cons a l ih => simp [ih]

theorem filter_map_fun {α β : Type} (f : α → β) (p : β → Bool) (l : List α) :
    (l.filter (fun a => p (f a))).map f = (l.map f).filter p := by
  induction l with
  | nil => rfl
  | cons a l ih =>
    by_cases h : p (f a) = true
    · simp [h, ih]
    · simp [h, ih]

theorem del_equals_eq (a b : Del) : a.equals b = (a.target == b.target) := by
  rw [Bool.eq_iff_iff, del_equals_iff]
  simp

theorem eraseIdx_findInfoFrom_eq_filter (c : Del) (l : List Del) (x : Nat)
    (hn : NoDuplicate l) (h : ∃ e ∈ l, e.equals c = true) :
    l.eraseIdx (findInfoFrom c l x - x) = l.filter (fun e => !e.equals c) := by
  induction l generalizing x with
  | nil => simp at h
  | cons e rest ih =>
    unfold NoDuplicate at hn
    rw [List.pairwise_cons] at hn
    by_cases he : e.equals c = true
    · have hrest : ∀ r ∈ rest, r.equals c = false := by
        intro r hr
        have h1 := hn.1 r hr
        rw [del_equals_false_iff] at h1 ⊢
        rw [del_equals_iff] at he
        intro h2
        exact h1 (he.trans h2.symm)
      have hf : rest.filter (fun e => !e.equals c) = rest := by
        rw [List.filter_eq_self]
        intro r hr
        simp [hrest r hr]
      simp [findInfoFrom, he, hf]
    · have h2 : ∃ e2 ∈ rest, e2.equals c = true := by
        obtain ⟨e2, hm, heq⟩ := h
        rcases List.mem_cons.1 hm with rfl | hm
        · exact absurd heq he
        · exact ⟨e2, hm, heq⟩
      have hp := findInfoFrom_present c rest (x + 1) h2
      have hi := ih (x + 1) hn.2 h2
      have hidx : findInfoFrom c rest (x + 1) - x = (findInfoFrom c rest (x + 1) - (x + 1)) + 1 := by
        omega
      simp only [Bool.not_eq_true] at he
      simp only [findInfoFrom, he, Bool.false_eq_true, if_false, hidx, List.eraseIdx_cons_succ,
        hi, List.filter_cons, Bool.not_false, if_true]

/-- Merging an unsubscribe removes the delegate that is equal, and only it. -/
theorem liveStep_remove_eq (c : Del) (l : List Del) (hn : NoDuplicate l)
    (hl : l.length ≤ UNKNOWN_ITEM) :
    liveStep l (false, c) = l.filter (fun e => !e.equals c) := by
  by_cases h : ∃ e ∈ l, e.equals c = true
  · have hp := findInfoFrom_present c l 0 h
    have hne : findInfoFrom c l 0 ≠ UNKNOWN_ITEM := by omega
    have := eraseIdx_findInfoFrom_eq_filter c l 0 hn h
    simp only [Nat.sub_zero] at this
    simp [liveStep, hne, this]
  · have habs : ∀ e ∈ l, e.equals c = false := by
      intro e he
      by_contra hc
      exact h ⟨e, he, by simpa using hc⟩
    have hf : l.filter (fun e => !e.equals c) = l := by
      rw [List.filter_eq_self]
      intro r hr
      simp [habs r hr]
    simp [liveStep, findInfoFrom_absent c l 0 habs, hf]

/-- Merging a subscribe appends the delegate unless an equal one is live. -/
theorem liveStep_add_eq (c : Del) (l : List Del) (hl : l.length ≤ UNKNOWN_ITEM) :
    liveStep l (true, c) = if l.any (fun e => e.equals c) then l else l ++ [c] := by
  by_cases h : ∃ e ∈ l, e.equals c = true
  · have hp := findInfoFrom_present c l 0 h
    have hne : findInfoFrom c l 0 ≠ UNKNOWN_ITEM := by omega
    have hany : l.any (fun e => e.equals c) = true := by
      rw [List.any_eq_true]
      exact h
    simp [liveStep, hne, hany]
  · have habs : ∀ e ∈ l, e.equals c = false := by
      intro e he
      by_contra hc
      exact h ⟨e, he, by simpa using hc⟩
    have hany : l.any (fun e => e.equals c) = false := by
      rw [List.any_eq_false]
      intro e he
      simp [habs e he]
    simp [liveStep, findInfoFrom_absent c l 0 habs, hany]

theorem registerStep_nodup (i : Nat) (acc : List (Nat × Target)) (r : Registration)
    (hn : (acc.map Prod.snd).Nodup) : ((registerStep i acc r).map Prod.snd).Nodup := by
  unfold registerStep
  split_ifs with h1 h2
  · exact hn
  · rw [List.map_append, List.nodup_append]
    refine ⟨hn, by simp, ?_⟩
    intro a ha hb
    simp only [List.map_cons, List.map_nil, List.mem_singleton] at hb
    subst hb
    apply h2
    rw [List.any_eq_true]
    obtain ⟨q, hq, hq2⟩ := List.mem_map.1 ha
    exact ⟨q, hq, by simp [hq2]⟩
  · exact (hn.sublist ((List.filter_sublist acc).map Prod.snd))

/-- One registration on a bus that is not locked and has an empty queue: the live sequence
follows `registerStep`. -/
theorem registration_exec (i : Nat) (r : Registration) (acc : List (Nat × Target))
    (s s1 : EventBase) (hlock : s.m_Lock = none) (hp : s.m_vPendingDelegates = [])
    (hrel : s.m_vDelegates.map Del.target = acc.map Prod.snd)
    (hnd : (acc.map Prod.snd).Nodup) (hlen : acc.length < UNKNOWN_ITEM)
    (he : r.op.exec s = some s1) :
    s1.m_Lock = none ∧ s1.m_vPendingDelegates = [] ∧
    s1.m_vDelegates.map Del.target = (registerStep i acc r).map Prod.snd ∧
    s1.invoked = s.invoked ∧ s1.m_bCancel = s.m_bCancel := by
  obtain ⟨t, b, tg⟩ := r
  have hl : s.m_vDelegates.length ≤ UNKNOWN_ITEM := by
    have := congrArg List.length hrel
    simp only [List.length_map] at this
    omega
  have hn : NoDuplicate s.m_vDelegates := by
    rw [noDuplicate_iff, hrel]
    exact hnd
  cases b with
  | true =>
    simp only [Registration.op, if_true, Op.exec, Call.exec, Option.some.injEq] at he
    obtain ⟨-, g2, g3, -, g5, -, g7, g8⟩ :=
      operator_plus_eq_some t (s.delegate tg).1 (s.delegate tg).2
    have htl : (s.delegate tg).2.try_lock t = true := by simp [try_lock, delegate, hlock]
    rw [htl] at g7 g8
    subst he
    refine ⟨by rw [g2]; simpa [delegate] using hlock, by simpa using g8, ?_,
      by rw [g5]; simp [delegate], by rw [g3]; simp [delegate]⟩
    rw [g7]
    simp only [delegate, hp, if_true, List.nil_append, List.foldl_cons, List.foldl_nil,
      liveStep_add_eq _ _ hl, registerStep]
    have hany : s.m_vDelegates.any (fun e => e.equals (Del.mk (s.nextAddr + 1) tg)) =
        acc.any (fun a => a.2 == tg) := by
      have h1 : s.m_vDelegates.any (fun e => e.equals (Del.mk (s.nextAddr + 1) tg)) =
          (s.m_vDelegates.map Del.target).any (fun x => x == tg) := by
        rw [any_map_fun]
        congr 1
        funext e
        simp [del_equals_eq]
      have h2 : acc.any (fun a => a.2 == tg) = (acc.map Prod.snd).any (fun x => x == tg) := by
        rw [any_map_fun]
      rw [h1, h2, hrel]
    rw [hany]
    split_ifs
    · exact hrel
    · simp [hrel]
  | false =>
    simp only [Registration.op, Bool.false_eq_true, if_false, Op.exec, Call.exec,
      Option.some.injEq] at he
    obtain ⟨-, g2, g3, -, g5, -, g7, g8⟩ :=
      operator_minus_eq_some t (s.delegate tg).1 (s.delegate tg).2
    have htl : (s.delegate tg).2.try_lock t = true := by simp [try_lock, delegate, hlock]
    rw [htl] at g7 g8
    subst he
    refine ⟨by rw [g2]; simpa [delegate] using hlock, by simpa using g8, ?_,
      by rw [g5]; simp [delegate], by rw [g3]; simp [delegate]⟩
    rw [g7]
    simp only [delegate, hp, if_true, List.nil_append, List.foldl_cons, List.foldl_nil,
      liveStep_remove_eq _ _ hn hl, registerStep, Bool.false_eq_true, if_false]
    have h1 : (s.m_vDelegates.filter (fun e => !e.equals (Del.mk (s.nextAddr + 1) tg))).map
        Del.target = (s.m_vDelegates.map Del.target).filter (fun x => x != tg) := by
      rw [← filter_map_fun]
      congr 1
      apply List.filter_congr
      intro e _
      simp [del_equals_eq, bne]
    have h2 : (acc.filter (fun a => a.2 != tg)).map Prod.snd =
        (acc.map Prod.snd).filter (fun x => x != tg) := by
      rw [← filter_map_fun]
    rw [h1, h2, hrel]

theorem history_run (hist : List Registration) (i : Nat) (acc : List (Nat × Target))
    (s : EventBase) (hlock : s.m_Lock = none) (hp : s.m_vPendingDelegates = [])
    (hrel : s.m_vDelegates.map Del.target = acc.map Prod.snd)
    (hnd : (acc.map Prod.snd).Nodup)
    (hb : ∀ k, (survivorsFrom i (hist.take k) acc).length < UNKNOWN_ITEM) :
    ∃ s2, run (hist.map Registration.op) s = some s2 ∧ s2.m_Lock = none ∧
      s2.m_vPendingDelegates = [] ∧
      s2.m_vDelegates.map Del.target = (survivorsFrom i hist acc).map Prod.snd ∧
      s2.invoked = s.invoked ∧ s2.m_bCancel = s.m_bCancel := by
  induction hist generalizing i acc s with
  | nil => exact ⟨s, rfl, hlock, hp, hrel, rfl, rfl⟩
  | cons r rest ih =>
    have hlen : acc.length < UNKNOWN_ITEM := hb 0
    obtain ⟨s1, he⟩ : ∃ s1, r.op.exec s = some s1 := ⟨_, rfl⟩
    obtain ⟨a1, a2, a3, a4, a5⟩ := registration_exec i r acc s s1 hlock hp hrel hnd hlen he
    obtain ⟨s2, b1, b2, b3, b4, b5, b6⟩ := ih (i + 1) (registerStep i acc r) s1 a1 a2 a3
      (registerStep_nodup i acc r hnd) (fun k => hb (k + 1))
    refine ⟨s2, ?_, b2, b3, b4, b5.trans a4, b6.trans a5⟩
    rw [List.map_cons, run, he]
    exact b1

theorem survivorsFrom_length (hist : List Registration) (i : Nat) (acc : List (Nat × Target)) :
    (survivorsFrom i hist acc).length ≤ acc.length + hist.length := by
  induction hist generalizing i acc with
  | nil => simp [survivorsFrom]
  | cons r rest ih =>
    have h1 := ih (i + 1) (registerStep i acc r)
    have h2 : (registerStep i acc r).length ≤ acc.length + 1 := by
      unfold registerStep
      split_ifs
      · omega
      · simp
      · have := (List.filter_sublist (p := fun a => a.2 != r.2.2) acc).length_le
        omega
    simp only [survivorsFrom, List.length_cons]
    omega

theorem survivorsFrom_sorted (hist : List Registration) (i : Nat) (acc : List (Nat × Target))
    (hs : acc.Pairwise (fun a b => a.1 < b.1)) (hlt : ∀ a ∈ acc, a.1 < i) :
    (survivorsFrom i hist acc).Pairwise (fun a b => a.1 < b.1) := by
  induction hist generalizing i acc with
  | nil => exact hs
  | cons r rest ih =>
    apply ih (i + 1) (registerStep i acc r)
    · unfold registerStep
      split_ifs
      · exact hs
      · rw [List.pairwise_append]
        refine ⟨hs, List.pairwise_singleton _ _, ?_⟩
        intro a ha b hb
        rw [List.mem_singleton] at hb
        subst hb
        exact hlt a ha
      · exact hs.sublist (List.filter_sublist acc)
    · intro a ha
      unfold registerStep at ha
      split_ifs at ha
      · exact Nat.lt_succ_of_lt (hlt a ha)
      · rcases List.mem_append.1 ha with ha | ha
        · exact Nat.lt_succ_of_lt (hlt a ha)
        · rw [List.mem_singleton] at ha
          subst ha
          exact Nat.lt_succ_self _
      · exact Nat.lt_succ_of_lt (hlt a (List.mem_of_mem_filter ha))

theorem survivorsFrom_registered (hist : List Registration) (i : Nat)
    (acc : List (Nat × Target)) :
    ∀ a ∈ survivorsFrom i hist acc,
      a ∈ acc ∨ ∃ k t, hist[k]? = some (t, true, a.2) ∧ a.1 = i + k := by
  induction hist generalizing i acc with
  | nil => intro a ha; exact Or.inl ha
  | cons r rest ih =>
    intro a ha
    rcases ih (i + 1) (registerStep i acc r) a ha with h1 | ⟨k, t, h2, h3⟩
    · unfold registerStep at h1
      split_ifs at h1 with c1 c2
      · exact Or.inl h1
      · rcases List.mem_append.1 h1 with h1 | h1
        · exact Or.inl h1
        · rw [List.mem_singleton] at h1
          subst h1
          refine Or.inr ⟨0, r.1, ?_, rfl⟩
          obtain ⟨t, b, tg⟩ := r
          simp only at c1
          simp [c1]
      · exact Or.inl (List.mem_of_mem_filter h1)
    · exact Or.inr ⟨k + 1, t, by simpa using h2, by omega⟩

theorem survivorsFrom_nodup (hist : List Registration) (i : Nat) (acc : List (Nat × Target))
    (hn : (acc.map Prod.snd).Nodup) : ((survivorsFrom i hist acc).map Prod.snd).Nodup := by
  induction hist generalizing i acc with
  | nil => exact hn
  | cons r rest ih => exact ih (i + 1) _ (registerStep_nodup i acc r hn)

/-! ## The merged live sequence along an execution -/

/-- Merging one registration into a live sequence that lists the subscriptions in force. -/
theorem liveStep_register (i t : Nat) (b : Bool) (n : Nat) (tg : Target) (l : List Del)
    (acc : List (Nat × Target)) (hrel : l.map Del.target = acc.map Prod.snd)
    (hnd : (acc.map Prod.snd).Nodup) (hlen : acc.length < UNKNOWN_ITEM) :
    (liveStep l (b, Del.mk n tg)).map Del.target =
      (registerStep i acc (t, b, tg)).map Prod.snd := by
  have hl : l.length ≤ UNKNOWN_ITEM := by
    have := congrArg List.length hrel
    simp only [List.length_map] at this
    omega
  have hn : NoDuplicate l := by
    rw [noDuplicate_iff, hrel]
    exact hnd
  cases b with
  | true =>
    simp only [liveStep_add_eq _ _ hl, registerStep, if_true]
    have hany : l.any (fun e => e.equals (Del.mk n tg)) = acc.any (fun a => a.2 == tg) := by
      have h1 : l.any (fun e => e.equals (Del.mk n tg)) =
          (l.map Del.target).any (fun x => x == tg) := by
        rw [any_map_fun]
        congr 1
        funext e
        simp [del_equals_eq]
      have h2 : acc.any (fun a => a.2 == tg) = (acc.map Prod.snd).any (fun x => x == tg) := by
        rw [any_map_fun]
      rw [h1, h2, hrel]
    rw [hany]
    split_ifs
    · exact hrel
    · simp [hrel]
  | false =>
    simp only [liveStep_remove_eq _ _ hn hl, registerStep, Bool.false_eq_true, if_false]
    have h1 : (l.filter (fun e => !e.equals (Del.mk n tg))).map Del.target =
        (l.map Del.target).filter (fun x => x != tg) := by
      rw [← filter_map_fun]
      congr 1
      apply List.filter_congr
      intro e _
      simp [del_equals_eq, bne]
    have h2 : (acc.filter (fun a => a.2 != tg)).map Prod.snd =
        (acc.map Prod.snd).filter (fun x => x != tg) := by
      rw [← filter_map_fun]
    rw [h1, h2, hrel]

/-- The merged live sequence after a `+=`, whether it merges at once or stays queued. -/
theorem operator_plus_eq_merged (t : Nat) (d : Del) (s : EventBase) :
    (s.operator_plus_eq t (some d)).migratePending.m_vDelegates =
      liveStep s.migratePending.m_vDelegates (true, Del.mk s.nextAddr d.target) ∧
    (s.operator_plus_eq t (some d)).m_bCancel = s.m_bCancel := by
  obtain ⟨-, -, g3, -, -, -, g7, g8⟩ := operator_plus_eq_some t d s
  refine ⟨?_, g3⟩
  rw [migratePending_live, migratePending_live, g7, g8]
  split_ifs <;> simp [List.foldl_append]

/-- The merged live sequence after a `-=`, whether it merges at once or stays queued. -/
theorem operator_minus_eq_merged (t : Nat) (d : Del) (s : EventBase) :
    (s.operator_minus_eq t (some d)).migratePending.m_vDelegates =
      liveStep s.migratePending.m_vDelegates (false, Del.mk s.nextAddr d.target) ∧
    (s.operator_minus_eq t (some d)).m_bCancel = s.m_bCancel := by
  obtain ⟨-, -, g3, -, -, -, g7, g8⟩ := operator_minus_eq_some t d s
  refine ⟨?_, g3⟩
  rw [migratePending_live, migratePending_live, g7, g8]
  split_ifs <;> simp [List.foldl_append]

/-- One step that is a registration or a piece of a publish: the merged live sequence
follows `registerStep`, and `m_bCancel` stays as it is. -/
theorem step_merged (i : Nat) (st : Step) (acc : List (Nat × Target)) (s : EventBase)
    (hreg : st.registers)
    (hrel : s.migratePending.m_vDelegates.map Del.target = acc.map Prod.snd)
    (hnd : (acc.map Prod.snd).Nodup) (hlen : acc.length < UNKNOWN_ITEM) :
    (st.exec s).migratePending.m_vDelegates.map Del.target =
      (match st.registration with
        | some r => registerStep i acc r
        | none => acc).map Prod.snd ∧
    (st.exec s).m_bCancel = s.m_bCancel := by
  cases st with
  | call t c =>
    cases c with
    | subscribe o =>
      cases o with
      | none => exact ⟨hrel, rfl⟩
      | some tg =>
        obtain ⟨m1, m2⟩ := operator_plus_eq_merged t (s.delegate tg).1 (s.delegate tg).2
        refine ⟨?_, m2⟩
        simp only [Step.exec, Call.exec, Step.registration]
        rw [m1]
        exact liveStep_register i t true _ tg _ acc
          (by simpa [delegate, migratePending_live] using hrel) hnd hlen
    | unsubscribe o =>
      cases o with
      | none => exact ⟨hrel, rfl⟩
      | some tg =>
        obtain ⟨m1, m2⟩ := operator_minus_eq_merged t (s.delegate tg).1 (s.delegate tg).2
        refine ⟨?_, m2⟩
        simp only [Step.exec, Call.exec, Step.registration]
        rw [m1]
        exact liveStep_register i t false _ tg _ acc
          (by simpa [delegate, migratePending_live] using hrel) hnd hlen
    | flush =>
      refine ⟨?_, by simp [Step.exec, Call.exec, flush, withLock]⟩
      simp only [Step.exec, Call.exec, Step.registration, flush, withLock]
      simpa [migratePending_live] using hrel
    | reset => exact absurd hreg (by simp [Step.registers])
    | assign e => exact absurd hreg (by simp [Step.registers])
    | union e => exact absurd hreg (by simp [Step.registers])
  | resetRequest => exact absurd hreg (by simp [Step.registers])
  | resetClear t => exact absurd hreg (by simp [Step.registers])
  | lock o =>
    refine ⟨?_, rfl⟩
    simp only [Step.exec, Step.registration]
    simpa [migratePending_live] using hrel
  | migrate =>
    refine ⟨?_, by simp [Step.exec]⟩
    simp only [Step.exec, Step.registration]
    simpa [migratePending_live] using hrel
  | enter d =>
    refine ⟨?_, rfl⟩
    simp only [Step.exec, Step.registration]
    simpa [migratePending_live] using hrel
  | leave =>
    refine ⟨?_, rfl⟩
    simp only [Step.exec, Step.registration]
    simpa [migratePending_live] using hrel

/-- Along an execution made of registrations and pieces of publishes, the merged live
sequence lists the subscriptions in force in the order of their registration. -/
theorem execSteps_survivors (steps : List Step) (i : Nat) (acc : List (Nat × Target))
    (s : EventBase) (hreg : ∀ st ∈ steps, st.registers)
    (hrel : s.migratePending.m_vDelegates.map Del.target = acc.map Prod.snd)
    (hnd : (acc.map Prod.snd).Nodup)
    (hb : ∀ k, (survivorsFrom i (registrations (steps.take k)) acc).length < UNKNOWN_ITEM) :
    (execSteps steps s).migratePending.m_vDelegates.map Del.target =
      (survivorsFrom i (registrations steps) acc).map Prod.snd ∧
    (execSteps steps s).m_bCancel = s.m_bCancel := by
  induction steps generalizing i acc s with
  | nil => exact ⟨hrel, rfl⟩
  | cons st rest ih =>
    have hlen : acc.length < UNKNOWN_ITEM := hb 0
    obtain ⟨a1, a2⟩ := step_merged i st acc s (hreg st (List.mem_cons_self _ _)) hrel hnd hlen
    rw [execSteps_cons]
    cases hr : st.registration with
    | none =>
      rw [hr] at a1
      obtain ⟨b1, b2⟩ := ih i acc (st.exec s)
        (fun x hx => hreg x (List.mem_cons_of_mem _ hx)) a1 hnd
        (fun k => by
          have := hb (k + 1)
          simpa [registrations, List.take_succ_cons, List.filterMap_cons, hr] using this)
      refine ⟨?_, b2.trans a2⟩
      rw [b1]
      simp [registrations, List.filterMap_cons, hr]
    | some r =>
      rw [hr] at a1
      obtain ⟨b1, b2⟩ := ih (i + 1) (registerStep i acc r) (st.exec s)
        (fun x hx => hreg x (List.mem_cons_of_mem _ hx)) a1 (registerStep_nodup i acc r hnd)
        (fun k => by
          have := hb (k + 1)
          simpa [registrations, List.take_succ_cons, List.filterMap_cons, hr,
            survivorsFrom] using this)
      refine ⟨?_, b2.trans a2⟩
      rw [b1]
      simp [registrations, List.filterMap_cons, hr, survivorsFrom]

/-- C5: on a bus that is not being cancelled and whose handlers make no call on the bus,
while other threads may subscribe and unsubscribe, publish returns (the loop needs one more
iteration than there are subscribers) and invokes exactly the delegates of the live sequence,
merged with the queue, once each and in the order of that sequence.  After any history of
subscribe and unsubscribe calls on an empty bus (the live sequence staying within
`UNKNOWN_ITEM` entries), the live sequence holds the subscriptions in force in the order of
their registration, so that publish invokes them first subscribed, first invoked.  The same
holds along every execution made of `+=` and `-=` calls by any thread, merged at once or
queued during a publish, and of the pieces of publishes: the live sequence merged with the
queue holds the subscriptions in force in the order of the calls, and a publish invokes
them in that order.  Every run of top-level operations is such a sequence of steps.  The
subscriptions in force are listed by position of registration, increasing, without a
repeated target, and each is a subscribe of the history at that position. -/
theorem C5_publish_in_registration_order :
    (∀ (s : EventBase) (h : Handlers) (t fuel : Nat), s.m_bCancel = false →
      s.try_lock t = true →
      (∀ d ∈ s.migratePending.m_vDelegates, ∀ a ∈ h d, a.foreign t) →
      s.migratePending.m_vDelegates.length < fuel →
      ∃ s2, s.operator_call h t fuel = some s2 ∧
        s2.invoked = s.invoked ++ s.migratePending.m_vDelegates) ∧
    (∀ (hist : List Registration) (heap : Nat),
      (∀ k, (survivors (hist.take k)).length < UNKNOWN_ITEM) →
      ∃ s, run (hist.map Registration.op) (EventBase.new heap) = some s ∧
        s.m_vPendingDelegates = [] ∧ s.m_Lock = none ∧
        s.m_vDelegates.map Del.target = (survivors hist).map Prod.snd ∧
        ∀ (h : Handlers) (t fuel : Nat),
          (∀ d ∈ s.m_vDelegates, ∀ a ∈ h d, a.foreign t) → s.m_vDelegates.length < fuel →
          ∃ s2, s.operator_call h t fuel = some s2 ∧
            s2.invoked.map Del.target = (survivors hist).map Prod.snd) ∧
    (∀ (steps : List Step) (heap : Nat), (∀ st ∈ steps, st.registers) →
      (∀ k, (survivors (registrations (steps.take k))).length < UNKNOWN_ITEM) →
      (execSteps steps (EventBase.new heap)).migratePending.m_vDelegates.map Del.target =
        (survivors (registrations steps)).map Prod.snd ∧
      ∀ (h : Handlers) (t fuel : Nat),
        (execSteps steps (EventBase.new heap)).try_lock t = true →
        (∀ d ∈ (execSteps steps (EventBase.new heap)).migratePending.m_vDelegates,
          ∀ a ∈ h d, a.foreign t) →
        (execSteps steps (EventBase.new heap)).migratePending.m_vDelegates.length < fuel →
        ∃ s2 l, (execSteps steps (EventBase.new heap)).operator_call h t fuel = some s2 ∧
          s2.invoked = (execSteps steps (EventBase.new heap)).invoked ++ l ∧
          l.map Del.target = (survivors (registrations steps)).map Prod.snd) ∧
    (∀ (ops : List Op) (s s2 : EventBase), run ops s = some s2 →
      execSteps (stepsOfRun ops s) s = s2) ∧
    (∀ hist : List Registration,
      (survivors hist).Pairwise (fun a b => a.1 < b.1) ∧
      ((survivors hist).map Prod.snd).Nodup ∧
      ∀ a ∈ survivors hist, ∃ t, hist[a.1]? = some (t, true, a.2)) := by
  refine ⟨?_, ?_, ?_, ?_, ?_⟩
  · intro s h t fuel hc _ hq hf
    exact operator_call_foreign h t fuel s hc hq hf
  · intro hist heap hb
    obtain ⟨s, h1, h2, h3, h4, h5, h6⟩ := history_run hist 0 [] (EventBase.new heap) rfl rfl rfl
      (by simp) hb
    refine ⟨s, h1, h3, h2, h4, ?_⟩
    intro h t fuel hq hf
    have hm : s.migratePending.m_vDelegates = s.m_vDelegates := by
      simp [migratePending_live, h3]
    obtain ⟨s2, k1, k2⟩ := operator_call_foreign h t fuel s (by rw [h6]; rfl)
      (by rw [hm]; exact hq) (by rw [hm]; exact hf)
    refine ⟨s2, k1, ?_⟩
    rw [k2, h5, hm]
    simpa [EventBase.new] using h4
  · intro steps heap hreg hb
    obtain ⟨e1, e2⟩ := execSteps_survivors steps 0 [] (EventBase.new heap) hreg rfl (by simp) hb
    refine ⟨e1, ?_⟩
    intro h t fuel _ hq hf
    obtain ⟨s2, k1, k2⟩ := operator_call_foreign h t fuel _ (e2.trans rfl) hq hf
    exact ⟨s2, _, k1, k2, e1⟩
  · intro ops s s2 hrun
    exact run_steps ops s s2 hrun
  · intro hist
    refine ⟨survivorsFrom_sorted hist 0 [] List.Pairwise.nil (by simp),
      survivorsFrom_nodup hist 0 [] (by simp), ?_⟩
    intro a ha
    rcases survivorsFrom_registered hist 0 [] a ha with h1 | ⟨k, t, h2, h3⟩
    · simp at h1
    · refine ⟨t, ?_⟩
      rw [h3, Nat.zero_add]
      exact h2

/-- Witness of C5: three targets subscribed by two threads, the first unsubscribed and
subscribed again, so that it is now the last; a publish during which another thread
subscribes and unsubscribes invokes the three in the order of their registration; and an
execution in which another thread subscribes two targets and unsubscribes one during a
publish, after which the bus holds the three subscriptions in force in the order of the
calls, and the next publish invokes them in that order. -/
theorem C5_publish_in_registration_order_witness :
    (∃ s, run (demoHistory.map Registration.op) (EventBase.new 0) = some s ∧
        s.m_vPendingDelegates = [] ∧ s.m_Lock = none ∧
        s.m_vDelegates.map Del.target = (survivors demoHistory).map Prod.snd ∧
        ∀ (h : Handlers) (t fuel : Nat),
          (∀ d ∈ s.m_vDelegates, ∀ a ∈ h d, a.foreign t) → s.m_vDelegates.length < fuel →
          ∃ s2, s.operator_call h t fuel = some s2 ∧
            s2.invoked.map Del.target = (survivors demoHistory).map Prod.snd) ∧
    survivors demoHistory = [(1, .obj 5 6), (2, .proxie 2), (4, .funct 0)] ∧
    (∃ s2, C5_bus.operator_call busyThread 1 4 = some s2 ∧
        s2.invoked = C5_bus.invoked ++ C5_bus.migratePending.m_vDelegates) ∧
    ((execSteps queuedHistory (EventBase.new 0)).migratePending.m_vDelegates.map Del.target =
        (survivors (registrations queuedHistory)).map Prod.snd ∧
      survivors (registrations queuedHistory) =
        [(1, .obj 5 6), (2, .funct 9), (4, .funct 8)] ∧
      ∃ s2 l, (execSteps queuedHistory (EventBase.new 0)).operator_call busyThread 1 4 =
          some s2 ∧
        s2.invoked = (execSteps queuedHistory (EventBase.new 0)).invoked ++ l ∧
        l.map Del.target = (survivors (registrations queuedHistory)).map Prod.snd) := by
  have hq := C5_publish_in_registration_order.2.2.1 queuedHistory 0 (by decide)
    (fun k => by
      have h1 := survivorsFrom_length (registrations (queuedHistory.take k)) 0 []
      have h2 : (registrations (queuedHistory.take k)).length ≤
          (queuedHistory.take k).length := List.length_filterMap_le _ _
      have h3 : (queuedHistory.take k).length = min k queuedHistory.length :=
        List.length_take _ _
      have h4 : queuedHistory.length = 13 := by decide
      have h5 : (13 : Nat) < UNKNOWN_ITEM := by decide
      simp only [List.length_nil] at h1
      unfold survivors
      omega)
  exact ⟨C5_publish_in_registration_order.2.1 demoHistory 0
      (fun k => by
        have h1 := survivorsFrom_length (demoHistory.take k) 0 []
        have h2 : (demoHistory.take k).length = min k demoHistory.length := List.length_take _ _
        have h3 : demoHistory.length = 5 := rfl
        have h4 : (5 : Nat) < UNKNOWN_ITEM := by decide
        simp only [List.length_nil] at h1
        unfold survivors
        omega),
    by decide,
    C5_publish_in_registration_order.1 C5_bus busyThread 1 4 rfl (by decide) (by decide)
      (by decide),
    hq.1, by decide, hq.2 busyThread 1 4 (by decide) (by decide) (by decide)⟩

/-! ## Payloads and user code (C11, C12) -/

theorem bound_proxied (d : Del) (hd : d.bound) : d.proxied = none := by
  cases ht : d.target <;> simp [Del.bound, Del.proxied, ht] at hd ⊢

theorem bound_not_wildcard (d : Del) (hd : d.bound) (o : Nat) : d.target ≠ .wildcard o := by
  intro ht
  simp [Del.bound, ht] at hd

theorem handlerEffect_bound {P : Type} (h : Del → P → P) (d : Del) (p : P) (hd : d.bound) :
    handlerEffect h d p = h d p := by
  simp [handlerEffect, hd]

theorem ownEffect_eq_handlerEffect {P : Type} (h : Del → P → P) (d : Del) (p : P)
    (hw : ∀ o, d.target ≠ .wildcard o) : d.ownEffect h p = handlerEffect h d p := by
  cases ht : d.target with
  | funct f => by_cases hf : f = 0 <;> simp [Del.ownEffect, handlerEffect, Del.bound, ht, hf]
  | obj o m =>
    by_cases ho : o = 0 <;> by_cases hm : m = 0 <;>
      simp [Del.ownEffect, handlerEffect, Del.bound, ht, ho, hm]
  | proxie e => simp [Del.ownEffect, handlerEffect, Del.bound, ht]
  | wildcard o => exact absurd ht (hw o)

theorem plain_proxied (d : Del) (hd : ∀ e, d.target = .proxie e → e = 0) :
    d.proxied = none := by
  cases ht : d.target with
  | proxie e => simp [Del.proxied, ht, hd e ht]
  | funct f => simp [Del.proxied, ht]
  | obj o m => simp [Del.proxied, ht]
  | wildcard o => simp [Del.proxied, ht]

theorem foldLog_eq_handlerLog {P : Type} (h : Del → P → P) (b : Nat) (p : P) (l : List Del)
    (hw : ∀ d ∈ l, ∀ o, d.target ≠ .wildcard o) :
    foldLog h b p l = handlerLog h b p l ∧
      foldPayload h p l = l.foldl (fun q d => handlerEffect h d q) p := by
  induction l generalizing p with
  | nil => exact ⟨rfl, rfl⟩
  | cons d ds ih =>
    have e1 := ownEffect_eq_handlerEffect h d p (hw d (List.mem_cons_self _ _))
    obtain ⟨i1, i2⟩ := ih (handlerEffect h d p) (fun x hx => hw x (List.mem_cons_of_mem _ hx))
    simp only [foldLog, handlerLog, foldPayload_cons, List.foldl_cons, e1, i1, i2, and_self]

theorem foldl_handlerEffect_bound {P : Type} (h : Del → P → P) (p : P) (l : List Del)
    (hl : ∀ d ∈ l, d.bound) :
    l.foldl (fun q d => handlerEffect h d q) p = l.foldl (fun q d => h d q) p := by
  induction l generalizing p with
  | nil => rfl
  | cons d ds ih =>
    simp only [List.foldl_cons, handlerEffect_bound h d p (hl d (List.mem_cons_self _ _))]
    exact ih _ (fun x hx => hl x (List.mem_cons_of_mem _ hx))

/-- The model of the loop and the description of a publish agree on subscribers that are all
bound to user code. -/
theorem fold_bound {P : Type} (h : Del → P → P) (b : Nat) (p : P) (l : List Del)
    (hl : ∀ d ∈ l, d.bound) :
    foldLog h b p l = handlerLog h b p l ∧
      foldPayload h p l = l.foldl (fun q d => h d q) p := by
  obtain ⟨i1, i2⟩ := foldLog_eq_handlerLog h b p l (fun d hd => bound_not_wildcard d (hl d hd))
  exact ⟨i1, i2.trans (foldl_handlerEffect_bound h p l hl)⟩

theorem handlerLog_length {P : Type} (h : Del → P → P) (b : Nat) (p : P) (l : List Del) :
    (handlerLog h b p l).length = l.length := by
  induction l generalizing p with
  | nil => rfl
  | cons d ds ih => simp [handlerLog, ih]

theorem handlerLog_getElem {P : Type} (h : Del → P → P) (b : Nat) (p : P) (l : List Del)
    (i : Nat) (hi : i < l.length) :
    (handlerLog h b p l)[i]? =
      some (b, l[i], (l.take i).foldl (fun q d => handlerEffect h d q) p) := by
  induction l generalizing p i with
  | nil => simp at hi
  | cons d ds ih =>
    cases i with
    | zero => simp [handlerLog]
    | succ i =>
      simp only [List.length_cons, Nat.add_lt_add_iff_right] at hi
      simp only [handlerLog, List.getElem?_cons_succ, List.getElem_cons_succ,
        List.take_succ_cons, List.foldl_cons]
      exact ih (handlerEffect h d p) i hi

theorem foldLog_append {P : Type} (h : Del → P → P) (b : Nat) (p : P) (l1 l2 : List Del) :
    foldLog h b p (l1 ++ l2) = foldLog h b p l1 ++ foldLog h b (foldPayload h p l1) l2 := by
  induction l1 generalizing p with
  | nil => rfl
  | cons d ds ih => simp [foldLog, foldPayload_cons, ih]

theorem foldPayload_append {P : Type} (h : Del → P → P) (p : P) (l1 l2 : List Del) :
    foldPayload h p (l1 ++ l2) = foldPayload h (foldPayload h p l1) l2 := by
  simp [foldPayload, List.foldl_append]

/-- C11: a publish on an `Event<TArg>` bus that is not being cancelled returns, with handlers
that act on the payload only.  When every live delegate is bound to user code (a function or
a method, no pointer null), the payload it leaves to the caller is the left fold of the user
code `h` over the payload in the order of the live sequence, and the handler at position `i`
was passed the payload as the user code of the handlers before it left it.  When the bus
holds delegates with a null pointer as well (but no wildcard delegate and no proxy to a
bus), these are invoked and leave the payload as it is. -/
theorem C11_publish_folds_payload {P : Type} (h : Del → P → P) (t b fuel : Nat) (p : P)
    (sys : Buses P) (hc : (sys.bus b).m_bCancel = false)
    (hf : (sys.mergedLive b).length < fuel) :
    ((∀ d ∈ sys.mergedLive b, d.bound) →
      ∃ sys2 log, Buses.publish h t fuel b p sys =
          some ((sys.mergedLive b).foldl (fun q d => h d q) p, sys2) ∧
        sys2.passed = sys.passed ++ log ∧
        log.length = (sys.mergedLive b).length ∧
        ∀ (i : Nat) (hi : i < (sys.mergedLive b).length),
          log[i]? = some (b, (sys.mergedLive b)[i],
            ((sys.mergedLive b).take i).foldl (fun q d => h d q) p)) ∧
    ((∀ d ∈ sys.mergedLive b, (∀ o, d.target ≠ .wildcard o) ∧
        ∀ e, d.target = .proxie e → e = 0) →
      ∃ sys2, Buses.publish h t fuel b p sys =
          some ((sys.mergedLive b).foldl (fun q d => handlerEffect h d q) p, sys2) ∧
        sys2.passed = sys.passed ++ handlerLog h b p (sys.mergedLive b) ∧
        (handlerLog h b p (sys.mergedLive b)).length = (sys.mergedLive b).length ∧
        ∀ (i : Nat) (hi : i < (sys.mergedLive b).length),
          (handlerLog h b p (sys.mergedLive b))[i]? = some (b, (sys.mergedLive b)[i],
            ((sys.mergedLive b).take i).foldl (fun q d => handlerEffect h d q) p)) := by
  constructor
  · intro hb
    obtain ⟨sys2, h1, h2, -⟩ := publish_plain h t b fuel p sys hc
      (fun d hd => bound_proxied d (hb d hd)) hf
    obtain ⟨e1, e2⟩ := fold_bound h b p (sys.mergedLive b) hb
    rw [e2] at h1
    rw [e1] at h2
    refine ⟨sys2, handlerLog h b p (sys.mergedLive b), h1, h2, handlerLog_length h b p _, ?_⟩
    intro i hi
    rw [handlerLog_getElem h b p _ i hi,
      foldl_handlerEffect_bound h p _ (fun d hd => hb d (List.mem_of_mem_take hd))]
  · intro hp
    obtain ⟨sys2, h1, h2, -⟩ := publish_plain h t b fuel p sys hc
      (fun d hd => plain_proxied d (hp d hd).2) hf
    obtain ⟨e1, e2⟩ := foldLog_eq_handlerLog h b p (sys.mergedLive b) (fun d hd => (hp d hd).1)
    rw [e2] at h1
    rw [e1] at h2
    exact ⟨sys2, h1, h2, handlerLog_length h b p _, fun i hi => handlerLog_getElem h b p _ i hi⟩

/-- Witness of C11: two handlers on the bus at 2 of `demoBuses`; the first is passed 0 and
leaves 5, the second is passed 5 and leaves 56, which is what the caller finds.  On the bus
at 5 of `chainBuses` the two delegates with a null pointer are invoked and leave the payload
12 of the first handler as it is; the last handler makes it 135. -/
theorem C11_publish_folds_payload_witness :
    (∃ sys2, Buses.publish demoCode 1 3 2 0 demoBuses = some (56, sys2) ∧
      sys2.passed = [(2, ⟨5, .funct 200⟩, 0), (2, ⟨6, .funct 300⟩, 5)]) ∧
    (∃ sys2, Buses.publish demoCode 1 5 5 0 chainBuses = some (135, sys2) ∧
      sys2.passed = [(5, ⟨12, .funct 700⟩, 0), (5, ⟨13, .funct 0⟩, 12),
        (5, ⟨14, .obj 0 3⟩, 12), (5, ⟨15, .obj 5 6⟩, 12)]) := by
  constructor
  · obtain ⟨sys2, log, h1, h2, h3, h4⟩ :=
      (C11_publish_folds_payload demoCode 1 2 3 0 demoBuses (by decide) (by decide)).1
        (by decide)
    have hl : demoBuses.mergedLive 2 = [⟨5, .funct 200⟩, ⟨6, .funct 300⟩] := by decide
    have g0 := h4 0 (by rw [hl]; decide)
    have g1 := h4 1 (by rw [hl]; decide)
    have hlog : log = [(2, ⟨5, .funct 200⟩, 0), (2, ⟨6, .funct 300⟩, 5)] := by
      apply List.ext_getElem?
      intro i
      match i with
      | 0 => rw [g0]; rfl
      | 1 => rw [g1]; rfl
      | i + 2 =>
        have hlen : log.length = 2 := h3
        rw [List.getElem?_eq_none (by omega)]
        rfl
    refine ⟨sys2, h1, ?_⟩
    rw [h2, hlog]
    rfl
  · obtain ⟨sys2, h1, h2, -⟩ :=
      (C11_publish_folds_payload demoCode 1 5 5 0 chainBuses (by decide) (by decide)).2
        (by
          have hl : chainBuses.mergedLive 5 =
              [⟨12, .funct 700⟩, ⟨13, .funct 0⟩, ⟨14, .obj 0 3⟩, ⟨15, .obj 5 6⟩] := by decide
          intro d hd
          rw [hl] at hd
          simp only [List.mem_cons, List.mem_singleton, List.not_mem_nil, or_false] at hd
          rcases hd with rfl | rfl | rfl | rfl <;> simp)
    exact ⟨sys2, h1, h2⟩

/-! ## Proxies (C12) -/

theorem buses_enter_mergedLive {P : Type} (sys : Buses P) (a b : Nat) (d : Del) (p : P) :
    (sys.enter a d p).mergedLive b = sys.mergedLive b := by
  unfold Buses.mergedLive
  by_cases hb : b = a
  · subst hb; simp
  · rw [buses_enter_other _ _ _ _ _ hb]

theorem buses_enter_cancel {P : Type} (sys : Buses P) (a b : Nat) (d : Del) (p : P) :
    ((sys.enter a d p).bus b).m_bCancel = (sys.bus b).m_bCancel := by
  by_cases hb : b = a
  · subst hb; simp
  · rw [buses_enter_other _ _ _ _ _ hb]

theorem buses_leave_mergedLive {P : Type} (sys : Buses P) (a b : Nat) :
    (sys.leave a).mergedLive b = sys.mergedLive b := by
  unfold Buses.mergedLive
  by_cases hb : b = a
  · subst hb; simp
  · rw [buses_leave_other _ _ _ hb]

theorem buses_leave_cancel {P : Type} (sys : Buses P) (a b : Nat) :
    ((sys.leave a).bus b).m_bCancel = (sys.bus b).m_bCancel := by
  by_cases hb : b = a
  · subst hb; simp
  · rw [buses_leave_other _ _ _ hb]

theorem buses_lockAndMerge_mergedLive {P : Type} (sys : Buses P) (t a b : Nat) :
    (sys.lockAndMerge t a).mergedLive b = sys.mergedLive b := by
  unfold Buses.mergedLive
  by_cases hb : b = a
  · subst hb; simp
  · rw [buses_lockAndMerge_other _ _ _ _ hb]

theorem buses_lockAndMerge_cancel {P : Type} (sys : Buses P) (t a b : Nat) :
    ((sys.lockAndMerge t a).bus b).m_bCancel = (sys.bus b).m_bCancel := by
  by_cases hb : b = a
  · subst hb; simp
  · rw [buses_lockAndMerge_other _ _ _ _ hb]

theorem buses_mergeAndUnlock_mergedLive {P : Type} (sys : Buses P) (a b : Nat)
    (lock : Option Nat) : (sys.mergeAndUnlock a lock).mergedLive b = sys.mergedLive b := by
  unfold Buses.mergedLive
  by_cases hb : b = a
  · subst hb; simp
  · rw [buses_mergeAndUnlock_other _ _ _ _ hb]

theorem buses_mergeAndUnlock_cancel {P : Type} (sys : Buses P) (a b : Nat)
    (lock : Option Nat) :
    ((sys.mergeAndUnlock a lock).bus b).m_bCancel = (sys.bus b).m_bCancel := by
  by_cases hb : b = a
  · subst hb; simp
  · rw [buses_mergeAndUnlock_other _ _ _ _ hb]

theorem forwardList_cons_plain {P : Type} (h : Del → P → P) (a : Nat)
    (nested : Nat → P → P × List (Nat × Del × P)) (p : P) (d : Del) (ds : List Del)
    (hd : ∀ e, d.target ≠ .proxie e) :
    forwardList h a nested p (d :: ds) =
      ((forwardList h a nested (handlerEffect h d p) ds).1,
        (a, d, p) :: (forwardList h a nested (handlerEffect h d p) ds).2) := by
  cases ht : d.target with
  | proxie e => exact absurd ht (hd e)
  | funct f => simp [forwardList, ht]
  | obj o m => simp [forwardList, ht]
  | wildcard o => simp [forwardList, ht]

theorem forwardList_cons_null {P : Type} (h : Del → P → P) (a : Nat)
    (nested : Nat → P → P × List (Nat × Del × P)) (p : P) (d : Del) (ds : List Del)
    (hd : d.target = .proxie 0) :
    forwardList h a nested p (d :: ds) =
      ((forwardList h a nested p ds).1, (a, d, p) :: (forwardList h a nested p ds).2) := by
  simp [forwardList, hd]

theorem forwardList_cons_some {P : Type} (h : Del → P → P) (a : Nat)
    (nested : Nat → P → P × List (Nat × Del × P)) (p : P) (d : Del) (ds : List Del) (e : Nat)
    (hd : d.target = .proxie e) (he : e ≠ 0) :
    forwardList h a nested p (d :: ds) =
      ((forwardList h a nested (nested e p).1 ds).1,
        (a, d, p) :: ((nested e p).2 ++ (forwardList h a nested (nested e p).1 ds).2)) := by
  simp [forwardList, hd, he]

/-- The loop on a bus whose proxies lead to buses of lower rank, on which a publish is known
to give `nested`. -/
theorem dispatchOn_forward {P : Type} (h : Del → P → P) (t a : Nat) (L : Nat → List Del)
    (rank : Nat → Nat) (nested : Nat → P → P × List (Nat × Del × P)) (fuel0 : Nat)
    (hw : ∀ d ∈ L a, ∀ o, d.target ≠ .wildcard o)
    (hrank : ∀ d ∈ L a, ∀ e, d.target = .proxie e → e ≠ 0 → rank e < rank a)
    (hnest : ∀ e, rank e < rank a → ∀ fuel, fuel0 ≤ fuel → ∀ (q : P) (sys : Buses P),
      (∀ b, (sys.bus b).m_bCancel = false) → (∀ b, sys.mergedLive b = L b) →
      ∃ sys2, Buses.publish h t fuel e q sys = some ((nested e q).1, sys2) ∧
        sys2.passed = sys.passed ++ (nested e q).2 ∧
        (∀ b, (sys2.bus b).m_bCancel = false) ∧ (∀ b, sys2.mergedLive b = L b) ∧
        ∀ b, rank e < rank b → sys2.bus b = sys.bus b)
    (fuel x : Nat) (p : P) (sys : Buses P)
    (hc : ∀ b, (sys.bus b).m_bCancel = false) (hL : ∀ b, sys.mergedLive b = L b)
    (hlive : (sys.bus a).m_vDelegates = L a)
    (hf : (L a).length - x + 1 + fuel0 ≤ fuel) :
    ∃ sys2, Buses.dispatchOn h t fuel a x p sys =
        some ((forwardList h a nested p ((L a).drop x)).1, sys2) ∧
      sys2.passed = sys.passed ++ (forwardList h a nested p ((L a).drop x)).2 ∧
      (∀ b, (sys2.bus b).m_bCancel = false) ∧ (∀ b, sys2.mergedLive b = L b) ∧
      (sys2.bus a).m_vDelegates = L a ∧
      ∀ b, rank a < rank b → sys2.bus b = sys.bus b := by
  induction fuel generalizing x p sys with
  | zero => omega
  | succ fuel ih =>
    rw [dispatchOn_succ]
    cases hget : (sys.bus a).m_vDelegates[x]? with
    | none =>
      have hx : (sys.bus a).m_vDelegates.length ≤ x := List.getElem?_eq_none_iff.1 hget
      rw [hlive] at hx
      refine ⟨sys, ?_, ?_, hc, hL, hlive, fun _ _ => rfl⟩
      · simp [List.drop_eq_nil_of_le hx, forwardList]
      · simp [List.drop_eq_nil_of_le hx, forwardList]
    | some d =>
      have hget2 : (L a)[x]? = some d := by rw [← hlive]; exact hget
      have hd : d ∈ L a := List.getElem?_mem hget2
      obtain ⟨hx, hxd⟩ := List.getElem?_eq_some_iff.1 hget2
      have hdrop : (L a).drop x = d :: (L a).drop (x + 1) := by
        rw [← hxd, List.drop_eq_getElem_cons hx]
      have frame : ∀ (sys4 : Buses P) (q : P) (log : List (Nat × Del × P)),
          sys4.passed = sys.passed ++ (a, d, p) :: log →
          (∀ b, (sys4.bus b).m_bCancel = false) → (∀ b, sys4.mergedLive b = L b) →
          sys4.bus a = (sys.enter a d p).bus a →
          (∀ b, rank a < rank b → sys4.bus b = sys.bus b) →
          ∃ sys2, (if ((sys4.leave a).bus a).m_bCancel then some (q, sys4.leave a)
              else Buses.dispatchOn h t fuel a (x + 1) q (sys4.leave a)) =
              some ((forwardList h a nested q ((L a).drop (x + 1))).1, sys2) ∧
            sys2.passed = sys.passed ++
              (a, d, p) :: (log ++ (forwardList h a nested q ((L a).drop (x + 1))).2) ∧
            (∀ b, (sys2.bus b).m_bCancel = false) ∧ (∀ b, sys2.mergedLive b = L b) ∧
            (sys2.bus a).m_vDelegates = L a ∧
            ∀ b, rank a < rank b → sys2.bus b = sys.bus b := by
        intro sys4 q log k2 k3 k4 ha4 k5
        have hcl : ((sys4.leave a).bus a).m_bCancel = false := by
          rw [buses_leave_cancel]; exact k3 a
        rw [hcl]
        simp only [Bool.false_eq_true, if_false]
        obtain ⟨sys2, h1, h2, h3, h4, h5, h6⟩ := ih (x + 1) q (sys4.leave a)
          (fun b => by rw [buses_leave_cancel]; exact k3 b)
          (fun b => by rw [buses_leave_mergedLive]; exact k4 b)
          (by simp only [buses_leave_same, ha4, buses_enter_same]; exact hlive)
          (by omega)
        refine ⟨sys2, h1, ?_, h3, h4, h5, ?_⟩
        · rw [h2, buses_leave_passed, k2]
          simp
        · intro b hb
          have hba : b ≠ a := by
            intro e
            rw [e] at hb
            exact Nat.lt_irrefl _ hb
          rw [h6 b hb, buses_leave_other _ _ _ hba]
          exact k5 b hb
      have henter : ∀ b, rank a < rank b → (sys.enter a d p).bus b = sys.bus b := by
        intro b hb
        have hba : b ≠ a := by
          intro e
          rw [e] at hb
          exact Nat.lt_irrefl _ hb
        exact buses_enter_other _ _ _ _ _ hba
      by_cases hprox : ∃ e, d.target = .proxie e ∧ e ≠ 0
      · obtain ⟨e, ht, he⟩ := hprox
        have hp : d.proxied = some e := by simp [Del.proxied, ht, he]
        have hr : rank e < rank a := hrank d hd e ht he
        obtain ⟨sys4, k1, k2, k3, k4, k5⟩ := hnest e hr fuel (by omega) p (sys.enter a d p)
          (fun b => by rw [buses_enter_cancel]; exact hc b)
          (fun b => by rw [buses_enter_mergedLive]; exact hL b)
        simp only [hp, k1]
        obtain ⟨sys2, h1, h2, h3⟩ := frame sys4 (nested e p).1 (nested e p).2
          (by rw [k2, buses_enter_passed]; simp) k3 k4 (k5 a hr)
          (fun b hb => by rw [k5 b (Nat.lt_trans hr hb)]; exact henter b hb)
        refine ⟨sys2, ?_, ?_, h3⟩
        · rw [hdrop, forwardList_cons_some h a nested p d _ e ht he]
          exact h1
        · rw [hdrop, forwardList_cons_some h a nested p d _ e ht he]
          exact h2
      · have hp : d.proxied = none :=
          plain_proxied d (fun e ht => by
            by_contra he
            exact hprox ⟨e, ht, he⟩)
        have ho : d.ownEffect h p = handlerEffect h d p :=
          ownEffect_eq_handlerEffect h d p (hw d hd)
        simp only [hp, ho]
        obtain ⟨sys2, h1, h2, h3⟩ := frame (sys.enter a d p) (handlerEffect h d p) []
          (by rw [buses_enter_passed]) (fun b => by rw [buses_enter_cancel]; exact hc b)
          (fun b => by rw [buses_enter_mergedLive]; exact hL b) rfl henter
        by_cases hnull : d.target = .proxie 0
        · have hq : handlerEffect h d p = p := by simp [handlerEffect, Del.bound, hnull]
          rw [hq] at h1 h2
          refine ⟨sys2, ?_, ?_, h3⟩
          · rw [hdrop, forwardList_cons_null h a nested p d _ hnull, hq]
            exact h1
          · rw [hdrop, forwardList_cons_null h a nested p d _ hnull]
            simpa using h2
        · have hplain : ∀ e, d.target ≠ .proxie e := by
            intro e ht
            by_cases he : e = 0
            · rw [he] at ht
              exact hnull ht
            · exact hprox ⟨e, ht, he⟩
          refine ⟨sys2, ?_, ?_, h3⟩
          · rw [hdrop, forwardList_cons_plain h a nested p d _ hplain]
            exact h1
          · rw [hdrop, forwardList_cons_plain h a nested p d _ hplain]
            simpa using h2

/-- A publish on a bus whose proxies lead to buses of lower rank, on which a publish is
known to give `nested`. -/
theorem publish_forward_step {P : Type} (h : Del → P → P) (t a : Nat) (L : Nat → List Del)
    (rank : Nat → Nat) (nested : Nat → P → P × List (Nat × Del × P)) (fuel0 : Nat)
    (hw : ∀ d ∈ L a, ∀ o, d.target ≠ .wildcard o)
    (hrank : ∀ d ∈ L a, ∀ e, d.target = .proxie e → e ≠ 0 → rank e < rank a)
    (hnest : ∀ e, rank e < rank a → ∀ fuel, fuel0 ≤ fuel → ∀ (q : P) (sys : Buses P),
      (∀ b, (sys.bus b).m_bCancel = false) → (∀ b, sys.mergedLive b = L b) →
      ∃ sys2, Buses.publish h t fuel e q sys = some ((nested e q).1, sys2) ∧
        sys2.passed = sys.passed ++ (nested e q).2 ∧
        (∀ b, (sys2.bus b).m_bCancel = false) ∧ (∀ b, sys2.mergedLive b = L b) ∧
        ∀ b, rank e < rank b → sys2.bus b = sys.bus b)
    (fuel : Nat) (p : P) (sys : Buses P)
    (hc : ∀ b, (sys.bus b).m_bCancel = false) (hL : ∀ b, sys.mergedLive b = L b)
    (hf : (L a).length + 1 + fuel0 ≤ fuel) :
    ∃ sys2, Buses.publish h t fuel a p sys =
        some ((forwardList h a nested p (L a)).1, sys2) ∧
      sys2.passed = sys.passed ++ (forwardList h a nested p (L a)).2 ∧
      (∀ b, (sys2.bus b).m_bCancel = false) ∧ (∀ b, sys2.mergedLive b = L b) ∧
      ∀ b, rank a < rank b → sys2.bus b = sys.bus b := by
  obtain ⟨sys1, h1, h2, h3, h4, -, h6⟩ := dispatchOn_forward h t a L rank nested fuel0 hw hrank
    hnest fuel 0 p (sys.lockAndMerge t a)
    (fun b => by rw [buses_lockAndMerge_cancel]; exact hc b)
    (fun b => by rw [buses_lockAndMerge_mergedLive]; exact hL b)
    (by
      have := hL a
      unfold Buses.mergedLive at this
      simpa using this)
    (by omega)
  simp only [List.drop_zero, buses_lockAndMerge_passed] at h1 h2
  refine ⟨sys1.mergeAndUnlock a (sys.bus a).m_Lock, by simp only [Buses.publish, h1],
    by simpa using h2, ?_, ?_, ?_⟩
  · intro b
    rw [buses_mergeAndUnlock_cancel]
    exact h3 b
  · intro b
    rw [buses_mergeAndUnlock_mergedLive]
    exact h4 b
  · intro b hb
    have hba : b ≠ a := by
      intro e
      rw [e] at hb
      exact Nat.lt_irrefl _ hb
    rw [buses_mergeAndUnlock_other _ _ _ _ hba, h6 b hb, buses_lockAndMerge_other _ _ _ _ hba]

/-- A publish on a bus from which every chain of proxies passes at most `k` buses. -/
theorem publish_forward {P : Type} (h : Del → P → P) (t : Nat) (L : Nat → List Del)
    (rank : Nat → Nat) (M : Nat)
    (hw : ∀ b, ∀ d ∈ L b, ∀ o, d.target ≠ .wildcard o)
    (hrank : ∀ b, ∀ d ∈ L b, ∀ e, d.target = .proxie e → e ≠ 0 → rank e < rank b)
    (hM : ∀ b, (L b).length ≤ M) (k : Nat) :
    ∀ a, rank a ≤ k → ∀ fuel, (k + 1) * (M + 1) ≤ fuel → ∀ (q : P) (sys : Buses P),
      (∀ b, (sys.bus b).m_bCancel = false) → (∀ b, sys.mergedLive b = L b) →
      ∃ sys2, Buses.publish h t fuel a q sys = some ((forwardRun h L k a q).1, sys2) ∧
        sys2.passed = sys.passed ++ (forwardRun h L k a q).2 ∧
        (∀ b, (sys2.bus b).m_bCancel = false) ∧ (∀ b, sys2.mergedLive b = L b) ∧
        ∀ b, rank a < rank b → sys2.bus b = sys.bus b := by
  induction k with
  | zero =>
    intro a ha fuel hf q sys hc hL
    have hMa := hM a
    exact publish_forward_step h t a L rank (fun _ q => (q, [])) 0 (hw a) (hrank a)
      (fun e he => by omega) fuel q sys hc hL (by simp only [Nat.zero_add, Nat.one_mul] at hf; omega)
  | succ k ih =>
    intro a ha fuel hf q sys hc hL
    have hMa := hM a
    have hmul : (k + 1 + 1) * (M + 1) = (k + 1) * (M + 1) + (M + 1) := by ring
    rw [hmul] at hf
    exact publish_forward_step h t a L rank (forwardRun h L k) ((k + 1) * (M + 1)) (hw a)
      (hrank a) (fun e he fuel2 hf2 q2 sys2 hc2 hL2 => ih e (by omega) fuel2 hf2 q2 sys2 hc2 hL2)
      fuel q sys hc hL (by omega)

/-- A publish on a bus whose proxies lead to buses that hold no proxy, in terms of the
model of the loop. -/
theorem publish_proxies {P : Type} (h : Del → P → P) (t a fuel M : Nat) (p : P)
    (sys : Buses P) (hc : (sys.bus a).m_bCancel = false)
    (hprox : ∀ d ∈ sys.mergedLive a, ∀ e, d.proxied = some e →
      e ≠ a ∧ (sys.bus e).m_bCancel = false ∧
        (∀ d2 ∈ sys.mergedLive e, d2.proxied = none) ∧ (sys.mergedLive e).length ≤ M)
    (hf : (sys.mergedLive a).length + M + 1 ≤ fuel) :
    ∃ sys2, Buses.publish h t fuel a p sys =
        some (proxyPayload h sys.mergedLive p (sys.mergedLive a), sys2) ∧
      sys2.passed = sys.passed ++ proxyLog h sys.mergedLive a p (sys.mergedLive a) := by
  have hm : ((sys.lockAndMerge t a).bus a).m_vDelegates = sys.mergedLive a := by
    simp [Buses.mergedLive]
  obtain ⟨sys1, h1, h2, -, -⟩ := dispatchOn_proxies h t a M sys.mergedLive fuel 0 p
    (sys.lockAndMerge t a) (by simpa using hc)
    (by
      rw [hm]
      intro d hd e he
      obtain ⟨g1, g2, -, -⟩ := hprox d hd e he
      refine ⟨g1, ?_, ?_⟩
      · rw [buses_lockAndMerge_other _ _ _ _ g1]; exact g2
      · unfold Buses.mergedLive
        rw [buses_lockAndMerge_other _ _ _ _ g1])
    (by
      rw [hm]
      intro d hd e he
      exact (hprox d hd e he).2.2)
    (by rw [hm]; omega)
  rw [hm] at h1 h2
  simp only [List.drop_zero, buses_lockAndMerge_passed] at h1 h2
  exact ⟨sys1.mergeAndUnlock a (sys.bus a).m_Lock, by simp only [Buses.publish, h1],
    by simpa using h2⟩

/-- The model of a publish on a bus with one proxy, spelled out. -/
theorem proxyLog_single {P : Type} (h : Del → P → P) (L : Nat → List Del) (a : Nat) (p : P)
    (pre post : List Del) (d : Del) (e : Nat) (hpre : ∀ x ∈ pre, x.proxied = none)
    (hpost : ∀ x ∈ post, x.proxied = none) (hd : d.proxied = some e) :
    proxyLog h L a p (pre ++ d :: post) =
        foldLog h a p pre ++ (a, d, foldPayload h p pre) ::
          (foldLog h e (foldPayload h p pre) (L e) ++
            foldLog h a (foldPayload h (foldPayload h p pre) (L e)) post) ∧
      proxyPayload h L p (pre ++ d :: post) =
        foldPayload h (foldPayload h (foldPayload h p pre) (L e)) post := by
  obtain ⟨a1, a2⟩ := proxyLog_append h L a p pre (d :: post)
  obtain ⟨b1, b2⟩ := proxyLog_plain h L a p pre hpre
  obtain ⟨c1, c2⟩ := proxyLog_cons_some h L a (foldPayload h p pre) d post e hd
  obtain ⟨d1, d2⟩ := proxyLog_plain h L a (foldPayload h (foldPayload h p pre) (L e)) post hpost
  rw [a1, a2, b1, b2, c1, c2, d1, d2]
  exact ⟨rfl, rfl⟩

/-- C12: a publish of `p` on bus `a`, with handlers that act on the payload only and no bus
being cancelled, returns, and a proxy forwards the payload it is passed.  (1) When the live
sequence of `a` is `pre ++ d :: post`, `d` a proxy to another bus `e` and all other delegates
of `a` and `e` bound to user code, the delegates of `pre` are invoked, then `d`, then at once
every live delegate of `e` in the order of `e`, the first of them with the very payload `d`
was passed, then the delegates of `post` with the payload as the delegates of `e` left it;
the caller finds the fold of the user code over `pre`, the live sequence of `e`, and `post`.
(2) A proxy whose bus pointer is null is invoked and nothing else happens.  (3) The same for
any number of proxies and for proxied buses that hold proxies themselves: when every chain
of proxies from `a` passes at most `k` buses (`rank` decreases along proxies), the publish
gives the payload and the invocations of `forwardRun`. -/
theorem C12_proxy_forwards_payload {P : Type} (h : Del → P → P) (t a : Nat) (p : P)
    (sys : Buses P) (hc : (sys.bus a).m_bCancel = false) :
    (∀ (pre post : List Del) (d : Del) (e fuel : Nat),
      sys.mergedLive a = pre ++ d :: post → d.target = .proxie e → e ≠ 0 → e ≠ a →
      (sys.bus e).m_bCancel = false →
      (∀ x ∈ pre, x.bound) → (∀ x ∈ post, x.bound) → (∀ x ∈ sys.mergedLive e, x.bound) →
      (sys.mergedLive a).length + (sys.mergedLive e).length + 1 ≤ fuel →
      ∃ sys2, Buses.publish h t fuel a p sys =
          some ((pre ++ sys.mergedLive e ++ post).foldl (fun q x => h x q) p, sys2) ∧
        sys2.passed = sys.passed ++ (handlerLog h a p pre ++
          (a, d, pre.foldl (fun q x => h x q) p) ::
            (handlerLog h e (pre.foldl (fun q x => h x q) p) (sys.mergedLive e) ++
              handlerLog h a ((pre ++ sys.mergedLive e).foldl (fun q x => h x q) p) post))) ∧
    (∀ (pre post : List Del) (d : Del) (fuel : Nat),
      sys.mergedLive a = pre ++ d :: post → d.target = .proxie 0 →
      (∀ x ∈ pre, x.bound) → (∀ x ∈ post, x.bound) → (sys.mergedLive a).length < fuel →
      ∃ sys2, Buses.publish h t fuel a p sys =
          some ((pre ++ post).foldl (fun q x => h x q) p, sys2) ∧
        sys2.passed = sys.passed ++ (handlerLog h a p pre ++
          (a, d, pre.foldl (fun q x => h x q) p) ::
            handlerLog h a (pre.foldl (fun q x => h x q) p) post)) ∧
    (∀ (rank : Nat → Nat) (k M fuel : Nat),
      (∀ b, (sys.bus b).m_bCancel = false) →
      (∀ b, ∀ d ∈ sys.mergedLive b, ∀ o, d.target ≠ .wildcard o) →
      (∀ b, ∀ d ∈ sys.mergedLive b, ∀ e, d.target = .proxie e → e ≠ 0 → rank e < rank b) →
      (∀ b, (sys.mergedLive b).length ≤ M) → rank a ≤ k → (k + 1) * (M + 1) ≤ fuel →
      ∃ sys2, Buses.publish h t fuel a p sys =
          some ((forwardRun h sys.mergedLive k a p).1, sys2) ∧
        sys2.passed = sys.passed ++ (forwardRun h sys.mergedLive k a p).2) := by
  refine ⟨?_, ?_, ?_⟩
  · intro pre post d e fuel hlive hd he hea hce hpre hpost hbe hf
    have hdp : d.proxied = some e := by simp [Del.proxied, hd, he]
    obtain ⟨sys2, h1, h2⟩ := publish_proxies h t a fuel (sys.mergedLive e).length p sys hc
      (by
        intro d2 hd2 e2 he2
        rw [hlive] at hd2
        rcases List.mem_append.1 hd2 with hm | hm
        · rw [bound_proxied d2 (hpre d2 hm)] at he2
          exact Option.noConfusion he2
        · rcases List.mem_cons.1 hm with hm | hm
          · rw [hm, hdp] at he2
            have hee : e = e2 := Option.some.inj he2
            subst hee
            exact ⟨hea, hce, fun x hx => bound_proxied x (hbe x hx), Nat.le_refl _⟩
          · rw [bound_proxied d2 (hpost d2 hm)] at he2
            exact Option.noConfusion he2)
      (by omega)
    rw [hlive] at h1 h2
    obtain ⟨s1, s2⟩ := proxyLog_single h sys.mergedLive a p pre post d e
      (fun x hx => bound_proxied x (hpre x hx)) (fun x hx => bound_proxied x (hpost x hx)) hdp
    rw [s2] at h1
    rw [s1] at h2
    have f1 : ∀ q, foldLog h a q pre = handlerLog h a q pre :=
      fun q => (fold_bound h a q pre hpre).1
    have f2 : ∀ q, foldPayload h q pre = pre.foldl (fun q x => h x q) q :=
      fun q => (fold_bound h a q pre hpre).2
    have f3 : ∀ q, foldLog h e q (sys.mergedLive e) = handlerLog h e q (sys.mergedLive e) :=
      fun q => (fold_bound h e q _ hbe).1
    have f4 : ∀ q, foldPayload h q (sys.mergedLive e) =
        (sys.mergedLive e).foldl (fun q x => h x q) q :=
      fun q => (fold_bound h e q _ hbe).2
    have f5 : ∀ q, foldLog h a q post = handlerLog h a q post :=
      fun q => (fold_bound h a q post hpost).1
    have f6 : ∀ q, foldPayload h q post = post.foldl (fun q x => h x q) q :=
      fun q => (fold_bound h a q post hpost).2
    rw [f6, f4, f2] at h1
    rw [f1, f2, f3, f4, f5] at h2
    refine ⟨sys2, ?_, ?_⟩
    · rw [h1, List.foldl_append, List.foldl_append]
    · rw [h2, List.foldl_append]
  · intro pre post d fuel hlive hd hpre hpost hf
    have hdp : d.proxied = none := by simp [Del.proxied, hd]
    obtain ⟨sys2, h1, h2, -⟩ := publish_plain h t a fuel p sys hc
      (by
        intro d2 hd2
        rw [hlive] at hd2
        rcases List.mem_append.1 hd2 with hm | hm
        · exact bound_proxied d2 (hpre d2 hm)
        · rcases List.mem_cons.1 hm with hm | hm
          · rw [hm]; exact hdp
          · exact bound_proxied d2 (hpost d2 hm))
      hf
    rw [hlive] at h1 h2
    have ho : ∀ q, d.ownEffect h q = q := by
      intro q
      simp [Del.ownEffect, hd]
    rw [foldPayload_append, foldPayload_cons, ho] at h1
    rw [foldLog_append, foldLog, ho] at h2
    have f1 : ∀ q, foldLog h a q pre = handlerLog h a q pre :=
      fun q => (fold_bound h a q pre hpre).1
    have f2 : ∀ q, foldPayload h q pre = pre.foldl (fun q x => h x q) q :=
      fun q => (fold_bound h a q pre hpre).2
    have f5 : ∀ q, foldLog h a q post = handlerLog h a q post :=
      fun q => (fold_bound h a q post hpost).1
    have f6 : ∀ q, foldPayload h q post = post.foldl (fun q x => h x q) q :=
      fun q => (fold_bound h a q post hpost).2
    rw [f6, f2] at h1
    rw [f1, f2, f5] at h2
    refine ⟨sys2, ?_, h2⟩
    rw [h1, List.foldl_append]
  · intro rank k M fuel hcs hw hrank hM hk hf
    obtain ⟨sys2, h1, h2, -⟩ := publish_forward h t sys.mergedLive rank M hw hrank hM k a hk
      fuel hf p sys hcs (fun _ => rfl)
    exact ⟨sys2, h1, h2⟩

/-- Witness of C12, on `chainBuses` with handlers that append the number of their object to
the digits of the payload.  A publish of 0 on the bus at 2: the proxy is passed 4, and so is
the first delegate of the bus at 3; the caller finds 4786.  A publish on the bus at 4: the
proxy to the null bus is passed 9 and so is the delegate after it.  A publish on the bus at
1, whose proxy leads to the bus at 2, whose proxy leads to the bus at 3. -/
theorem C12_proxy_forwards_payload_witness :
    (∃ sys2, Buses.publish demoCode 1 6 2 0 chainBuses = some (4786, sys2) ∧
      sys2.passed = [(2, ⟨4, .funct 200⟩, 0), (2, ⟨5, .proxie 3⟩, 4), (3, ⟨7, .funct 400⟩, 4),
        (3, ⟨8, .obj 5 6⟩, 47), (2, ⟨6, .funct 300⟩, 478)]) ∧
    (∃ sys2, Buses.publish demoCode 1 4 4 0 chainBuses = some (101, sys2) ∧
      sys2.passed = [(4, ⟨9, .funct 500⟩, 0), (4, ⟨10, .proxie 0⟩, 9),
        (4, ⟨11, .funct 600⟩, 9)]) ∧
    (∃ sys2, Buses.publish demoCode 1 15 1 0 chainBuses = some (147863, sys2) ∧
      sys2.passed = [(1, ⟨1, .funct 100⟩, 0), (1, ⟨2, .proxie 2⟩, 1), (2, ⟨4, .funct 200⟩, 1),
        (2, ⟨5, .proxie 3⟩, 14), (3, ⟨7, .funct 400⟩, 14), (3, ⟨8, .obj 5 6⟩, 147),
        (2, ⟨6, .funct 300⟩, 1478), (1, ⟨3, .obj 7 8⟩, 14786)]) := by
  refine ⟨?_, ?_, ?_⟩
  · obtain ⟨sys2, h1, h2⟩ := (C12_proxy_forwards_payload demoCode 1 2 0 chainBuses
      (by decide)).1 [⟨4, .funct 200⟩] [⟨6, .funct 300⟩] ⟨5, .proxie 3⟩ 3 6
      (by decide) rfl (by decide) (by decide) (by decide) (by decide) (by decide) (by decide)
      (by decide)
    exact ⟨sys2, h1, h2⟩
  · obtain ⟨sys2, h1, h2⟩ := (C12_proxy_forwards_payload demoCode 1 4 0 chainBuses
      (by decide)).2.1 [⟨9, .funct 500⟩] [⟨11, .funct 600⟩] ⟨10, .proxie 0⟩ 4
      (by decide) rfl (by decide) (by decide) (by decide)
    exact ⟨sys2, h1, h2⟩
  · have hl : ∀ b, chainBuses.mergedLive b =
        if b = 1 then [⟨1, .funct 100⟩, ⟨2, .proxie 2⟩, ⟨3, .obj 7 8⟩]
        else if b = 2 then [⟨4, .funct 200⟩, ⟨5, .proxie 3⟩, ⟨6, .funct 300⟩]
        else if b = 3 then [⟨7, .funct 400⟩, ⟨8, .obj 5 6⟩]
        else if b = 4 then [⟨9, .funct 500⟩, ⟨10, .proxie 0⟩, ⟨11, .funct 600⟩]
        else if b = 5 then
          [⟨12, .funct 700⟩, ⟨13, .funct 0⟩, ⟨14, .obj 0 3⟩, ⟨15, .obj 5 6⟩]
        else [] := by
      intro b
      unfold Buses.mergedLive chainBuses
      simp only []
      split_ifs <;> rfl
    obtain ⟨sys2, h1, h2⟩ := (C12_proxy_forwards_payload demoCode 1 1 0 chainBuses
      (by decide)).2.2 chainRank 2 4 15
      (by
        intro b
        unfold chainBuses
        simp only []
        split_ifs <;> rfl)
      (by
        intro b d hd o ht
        rw [hl] at hd
        split_ifs at hd <;> simp at hd <;> rcases hd with rfl | rfl | rfl | rfl <;>
          simp at ht)
      (by
        intro b d hd e ht he
        rw [hl] at hd
        split_ifs at hd with b1 b2 b3 b4 b5 <;> simp at hd <;>
          rcases hd with rfl | rfl | rfl | rfl <;> simp at ht <;> subst ht <;>
          first
          | exact absurd rfl he
          | (subst b1; decide)
          | (subst b2; decide))
      (by
        intro b
        rw [hl]
        split_ifs <;> decide)
      (by decide) (by decide)
    exact ⟨sys2, h1, h2⟩

end Desura
